import Mathlib

/-!
Verification of the reversible configuration merge engine in
`scripts/codex-config.py`.

The Python program manipulates nested TOML trees (Python `dict`s whose
values are booleans, integers, strings, lists, or nested `dict`s).  We
shallowly embed those trees as the inductive type `Value` below, with a
table represented as an association list of string keys (Python `dict`s
preserve insertion order, which an association list models exactly).
Every operation of the source file (`merge_dicts`, `collect_additions`,
`collect_changes`, `extract_header`, `format_*`, `dump_toml`,
`path_get`, `path_set`, `path_delete`, the `install` and `remove`
commands) is translated here; in-place mutation of dictionaries becomes
pure functions returning the updated table.
-/

set_option autoImplicit false

namespace CodexConfig

/-- A TOML value as produced by `tomllib`: a scalar (bool, int, string,
list) or a nested table.  Floats are not used by any claim and are
omitted; every algorithm of the source treats scalars uniformly. -/
inductive Value where
  | bool (b : Bool)
  | int (n : Int)
  | str (s : String)
  | arr (xs : List Value)
  | table (t : List (String × Value))
  deriving Repr

/-- A configuration tree: an insertion-ordered mapping from keys to values. -/
abbrev Table := List (String × Value)

mutual
/-- Structural equality of values, modelling Python `==` on parsed TOML
data (the spec's "structural equality, not identity"). -/
def beqValue : Value → Value → Bool
  | Value.bool a, Value.bool b => a == b
  | Value.int a, Value.int b => a == b
  | Value.str a, Value.str b => a == b
  | Value.arr xs, Value.arr ys => beqList xs ys
  | Value.table s, Value.table t => beqTable s t
  | _, _ => false

def beqList : List Value → List Value → Bool
  | [], [] => true
  | x :: xs, y :: ys => beqValue x y && beqList xs ys
  | _, _ => false

def beqTable : Table → Table → Bool
  | [], [] => true
  | (k, v) :: s, (k', v') :: t => k == k' && beqValue v v' && beqTable s t
  | _, _ => false
end

mutual
theorem beqValue_iff : ∀ a b : Value, beqValue a b = true ↔ a = b
  | Value.bool _, Value.bool _ => by simp [beqValue]
  | Value.bool _, Value.int _ => by simp [beqValue]
  | Value.bool _, Value.str _ => by simp [beqValue]
  | Value.bool _, Value.arr _ => by simp [beqValue]
  | Value.bool _, Value.table _ => by simp [beqValue]
  | Value.int _, Value.bool _ => by simp [beqValue]
  | Value.int _, Value.int _ => by simp [beqValue]
  | Value.int _, Value.str _ => by simp [beqValue]
  | Value.int _, Value.arr _ => by simp [beqValue]
  | Value.int _, Value.table _ => by simp [beqValue]
  | Value.str _, Value.bool _ => by simp [beqValue]
  | Value.str _, Value.int _ => by simp [beqValue]
  | Value.str _, Value.str _ => by simp [beqValue]
  | Value.str _, Value.arr _ => by simp [beqValue]
  | Value.str _, Value.table _ => by simp [beqValue]
  | Value.arr _, Value.bool _ => by simp [beqValue]
  | Value.arr _, Value.int _ => by simp [beqValue]
  | Value.arr _, Value.str _ => by simp [beqValue]
  | Value.arr xs, Value.arr ys => by simp [beqValue, beqList_iff xs ys]
  | Value.arr _, Value.table _ => by simp [beqValue]
  | Value.table _, Value.bool _ => by simp [beqValue]
  | Value.table _, Value.int _ => by simp [beqValue]
  | Value.table _, Value.str _ => by simp [beqValue]
  | Value.table _, Value.arr _ => by simp [beqValue]
  | Value.table s, Value.table t => by simp [beqValue, beqTable_iff s t]

theorem beqList_iff : ∀ xs ys : List Value, beqList xs ys = true ↔ xs = ys
  | [], [] => by simp [beqList]
  | [], _ :: _ => by simp [beqList]
  | _ :: _, [] => by simp [beqList]
  | x :: xs, y :: ys => by simp [beqList, beqValue_iff x y, beqList_iff xs ys]

theorem beqTable_iff : ∀ s t : Table, beqTable s t = true ↔ s = t
  | [], [] => by simp [beqTable]
  | [], _ :: _ => by simp [beqTable]
  | _ :: _, [] => by simp [beqTable]
  | (_, v) :: s, (_, v') :: t => by
    simp [beqTable, beqValue_iff v v', beqTable_iff s t, and_assoc]
end

instance : DecidableEq Value := fun a b => decidable_of_iff _ (beqValue_iff a b)

/-! ## Python dictionary primitives

The source mutates `dict`s; we model lookup (`d[k]` / `k in d`),
assignment (`d[k] = v`, which updates in place or appends a new key at
the end, as Python dicts do), and deletion (`del d[k]`). -/

/-- Lookup of a key, Python `d[k]` (first matching entry). -/
def lookupTable (t : Table) (k : String) : Option Value :=
  match t with
  | [] => none
  | (k', v) :: rest => if k' = k then some v else lookupTable rest k

/-- Membership test, Python `k in d`. -/
def hasKey (t : Table) (k : String) : Bool :=
  (lookupTable t k).isSome

/-- Assignment `d[k] = v`: replace the value in place if the key is
present, otherwise append the new binding at the end. -/
def setKey : Table → String → Value → Table
  | [], k, v => [(k, v)]
  | (k', v') :: rest, k, v =>
    if k' = k then (k, v) :: rest else (k', v') :: setKey rest k v

/-- Deletion `del d[k]` (the source only deletes keys known to be present). -/
def delKey : Table → String → Table
  | [], _ => []
  | (k', v') :: rest, k => if k' = k then rest else (k', v') :: delKey rest k

/-- The ordered key list of a table. -/
def keysOf (t : Table) : List String :=
  t.map Prod.fst

/-- Source `is_dict`: whether a value is a nested table. -/
def is_dict : Value → Bool
  | Value.table _ => true
  | _ => false

/-! ## `merge_dicts` (source lines 53-68)

The source's recursive merge: keys of `base` first (recursively merged
when both sides hold tables, otherwise the overlay value wins), then the
overlay-only keys in overlay order.  The per-key pass is `mergeGo`; the
nested recursive call inlines the body of `merge_dicts` so that the
recursion is structural in the first argument. -/

mutual
/-- The `for key in base` loop of `merge_dicts`. -/
def mergeGo : Table → Table → Table
  | [], _ => []
  | (k, bv) :: rest, overlay =>
    (k, mergeEntry bv (lookupTable overlay k)) :: mergeGo rest overlay

/-- The per-key body of the first loop of `merge_dicts`: when the key is
in the overlay and both values are tables, merge recursively (the nested
call inlines the body of `merge_dicts`); when the key is in the overlay
otherwise, the overlay value wins; when the key is only in the base, the
base value is kept. -/
def mergeEntry : Value → Option Value → Value
  | Value.table bt, some (Value.table ot) =>
    Value.table (mergeGo bt ot ++ ot.filter (fun p => !hasKey bt p.1))
  | _, some ov => ov
  | bv, none => bv
end

def merge_dicts (base overlay : Table) : Table :=
  mergeGo base overlay ++ overlay.filter (fun p => !hasKey base p.1)

/-! ## The change ledger entries (source `install`, lines 244-251) -/

/-- An addition entry `{"path": ..., "repo": ...}` recorded by
`collect_additions` / `collect_changes`. -/
structure AddEntry where
  path : List String
  repo : Value
  deriving Repr, DecidableEq

/-- An override entry `{"path": ..., "previous": ..., "repo": ...}`
recorded by `collect_changes`. -/
structure OvEntry where
  path : List String
  previous : Value
  repo : Value
  deriving Repr, DecidableEq

/-! ## `collect_additions` (source lines 71-76) -/

mutual
/-- Source `collect_additions`: record one addition per non-table leaf of
the repo value, keyed by its full path.  An empty table produces no
entries. -/
def collect_additions (path : List String) (repo_val : Value) : List AddEntry :=
  match repo_val with
  | Value.table t => collect_additions_table path t
  | v => [⟨path, v⟩]

/-- The `for key, value in repo_val.items()` loop inside `collect_additions`. -/
def collect_additions_table (path : List String) (t : Table) : List AddEntry :=
  match t with
  | [] => []
  | (k, v) :: rest => collect_additions (path ++ [k]) v ++ collect_additions_table path rest
end

/-! ## `collect_changes` (source lines 79-113)

The third source parameter pair `(existing_val, exists)` is modelled as
an `Option Value` (`none` for `exists = False`; the source never reads
`existing_val` when `exists` is false). -/

mutual
def collect_changes (path : List String) (repo_val : Value) (existing : Option Value) :
    List AddEntry × List OvEntry :=
  match repo_val with
  | Value.table rt =>
    match existing with
    | some ev =>
      match ev with
      | Value.table et => collect_changes_table path rt et
      | _ => ([], [⟨path, ev, Value.table rt⟩])
    | none => (collect_additions path (Value.table rt), [])
  | rv =>
    match existing with
    | some (Value.table et) => ([], [⟨path, Value.table et, rv⟩])
    | some ev => if ev = rv then ([], []) else ([], [⟨path, ev, rv⟩])
    | none => ([⟨path, rv⟩], [])

/-- The `for key, value in repo_val.items()` loop of `collect_changes`
(also the body of the `install` loop over `repo_data`, with `path = []`). -/
def collect_changes_table (path : List String) (rt et : Table) :
    List AddEntry × List OvEntry :=
  match rt with
  | [] => ([], [])
  | (k, v) :: rest =>
    let head :=
      match lookupTable et k with
      | some ev => collect_changes (path ++ [k]) v (some ev)
      | none => (collect_additions (path ++ [k]) v, [])
    let tail := collect_changes_table path rest et
    (head.1 ++ tail.1, head.2 ++ tail.2)
end

/-- The diff performed by `install` (source lines 247-251): walk the
repo tree key by key against the existing tree, from the empty path. -/
def diffTable (repo existing : Table) : List AddEntry × List OvEntry :=
  collect_changes_table [] repo existing

/-! ## `path_get`, `path_set`, `path_delete` (source lines 174-209) -/

/-- The walk inside `path_get`, on an arbitrary current value. -/
def path_get_val : Value → List String → Option Value
  | v, [] => some v
  | Value.table t, k :: rest =>
    match lookupTable t k with
    | some v => path_get_val v rest
    | none => none
  | _, _ :: _ => none

/-- Source `path_get`: `None` when a step hits a missing key or a
non-table, otherwise the value at the path. -/
def path_get (data : Table) (path : List String) : Option Value :=
  path_get_val (Value.table data) path

/-- The table a value walks into, Python
`current[key] if is_dict(current[key]) else {}`: the nested table when
the optional value is one, the fresh empty table otherwise. -/
def tableOfOpt : Option Value → Table
  | some (Value.table t) => t
  | _ => []

/-- Source `path_set`: walk `path[:-1]`, replacing a missing or
non-table intermediate with a fresh empty table, then assign the last
key.  All recorded ledger paths are nonempty; on `[]` the source would
raise (`path[-1]` on an empty list), which no caller reaches, and we
return the data unchanged. -/
def path_set (data : Table) : List String → Value → Table
  | [], _ => data
  | [k], value => setKey data k value
  | k :: rest, value =>
    setKey data k (Value.table (path_set (tableOfOpt (lookupTable data k)) rest value))

/-- Source `path_delete`: returns the updated table and whether a
deletion happened.  The upward pruning loop of the source (delete each
parent table that became empty, stop at the first non-empty one) is the
`t' = []` test on the way out of the recursion.  As with `path_set`,
the source would raise on `[]`, which no caller reaches. -/
def path_delete (data : Table) : List String → Table × Bool
  | [] => (data, false)
  | [k] => if hasKey data k then (delKey data k, true) else (data, false)
  | k :: rest =>
    match lookupTable data k with
    | some (Value.table t) =>
      match path_delete t rest with
      | (t', true) =>
        if t' = [] then (delKey data k, true) else (setKey data k (Value.table t'), true)
      | (_, false) => (data, false)
    | _ => (data, false)

/-! ## `extract_header` (source lines 36-46)

Documents' raw text is modelled as its list of lines (`str.splitlines`).
Python's `line.strip()` removes leading and trailing whitespace; the
source only asks whether the stripped line is empty and whether it
starts with `#`, which we compute from the characters after the leading
whitespace (the stripped line is empty exactly when every character is
whitespace, and its first character is the first non-whitespace one). -/

/-- The ASCII whitespace characters stripped by Python `str.strip()`. -/
def charIsSpace (c : Char) : Bool :=
  c = ' ' || c = '\t' || c = '\n' || c = '\x0d' || c = '\x0b' || c = '\x0c'

/-- Source `extract_header`: scan lines from the top; skip blank lines,
collect comment lines (stripped line starting with `#`), stop at the
first line that is neither. -/
def extract_header : List String → List String
  | [] => []
  | line :: rest =>
    match line.data.dropWhile charIsSpace with
    | [] => extract_header rest
    | c :: _ => if c = '#' then line :: extract_header rest else []

/-! ## `format_key`, `format_string`, `format_value`, `dump_toml`
(source lines 116-171) -/

def backslashStr : String := "\\"
def doubleBackslashStr : String := "\\\\"
def quoteStr : String := "\""
def escapedQuoteStr : String := "\\\""
def tripleQuoteStr : String := "\"\"\""
def escapedTripleQuoteStr : String := "\\\"\"\""
def emptyLine : String := ""

/-- Source `format_key`: bare if alphanumeric apart from `_` and `-`,
otherwise quoted with backslash and quote escaped. -/
def format_key (key : String) : String :=
  let stripped := key.toList.filter (fun c => c ≠ '_' ∧ c ≠ '-')
  if stripped ≠ [] ∧ stripped.all Char.isAlphanum then key
  else
    let escaped := (key.replace backslashStr doubleBackslashStr).replace quoteStr escapedQuoteStr
    quoteStr ++ escaped ++ quoteStr

/-- Source `format_string`: triple-quoted for multiline values,
quoted with escapes otherwise. -/
def format_string (value : String) : String :=
  if value.contains '\n' then
    let escaped :=
      ((value.replace backslashStr doubleBackslashStr).replace tripleQuoteStr
        escapedTripleQuoteStr).replace quoteStr escapedQuoteStr
    tripleQuoteStr ++ escaped ++ tripleQuoteStr
  else
    let escaped := (key_escape value)
    quoteStr ++ escaped ++ quoteStr
where
  key_escape (v : String) : String :=
    (v.replace backslashStr doubleBackslashStr).replace quoteStr escapedQuoteStr

def trueStr : String := "true"
def falseStr : String := "false"
def listOpen : String := "["
def listClose : String := "]"
def commaSep : String := ", "
def eqSep : String := " = "
def dotSep : String := "."

mutual
/-- Source `format_value` on bools, ints, strings and lists.  On a
nested table the source raises `ValueError`; `dump_toml` never calls it
on one (and no claim depends on that case), so we return `""` there. -/
def format_value : Value → String
  | Value.bool b => if b then trueStr else falseStr
  | Value.int n => toString n
  | Value.str s => format_string s
  | Value.arr xs => listOpen ++ format_list xs ++ listClose
  | Value.table _ => emptyLine

/-- Python `", ".join(format_value(item) for item in value)`. -/
def format_list : List Value → String
  | [] => emptyLine
  | [x] => format_value x
  | x :: rest => format_value x ++ commaSep ++ format_list rest
end

/-- The `[dotted.path]` table heading emitted by `emit_table`. -/
def tableHeading (path : List String) : String :=
  listOpen ++ String.intercalate dotSep (path.map format_key) ++ listClose

/-- The `key = value` line emitted for a scalar entry. -/
def kvLine (k : String) (v : Value) : String :=
  format_key k ++ eqSep ++ format_value v

/-- The first loop of `emit_table`: emit `key = value` lines for the
non-table entries, in table order. -/
def emitScalars (t : Table) (lines : List String) : List String :=
  lines ++ (t.filter (fun p => !is_dict p.2)).map (fun p => kvLine p.1 p.2)

mutual
/-- The second loop of source `emit_table`, over the nested-table
entries: a blank separator line when the accumulated output does not
already end in one, then the recursive `emit_table` call, whose body
(heading — the nested path is never empty — then scalar lines, then this
loop again) is inlined so that the recursion is structural. -/
def emitSubtables (path : List String) (t : Table) (lines : List String) : List String :=
  match t with
  | [] => lines
  | (k, v) :: rest => emitSubtables path rest (emitOneSubtable path k v lines)

/-- The body of the second `emit_table` loop for one entry: a non-table
entry contributes nothing here; a table entry gets the separator (when
needed) and the recursive `emit_table` output. -/
def emitOneSubtable (path : List String) (k : String) (v : Value)
    (lines : List String) : List String :=
  match v with
  | Value.table sub =>
    let lines' :=
      if lines ≠ [] ∧ lines.getLast? ≠ some emptyLine then lines ++ [emptyLine] else lines
    emitSubtables (path ++ [k]) sub (emitScalars sub (lines' ++ [tableHeading (path ++ [k])]))
  | _ => lines
end

/-- Source `emit_table` (inside `dump_toml`): heading for a non-root
path, scalar lines, then nested tables depth-first. -/
def emit_table (path : List String) (t : Table) (lines : List String) : List String :=
  let lines1 := if path = [] then lines else lines ++ [tableHeading path]
  emitSubtables path t (emitScalars t lines1)

/-- Source `dump_toml`, at the level of the `lines` list it builds:
header lines (followed by one blank line) when a header is given, then
the serialized tables.  The source finally joins the lines with
newlines and strips trailing whitespace, which does not affect the
leading lines that the header claims are about. -/
def dump_toml_lines (data : Table) (header : List String) : List String :=
  let lines := if header ≠ [] then header ++ [emptyLine] else []
  emit_table [] data lines

/-! ## The `install` and `remove` commands (source lines 233-333)

File contents are modelled at the tree level (the TOML reader/writer
pair is an external collaborator per the spec); raw text enters only as
the line lists handed to `extract_header`.  A missing file is `none`.
The side-channel `--opencode` import is a no-op when the flag is absent
and is not involved in any claim; `install` is modelled without it. -/

/-- The persisted state (`state` JSON): the change ledger. -/
structure Ledger where
  had_config : Bool
  existing_header : List String
  additions : List AddEntry
  overrides : List OvEntry
  deriving Repr, DecidableEq

/-- What `install` produces: the merged tree (and the lines written for
it), plus the ledger written to the state file. -/
structure InstallOut where
  mergedData : Table
  written : List String
  ledger : Ledger
  deriving Repr, DecidableEq

/-- Source `install` (lines 233-272): diff repo against existing, write
the merge with the chosen header, record the ledger.  `target` carries
the pre-existing document's tree and raw lines when the file exists. -/
def install_op (repo : Table) (repoText : List String)
    (target : Option (Table × List String)) : InstallOut :=
  let existing_data : Table := match target with | some p => p.1 | none => []
  let existing_header : List String :=
    match target with | some p => extract_header p.2 | none => []
  let changes := diffTable repo existing_data
  let merged := merge_dicts existing_data repo
  let repo_header := extract_header repoText
  let header := if repo_header ≠ [] then repo_header else existing_header
  { mergedData := merged
    written := dump_toml_lines merged header
    ledger :=
      { had_config := target.isSome
        existing_header := existing_header
        additions := changes.1
        overrides := changes.2 } }

/-- One override entry of the `remove` rollback loop (source lines
295-307): a missing path is skipped silently, a current value equal to
the recorded repo value is restored to the previous value, anything
else is left alone and counted. -/
def rollback_override (st : Table × Nat) (e : OvEntry) : Table × Nat :=
  match path_get st.1 e.path with
  | none => st
  | some current =>
    if current = e.repo then (path_set st.1 e.path e.previous, st.2)
    else (st.1, st.2 + 1)

/-- One addition entry of the rollback loop (source lines 309-320):
missing is skipped, a still-matching value is deleted (with pruning),
anything else is left alone and counted. -/
def rollback_addition (st : Table × Nat) (e : AddEntry) : Table × Nat :=
  match path_get st.1 e.path with
  | none => st
  | some current =>
    if current = e.repo then ((path_delete st.1 e.path).1, st.2)
    else (st.1, st.2 + 1)

/-- The rollback pass of `remove`: all override entries first, then all
addition entries, threading the mutated tree and the skipped count. -/
def rollback (overrides : List OvEntry) (additions : List AddEntry)
    (data : Table) : Table × Nat :=
  additions.foldl rollback_addition (overrides.foldl rollback_override (data, 0))

/-- The observable outcome of `remove`: target document after the
command (tree level), the lines written if a write happened, the state
file after, the skipped count, and the exit code. -/
structure RemoveOut where
  target : Option Table
  written : Option (List String)
  stateAfter : Option Ledger
  skipped : Nat
  exitCode : Nat
  deriving Repr, DecidableEq

/-- Source `remove` (lines 275-333): no state file means success with
nothing touched; a missing target discards the state file; otherwise
roll back, then write the result (or delete the target when the tree is
empty and no document pre-existed), delete the state file and succeed. -/
def remove_op (state : Option Ledger) (target : Option Table) : RemoveOut :=
  match state with
  | none => { target := target, written := none, stateAfter := none, skipped := 0, exitCode := 0 }
  | some st =>
    match target with
    | none => { target := none, written := none, stateAfter := none, skipped := 0, exitCode := 0 }
    | some data =>
      let result := rollback st.overrides st.additions data
      if result.1 ≠ [] then
        { target := some result.1
          written := some (dump_toml_lines result.1 st.existing_header)
          stateAfter := none
          skipped := result.2
          exitCode := 0 }
      else if st.had_config = false then
        { target := none, written := none, stateAfter := none,
          skipped := result.2, exitCode := 0 }
      else
        { target := some result.1
          written := some (dump_toml_lines result.1 st.existing_header)
          stateAfter := none
          skipped := result.2
          exitCode := 0 }

/-! ## Well-formedness invariants

Trees parsed from TOML have distinct keys at every level (`wfTable`);
`noEmptyVal` says the tree contains no empty sub-table. -/

mutual
def wfValue : Value → Bool
  | Value.table t => wfTable t
  | _ => true

def wfTable : Table → Bool
  | [] => true
  | (k, v) :: rest => !hasKey rest k && wfValue v && wfTable rest
end

mutual
def noEmptyVal : Value → Bool
  | Value.table t => !t.isEmpty && noEmptyTable t
  | _ => true

def noEmptyTable : Table → Bool
  | [] => true
  | (_, v) :: rest => noEmptyVal v && noEmptyTable rest
end

/-! ## Concrete keys and lines used by witnesses and counterexamples -/

def keyA : String := "a"
def keyB : String := "b"
def keyC : String := "c"
def headerLine : String := "# header"
def blankLine : String := ""

/-! ## Notions used to state the header claim -/

/-- A line whose Python `strip()` is empty: every character is whitespace. -/
def isBlankLine (l : String) : Bool :=
  (l.data.dropWhile charIsSpace).isEmpty

/-- A line whose stripped form starts with `#`. -/
def isCommentLine (l : String) : Bool :=
  match l.data.dropWhile charIsSpace with
  | c :: _ => c = '#'
  | [] => false

/-- The header `install` chooses for the merged document: the repo
document's header when non-empty, the pre-existing target's otherwise. -/
def installHeader (repoText : List String) (target : Option (Table × List String)) :
    List String :=
  let repo_header := extract_header repoText
  if repo_header ≠ [] then repo_header
  else match target with | some p => extract_header p.2 | none => []

/-! ## Derived operations used to state the claims -/

/-- An addition entry with a path prepended (recorded entries at path
`pre ++ s` correspond to entries at `s` of the sub-walk). -/
def addPrepend (pre : List String) (e : AddEntry) : AddEntry :=
  ⟨pre ++ e.path, e.repo⟩

/-- An override entry with a path prepended. -/
def ovPrepend (pre : List String) (e : OvEntry) : OvEntry :=
  ⟨pre ++ e.path, e.previous, e.repo⟩

/-- Set the repo value at each recorded addition path, in recorded order. -/
def applyAdds (d : Table) (es : List AddEntry) : Table :=
  es.foldl (fun acc e => path_set acc e.path e.repo) d

/-- Set the repo value at each recorded override path, in recorded order. -/
def applyOvs (d : Table) (es : List OvEntry) : Table :=
  es.foldl (fun acc e => path_set acc e.path e.repo) d

/-- The operation the merge/diff agreement property talks about: take
the existing tree and set the repo value at every recorded addition
path and at every recorded override path. -/
def applyDiff (d : Table) (changes : List AddEntry × List OvEntry) : Table :=
  applyOvs (applyAdds d changes.1) changes.2

/-- What `path_get d (h :: q)` sees below the head key, as a function of
the head value. -/
def headGet (cur : Option Value) (q : List String) : Option Value :=
  match cur with
  | some v => path_get_val v q
  | none => none

/-- The value `path_set d (h :: q) pv` stores at the head key. -/
def setVal (cur : Option Value) (q : List String) (pv : Value) : Value :=
  match q with
  | [] => pv
  | _ :: _ => Value.table (path_set (tableOfOpt cur) q pv)

/-- What a successful `path_delete d (h :: q)` leaves at the head key:
`some none` removes the key (pruning included), `some (some w)` stores
`w`. -/
def delRes (cur : Option Value) (q : List String) : Option (Option Value) :=
  match q with
  | [] => some none
  | _ :: _ =>
    if (path_delete (tableOfOpt cur) q).1 = [] then some none
    else some (some (Value.table (path_delete (tableOfOpt cur) q).1))

/-- Apply a head-local table modification: leave alone, delete the key,
or set it. -/
def stepRes (d : Table) (h : String) : Option (Option Value) → Table
  | none => d
  | some none => delKey d h
  | some (some w) => setKey d h w

/-- What one override rollback step does at the head key, as a function
of the current head value: the modification and the skipped increment. -/
def ovStepSpec (cur : Option Value) (q : List String) (pv rv : Value) :
    Option (Option Value) × Nat :=
  match headGet cur q with
  | none => (none, 0)
  | some g => if g = rv then (some (some (setVal cur q pv)), 0) else (none, 1)

/-- What one addition rollback step does at the head key. -/
def addStepSpec (cur : Option Value) (q : List String) (rv : Value) :
    Option (Option Value) × Nat :=
  match headGet cur q with
  | none => (none, 0)
  | some g => if g = rv then (delRes cur q, 0) else (none, 1)

/-- `startsWithPath p q` holds when `p` is an initial segment of `q`:
the location `q` is `p` itself or a strict descendant of `p`. -/
def startsWithPath : List String → List String → Bool
  | [], _ => true
  | _ :: _, [] => false
  | a :: p', b :: q' => if a = b then startsWithPath p' q' else false

/-- Every strict ancestor of the path at which the existing tree holds a
value holds a table there: no ancestor of the path can be recorded as an
Override (which happens exactly when the existing value at an ancestor
is not a table). -/
def ancestorsTabled : Table → List String → Bool
  | _, [] => true
  | _, [_] => true
  | E, k :: r1 :: rest =>
    match lookupTable E k with
    | some (Value.table et) => ancestorsTabled et (r1 :: rest)
    | some _ => false
    | none => true

/-! ## Lemmas: dictionary primitives -/

@[simp] theorem lookupTable_nil (k : String) : lookupTable [] k = none := rfl

@[simp] theorem lookupTable_cons (k' : String) (v : Value) (rest : Table) (k : String) :
    lookupTable ((k', v) :: rest) k = if k' = k then some v else lookupTable rest k := rfl

theorem lookupTable_append (s t : Table) (k : String) :
    lookupTable (s ++ t) k =
      match lookupTable s k with
      | some v => some v
      | none => lookupTable t k := by
  induction s with
  | nil => simp
  | cons hd tl ih =>
    obtain ⟨k', v⟩ := hd
    by_cases h : k' = k <;> simp [h, ih]

@[simp] theorem hasKey_nil (k : String) : hasKey [] k = false := rfl

theorem hasKey_cons (k' : String) (v : Value) (rest : Table) (k : String) :
    hasKey ((k', v) :: rest) k = (if k' = k then true else hasKey rest k) := by
  by_cases h : k' = k <;> simp [hasKey, h]

theorem hasKey_true_iff (t : Table) (k : String) :
    hasKey t k = true ↔ ∃ v, lookupTable t k = some v := by
  cases h : lookupTable t k <;> simp [hasKey, h]

theorem hasKey_false_iff (t : Table) (k : String) :
    hasKey t k = false ↔ lookupTable t k = none := by
  cases h : lookupTable t k <;> simp [hasKey, h]

@[simp] theorem keysOf_nil : keysOf [] = [] := rfl

@[simp] theorem keysOf_cons (k : String) (v : Value) (rest : Table) :
    keysOf ((k, v) :: rest) = k :: keysOf rest := rfl

theorem keysOf_append (s t : Table) : keysOf (s ++ t) = keysOf s ++ keysOf t := by
  simp [keysOf]

theorem hasKey_iff_mem (t : Table) (k : String) : hasKey t k = true ↔ k ∈ keysOf t := by
  induction t with
  | nil => simp
  | cons hd tl ih =>
    obtain ⟨k', v⟩ := hd
    by_cases h : k' = k
    · subst h
      simp [hasKey_cons]
    · simp [hasKey_cons, h, ih]
      exact fun hkk => absurd hkk.symm h

theorem lookupTable_eq_none_of_not_mem (t : Table) (k : String) (h : k ∉ keysOf t) :
    lookupTable t k = none := by
  rw [← hasKey_false_iff]
  cases hh : hasKey t k
  · rfl
  · exact absurd ((hasKey_iff_mem t k).mp hh) h

@[simp] theorem setKey_nil (k : String) (v : Value) : setKey [] k v = [(k, v)] := rfl

@[simp] theorem setKey_cons (k' : String) (v' : Value) (rest : Table) (k : String) (v : Value) :
    setKey ((k', v') :: rest) k v =
      if k' = k then (k, v) :: rest else (k', v') :: setKey rest k v := rfl

theorem lookupTable_setKey_self (t : Table) (k : String) (v : Value) :
    lookupTable (setKey t k v) k = some v := by
  induction t with
  | nil => simp
  | cons hd tl ih =>
    obtain ⟨k', v'⟩ := hd
    by_cases h : k' = k <;> simp [h, ih]

theorem lookupTable_setKey_ne (t : Table) (k : String) (v : Value) (k' : String)
    (h : k ≠ k') : lookupTable (setKey t k v) k' = lookupTable t k' := by
  induction t with
  | nil => simp [h]
  | cons hd tl ih =>
    obtain ⟨k1, v1⟩ := hd
    by_cases h1 : k1 = k
    · subst h1
      simp [h, ih]
    · by_cases h2 : k1 = k'
      · subst h2
        simp [h1]
      · simp [h1, h2, ih]

theorem setKey_absent (t : Table) (k : String) (v : Value)
    (h : lookupTable t k = none) : setKey t k v = t ++ [(k, v)] := by
  induction t with
  | nil => simp
  | cons hd tl ih =>
    obtain ⟨k1, v1⟩ := hd
    by_cases h1 : k1 = k
    · simp [h1] at h
    · simp [h1] at h ⊢
      exact ih h

theorem setKey_self (t : Table) (k : String) (v : Value)
    (h : lookupTable t k = some v) : setKey t k v = t := by
  induction t with
  | nil => simp at h
  | cons hd tl ih =>
    obtain ⟨k1, v1⟩ := hd
    by_cases h1 : k1 = k
    · subst h1
      simp at h ⊢
      simp [h]
    · simp [h1] at h ⊢
      exact ih h

theorem keysOf_setKey (t : Table) (k : String) (v : Value) :
    keysOf (setKey t k v) = if hasKey t k then keysOf t else keysOf t ++ [k] := by
  induction t with
  | nil => simp
  | cons hd tl ih =>
    obtain ⟨k1, v1⟩ := hd
    by_cases h1 : k1 = k <;> simp [h1, hasKey_cons, ih] <;> split <;> simp

theorem setKey_cons_self (k : String) (v w : Value) (rest : Table) :
    setKey ((k, v) :: rest) k w = (k, w) :: rest := by
  simp

theorem setKey_setKey (t : Table) (k : String) (v w : Value) :
    setKey (setKey t k v) k w = setKey t k w := by
  induction t with
  | nil => simp
  | cons hd tl ih =>
    obtain ⟨k1, v1⟩ := hd
    by_cases h1 : k1 = k <;> simp [h1, ih]

theorem setKey_comm (t : Table) (k1 k2 : String) (v1 v2 : Value) (hne : k1 ≠ k2)
    (h1 : hasKey t k1 = true) :
    setKey (setKey t k1 v1) k2 v2 = setKey (setKey t k2 v2) k1 v1 := by
  induction t with
  | nil => simp [hasKey] at h1
  | cons hd tl ih =>
    obtain ⟨k', v'⟩ := hd
    by_cases ha : k' = k1
    · subst ha
      simp [hne, Ne.symm hne]
    · by_cases hb : k' = k2
      · subst hb
        simp [hasKey_cons, ha] at h1
        simp [ha, Ne.symm hne, ih h1]
      · simp [hasKey_cons, ha] at h1
        simp [ha, hb, ih h1]

@[simp] theorem delKey_nil (k : String) : delKey [] k = [] := rfl

@[simp] theorem delKey_cons (k' : String) (v' : Value) (rest : Table) (k : String) :
    delKey ((k', v') :: rest) k = if k' = k then rest else (k', v') :: delKey rest k := rfl

theorem delKey_absent (t : Table) (k : String) (h : lookupTable t k = none) :
    delKey t k = t := by
  induction t with
  | nil => simp
  | cons hd tl ih =>
    obtain ⟨k1, v1⟩ := hd
    by_cases h1 : k1 = k
    · simp [h1] at h
    · simp [h1] at h ⊢
      exact ih h

theorem lookupTable_delKey_ne (t : Table) (k k' : String) (h : k ≠ k') :
    lookupTable (delKey t k) k' = lookupTable t k' := by
  induction t with
  | nil => simp
  | cons hd tl ih =>
    obtain ⟨k1, v1⟩ := hd
    by_cases h1 : k1 = k
    · subst h1
      simp [h]
    · by_cases h2 : k1 = k'
      · subst h2
        simp [h1]
      · simp [h1, h2, ih]

theorem delKey_setKey_same (t : Table) (k : String) (v : Value) :
    delKey (setKey t k v) k = delKey t k := by
  induction t with
  | nil => simp
  | cons hd tl ih =>
    obtain ⟨k1, v1⟩ := hd
    by_cases h1 : k1 = k <;> simp [h1, ih]

theorem delKey_comm (t : Table) (k1 k2 : String) (hne : k1 ≠ k2) :
    delKey (delKey t k1) k2 = delKey (delKey t k2) k1 := by
  induction t with
  | nil => simp
  | cons hd tl ih =>
    obtain ⟨k', v'⟩ := hd
    by_cases ha : k' = k1
    · subst ha
      simp [hne, Ne.symm hne]
    · by_cases hb : k' = k2
      · subst hb
        simp [ha, Ne.symm hne]
      · simp [ha, hb, ih]

theorem setKey_delKey_comm (t : Table) (k1 k2 : String) (v : Value) (hne : k1 ≠ k2) :
    setKey (delKey t k2) k1 v = delKey (setKey t k1 v) k2 := by
  induction t with
  | nil => simp [hne]
  | cons hd tl ih =>
    obtain ⟨k', v'⟩ := hd
    by_cases ha : k' = k1
    · subst ha
      simp [hne, Ne.symm hne]
    · by_cases hb : k' = k2
      · subst hb
        simp [ha, Ne.symm hne]
      · simp [ha, hb, ih]

theorem setKey_ne_nil (t : Table) (k : String) (v : Value) : setKey t k v ≠ [] := by
  cases t with
  | nil => simp
  | cons hd tl =>
    obtain ⟨k', v'⟩ := hd
    by_cases h : k' = k <;> simp [h]

theorem hasKey_setKey (t : Table) (k : String) (v : Value) (k' : String) :
    hasKey (setKey t k v) k' = (if k = k' then true else hasKey t k') := by
  by_cases h : k = k'
  · subst h
    simp [hasKey, lookupTable_setKey_self]
  · simp [hasKey, lookupTable_setKey_ne t k v k' h, h]

/-! ## Lemmas: well-formedness -/

theorem wfValue_table_iff (t : Table) : wfValue (Value.table t) = true ↔ wfTable t = true := by
  simp [wfValue]

theorem wfTable_cons_iff (k : String) (v : Value) (rest : Table) :
    wfTable ((k, v) :: rest) = true ↔
      hasKey rest k = false ∧ wfValue v = true ∧ wfTable rest = true := by
  simp [wfTable, Bool.not_eq_true', and_assoc]

theorem wfValue_lookup (t : Table) (k : String) (v : Value) (hwf : wfTable t = true)
    (h : lookupTable t k = some v) : wfValue v = true := by
  induction t with
  | nil => simp at h
  | cons hd tl ih =>
    obtain ⟨k1, v1⟩ := hd
    rw [wfTable_cons_iff] at hwf
    by_cases h1 : k1 = k
    · simp [h1] at h
      exact h ▸ hwf.2.1
    · simp [h1] at h
      exact ih hwf.2.2 h

theorem wfTable_tableOfOpt (t : Table) (k : String) (hwf : wfTable t = true) :
    wfTable (tableOfOpt (lookupTable t k)) = true := by
  cases h : lookupTable t k with
  | none => rfl
  | some v =>
    cases v with
    | table u => exact (wfValue_table_iff u).mp (wfValue_lookup t k _ hwf h)
    | bool b => rfl
    | int n => rfl
    | str s => rfl
    | arr xs => rfl

theorem wfTable_setKey (t : Table) (k : String) (v : Value) (hwf : wfTable t = true)
    (hv : wfValue v = true) : wfTable (setKey t k v) = true := by
  induction t with
  | nil => simp [wfTable_cons_iff, hv, wfTable]
  | cons hd tl ih =>
    obtain ⟨k1, v1⟩ := hd
    rw [wfTable_cons_iff] at hwf
    by_cases h1 : k1 = k
    · subst h1
      simp [wfTable_cons_iff, hwf.1, hv, hwf.2.2]
    · simp [h1, wfTable_cons_iff, hwf.2.1, ih hwf.2.2]
      rw [hasKey_setKey]
      have hk : ¬k = k1 := fun hh => h1 hh.symm
      simp [hk, hwf.1]

theorem hasKey_delKey_imp (t : Table) (k k' : String)
    (h : hasKey (delKey t k) k' = true) : hasKey t k' = true := by
  by_cases hk : k = k'
  · subst hk
    revert h
    induction t with
    | nil => intro h; simp at h
    | cons hd tl ih =>
      obtain ⟨k1, v1⟩ := hd
      intro h
      by_cases h1 : k1 = k
      · simp [h1, hasKey_cons]
      · simp [h1, hasKey_cons] at h ⊢
        exact ih h
  · rw [hasKey, lookupTable_delKey_ne t k k' hk] at h
    exact h

theorem wfTable_delKey (t : Table) (k : String) (hwf : wfTable t = true) :
    wfTable (delKey t k) = true := by
  induction t with
  | nil => simp [wfTable]
  | cons hd tl ih =>
    obtain ⟨k1, v1⟩ := hd
    rw [wfTable_cons_iff] at hwf
    by_cases h1 : k1 = k
    · simp [h1, hwf.2.2]
    · simp [h1, wfTable_cons_iff, hwf.2.1, ih hwf.2.2]
      cases hh : hasKey (delKey tl k) k1
      · rfl
      · exact absurd (hasKey_delKey_imp tl k k1 hh) (by simp [hwf.1])

/-! ## Lemmas: `path_get`, `path_set`, `path_delete` -/

@[simp] theorem path_get_nil_path (d : Table) : path_get d [] = some (Value.table d) := rfl

theorem path_get_cons (d : Table) (k : String) (p : List String) :
    path_get d (k :: p) =
      match lookupTable d k with
      | some v => path_get_val v p
      | none => none := rfl

theorem path_get_val_table (t : Table) (p : List String) :
    path_get_val (Value.table t) p = path_get t p := by
  cases p <;> rfl

theorem path_get_val_scalar (v : Value) (p : List String) (hp : p ≠ [])
    (hv : is_dict v = false) : path_get_val v p = none := by
  cases p with
  | nil => exact absurd rfl hp
  | cons a b => cases v <;> simp_all [path_get_val, is_dict]

@[simp] theorem path_set_nil_path (d : Table) (v : Value) : path_set d [] v = d := rfl

theorem path_set_single (d : Table) (k : String) (v : Value) :
    path_set d [k] v = setKey d k v := rfl

theorem path_set_cons₂ (d : Table) (k : String) (q : List String) (v : Value) (hq : q ≠ []) :
    path_set d (k :: q) v =
      setKey d k (Value.table (path_set (tableOfOpt (lookupTable d k)) q v)) := by
  cases q with
  | nil => exact absurd rfl hq
  | cons a b => rfl

theorem lookupTable_path_set_ne (d : Table) (k : String) (q : List String) (v : Value)
    (k' : String) (h : k ≠ k') :
    lookupTable (path_set d (k :: q) v) k' = lookupTable d k' := by
  cases q with
  | nil => exact lookupTable_setKey_ne d k v k' h
  | cons a b => exact lookupTable_setKey_ne d k _ k' h

theorem keysOf_path_set_cons (d : Table) (k : String) (q : List String) (v : Value) :
    keysOf (path_set d (k :: q) v) = if hasKey d k then keysOf d else keysOf d ++ [k] := by
  cases q with
  | nil => exact keysOf_setKey d k v
  | cons a b => exact keysOf_setKey d k _

theorem path_set_cons_ne_nil (d : Table) (k : String) (q : List String) (v : Value) :
    path_set d (k :: q) v ≠ [] := by
  cases q with
  | nil => exact setKey_ne_nil d k v
  | cons a b => exact setKey_ne_nil d k _

theorem wfTable_path_set (p : List String) (d : Table) (v : Value)
    (hwf : wfTable d = true) (hv : wfValue v = true) : wfTable (path_set d p v) = true := by
  induction p generalizing d with
  | nil => exact hwf
  | cons k q ih =>
    cases q with
    | nil => exact wfTable_setKey d k v hwf hv
    | cons a b =>
      rw [path_set_cons₂ d k (a :: b) v (by simp)]
      exact wfTable_setKey d k _ hwf
        ((wfValue_table_iff _).mpr (ih _ (wfTable_tableOfOpt d k hwf)))

@[simp] theorem path_delete_nil_path (d : Table) : path_delete d [] = (d, false) := rfl

theorem path_delete_single (d : Table) (k : String) :
    path_delete d [k] = if hasKey d k then (delKey d k, true) else (d, false) := rfl

theorem path_delete_cons₂ (d : Table) (k : String) (q : List String) (hq : q ≠ []) :
    path_delete d (k :: q) =
      match lookupTable d k with
      | some (Value.table t) =>
        (match path_delete t q with
         | (t', true) =>
           if t' = [] then (delKey d k, true) else (setKey d k (Value.table t'), true)
         | (_, false) => (d, false))
      | _ => (d, false) := by
  cases q with
  | nil => exact absurd rfl hq
  | cons a b => rfl

theorem path_get_cons_some (d : Table) (k : String) (p : List String) (v : Value)
    (hl : lookupTable d k = some v) : path_get d (k :: p) = path_get_val v p := by
  rw [path_get_cons, hl]

theorem path_get_cons_none (d : Table) (k : String) (p : List String)
    (hl : lookupTable d k = none) : path_get d (k :: p) = none := by
  rw [path_get_cons, hl]

theorem path_delete_cons_table (d : Table) (k : String) (q : List String) (hq : q ≠ [])
    (t : Table) (hl : lookupTable d k = some (Value.table t)) :
    path_delete d (k :: q) =
      (match path_delete t q with
       | (t', true) => if t' = [] then (delKey d k, true) else (setKey d k (Value.table t'), true)
       | (_, false) => (d, false)) := by
  rw [path_delete_cons₂ d k q hq, hl]

theorem path_delete_cons_table_eq (d : Table) (k : String) (q : List String) (hq : q ≠ [])
    (t t' : Table) (ok : Bool) (hl : lookupTable d k = some (Value.table t))
    (hd : path_delete t q = (t', ok)) :
    path_delete d (k :: q) =
      if ok = true then
        (if t' = [] then (delKey d k, true) else (setKey d k (Value.table t'), true))
      else (d, false) := by
  rw [path_delete_cons_table d k q hq t hl, hd]
  cases ok <;> rfl

theorem path_delete_cons_none (d : Table) (k : String) (q : List String) (hq : q ≠ [])
    (hl : lookupTable d k = none) : path_delete d (k :: q) = (d, false) := by
  rw [path_delete_cons₂ d k q hq, hl]

theorem path_delete_cons_scalar (d : Table) (k : String) (q : List String) (hq : q ≠ [])
    (v : Value) (hl : lookupTable d k = some v) (hv : is_dict v = false) :
    path_delete d (k :: q) = (d, false) := by
  rw [path_delete_cons₂ d k q hq, hl]
  cases v with
  | table t => simp [is_dict] at hv
  | bool b => rfl
  | int n => rfl
  | str u => rfl
  | arr xs => rfl

theorem path_delete_fail (d : Table) (p : List String)
    (h : (path_delete d p).2 = false) : (path_delete d p).1 = d := by
  match p with
  | [] => rfl
  | [k] =>
    rw [path_delete_single] at h ⊢
    cases hk : hasKey d k <;> simp [hk] at h ⊢
  | k :: a :: b =>
    rw [path_delete_cons₂ d k (a :: b) (by simp)] at h ⊢
    cases hl : lookupTable d k with
    | none => simp [hl] at h ⊢
    | some v =>
      cases v with
      | table t =>
        simp only [hl] at h ⊢
        cases hd : path_delete t (a :: b) with
        | mk t' ok =>
          cases ok with
          | false => simp [hd] at h ⊢
          | true =>
            simp only [hd] at h
            by_cases ht : t' = [] <;> simp [ht] at h
      | bool x => simp [hl] at h ⊢
      | int x => simp [hl] at h ⊢
      | str x => simp [hl] at h ⊢
      | arr x => simp [hl] at h ⊢

theorem lookupTable_path_delete_ne (d : Table) (k : String) (q : List String)
    (k' : String) (h : k ≠ k') :
    lookupTable (path_delete d (k :: q)).1 k' = lookupTable d k' := by
  cases q with
  | nil =>
    rw [path_delete_single]
    cases hk : hasKey d k
    · simp
    · simp [lookupTable_delKey_ne d k k' h]
  | cons a b =>
    rw [path_delete_cons₂ d k (a :: b) (by simp)]
    cases hl : lookupTable d k with
    | none => simp
    | some v =>
      cases v with
      | table t =>
        simp only
        cases hd : path_delete t (a :: b) with
        | mk t' ok =>
          cases ok with
          | false => simp
          | true =>
            by_cases ht : t' = []
            · simp [ht, lookupTable_delKey_ne d k k' h]
            · simp [ht, lookupTable_setKey_ne d k _ k' h]
      | bool x => simp
      | int x => simp
      | str x => simp
      | arr x => simp

theorem wfTable_path_delete (p : List String) (d : Table) (hwf : wfTable d = true) :
    wfTable (path_delete d p).1 = true := by
  induction p generalizing d with
  | nil => exact hwf
  | cons k q ih =>
    cases q with
    | nil =>
      rw [path_delete_single]
      cases hk : hasKey d k
      · simpa using hwf
      · simpa using wfTable_delKey d k hwf
    | cons a b =>
      rw [path_delete_cons₂ d k (a :: b) (by simp)]
      cases hl : lookupTable d k with
      | none => simpa using hwf
      | some v =>
        cases v with
        | table t =>
          simp only
          cases hd : path_delete t (a :: b) with
          | mk t' ok =>
            cases ok with
            | false => simpa using hwf
            | true =>
              by_cases ht : t' = []
              · simpa [ht] using wfTable_delKey d k hwf
              · have hwt : wfTable t' = true := by
                  have := ih t ((wfValue_table_iff t).mp (wfValue_lookup d k _ hwf hl))
                  rw [hd] at this
                  exact this
                simpa [ht] using wfTable_setKey d k _ hwf ((wfValue_table_iff t').mpr hwt)
        | bool x => simpa using hwf
        | int x => simpa using hwf
        | str x => simpa using hwf
        | arr x => simpa using hwf

theorem path_delete_ok_iff (p : List String) (d : Table) (hp : p ≠ []) :
    (path_delete d p).2 = true ↔ (path_get d p).isSome = true := by
  induction p generalizing d with
  | nil => exact absurd rfl hp
  | cons k q ih =>
    cases q with
    | nil =>
      rw [path_delete_single, path_get_cons]
      cases hl : lookupTable d k with
      | none => simp [hasKey, hl]
      | some v => simp [hasKey, hl, path_get_val]
    | cons a b =>
      rw [path_delete_cons₂ d k (a :: b) (by simp), path_get_cons]
      cases hl : lookupTable d k with
      | none => simp
      | some v =>
        cases v with
        | table t =>
          simp only
          rw [path_get_val_table]
          cases hd : path_delete t (a :: b) with
          | mk t' ok =>
            have := ih t
            rw [hd] at this
            cases ok with
            | false => simp [← this (by simp)]
            | true =>
              by_cases ht : t' = [] <;> simp [ht, ← this (by simp)]
        | bool x => simp [path_get_val]
        | int x => simp [path_get_val]
        | str x => simp [path_get_val]
        | arr x => simp [path_get_val]

/-! ## Lemmas: `merge_dicts` -/

@[simp] theorem mergeGo_nil (o : Table) : mergeGo [] o = [] := rfl

theorem mergeGo_cons (k : String) (bv : Value) (rest o : Table) :
    mergeGo ((k, bv) :: rest) o = (k, mergeEntry bv (lookupTable o k)) :: mergeGo rest o := rfl

theorem mergeEntry_none (bv : Value) : mergeEntry bv none = bv := by
  cases bv <;> rfl

theorem mergeEntry_table_table (bt ot : Table) :
    mergeEntry (Value.table bt) (some (Value.table ot)) = Value.table (merge_dicts bt ot) := rfl

theorem mergeEntry_base_not_dict (bv ov : Value) (h : is_dict bv = false) :
    mergeEntry bv (some ov) = ov := by
  cases bv with
  | table t => simp [is_dict] at h
  | bool b => rfl
  | int n => rfl
  | str s => rfl
  | arr xs => rfl

theorem mergeEntry_overlay_not_dict (bv ov : Value) (h : is_dict ov = false) :
    mergeEntry bv (some ov) = ov := by
  cases bv with
  | table t =>
    cases ov with
    | table u => simp [is_dict] at h
    | bool b => rfl
    | int n => rfl
    | str s => rfl
    | arr xs => rfl
  | bool b => rfl
  | int n => rfl
  | str s => rfl
  | arr xs => rfl

theorem keysOf_mergeGo (b o : Table) : keysOf (mergeGo b o) = keysOf b := by
  induction b with
  | nil => rfl
  | cons hd tl ih =>
    obtain ⟨k, bv⟩ := hd
    simp [mergeGo_cons, ih]

theorem lookupTable_mergeGo (b o : Table) (k : String) :
    lookupTable (mergeGo b o) k =
      (lookupTable b k).map (fun bv => mergeEntry bv (lookupTable o k)) := by
  induction b with
  | nil => simp
  | cons hd tl ih =>
    obtain ⟨k1, v1⟩ := hd
    by_cases h1 : k1 = k
    · subst h1
      simp [mergeGo_cons]
    · simp [mergeGo_cons, h1, ih]

theorem lookupTable_filter_keys (o b : Table) (k : String) (hb : hasKey b k = false) :
    lookupTable (o.filter (fun p => !hasKey b p.1)) k = lookupTable o k := by
  induction o with
  | nil => simp
  | cons hd tl ih =>
    obtain ⟨k1, v1⟩ := hd
    by_cases h1 : k1 = k
    · subst h1
      simp [List.filter_cons, hb]
    · by_cases hk1 : hasKey b k1 <;> simp [List.filter_cons, hk1, h1, ih]

theorem lookupTable_merge_dicts (b o : Table) (k : String) :
    lookupTable (merge_dicts b o) k =
      match lookupTable b k with
      | some bv => some (mergeEntry bv (lookupTable o k))
      | none => lookupTable o k := by
  rw [merge_dicts, lookupTable_append]
  rw [lookupTable_mergeGo]
  cases hb : lookupTable b k with
  | some bv => simp
  | none =>
    simp only [Option.map_none]
    exact lookupTable_filter_keys o b k ((hasKey_false_iff b k).mpr hb)

theorem keysOf_filter_keys (o b : Table) :
    keysOf (o.filter (fun p => !hasKey b p.1)) = (keysOf o).filter (fun k => !hasKey b k) := by
  induction o with
  | nil => rfl
  | cons hd tl ih =>
    obtain ⟨k1, v1⟩ := hd
    by_cases hk1 : hasKey b k1 <;> simp [List.filter_cons, hk1, ih]

theorem keysOf_merge_dicts (b o : Table) :
    keysOf (merge_dicts b o) = keysOf b ++ (keysOf o).filter (fun k => !hasKey b k) := by
  rw [merge_dicts, keysOf_append, keysOf_mergeGo, keysOf_filter_keys]

theorem merge_dicts_nil_overlay (b : Table) : merge_dicts b [] = b := by
  rw [merge_dicts]
  have hgo : mergeGo b [] = b := by
    induction b with
    | nil => rfl
    | cons hd tl ih =>
      obtain ⟨k, bv⟩ := hd
      simp [mergeGo_cons, mergeEntry_none, ih]
  simp [hgo]

theorem merge_dicts_nil_base (o : Table) : merge_dicts [] o = o := by
  rw [merge_dicts]
  simp only [mergeGo_nil, List.nil_append]
  rw [List.filter_eq_self.mpr]
  intro p hp
  simp [hasKey]

/-- C5: per key of the union of the two trees' keys, `merge_dicts`
returns the recursive merge when both values are tables, the repo
(overlay) value when the key is in both but at least one value is not a
table, the existing (base) value when the key is only in the base, and
the repo value when the key is only in the repo; the merged key order is
the base's keys in order followed by the repo-only keys in repo order.
(Keys outside the union map to nothing on both sides, which the `none,
none` row of the per-key description records.) -/
theorem c5_merge_per_key_and_order (base overlay : Table) :
    keysOf (merge_dicts base overlay)
        = keysOf base ++ (keysOf overlay).filter (fun k => !hasKey base k)
    ∧ ∀ k : String,
        lookupTable (merge_dicts base overlay) k =
          match lookupTable base k, lookupTable overlay k with
          | some (Value.table bt), some (Value.table ot) =>
            some (Value.table (merge_dicts bt ot))
          | some _, some ov => some ov
          | some bv, none => some bv
          | none, o => o := by
  refine ⟨keysOf_merge_dicts base overlay, fun k => ?_⟩
  rw [lookupTable_merge_dicts]
  cases hb : lookupTable base k with
  | none => simp
  | some bv =>
    cases ho : lookupTable overlay k with
    | none => simp [ho, mergeEntry_none]
    | some ov =>
      cases bv with
      | table bt =>
        cases ov with
        | table ot => simp [ho, mergeEntry_table_table]
        | bool x => simp [ho, mergeEntry_overlay_not_dict _ _ (show is_dict (Value.bool x) = false from rfl)]
        | int x => simp [ho, mergeEntry_overlay_not_dict _ _ (show is_dict (Value.int x) = false from rfl)]
        | str x => simp [ho, mergeEntry_overlay_not_dict _ _ (show is_dict (Value.str x) = false from rfl)]
        | arr x => simp [ho, mergeEntry_overlay_not_dict _ _ (show is_dict (Value.arr x) = false from rfl)]
      | bool x => simp [ho, mergeEntry_base_not_dict _ _ (show is_dict (Value.bool x) = false from rfl)]
      | int x => simp [ho, mergeEntry_base_not_dict _ _ (show is_dict (Value.int x) = false from rfl)]
      | str x => simp [ho, mergeEntry_base_not_dict _ _ (show is_dict (Value.str x) = false from rfl)]
      | arr x => simp [ho, mergeEntry_base_not_dict _ _ (show is_dict (Value.arr x) = false from rfl)]

/-! ## Lemmas: the collectors -/

@[simp] theorem collect_additions_table_nil (p : List String) :
    collect_additions_table p [] = [] := rfl

theorem collect_additions_table_cons (p : List String) (k : String) (v : Value) (rest : Table) :
    collect_additions_table p ((k, v) :: rest) =
      collect_additions (p ++ [k]) v ++ collect_additions_table p rest := rfl

theorem collect_additions_table_val (p : List String) (t : Table) :
    collect_additions p (Value.table t) = collect_additions_table p t := rfl

theorem collect_additions_scalar (p : List String) (v : Value) (h : is_dict v = false) :
    collect_additions p v = [⟨p, v⟩] := by
  cases v with
  | table t => simp [is_dict] at h
  | bool b => rfl
  | int n => rfl
  | str s => rfl
  | arr xs => rfl

@[simp] theorem collect_changes_table_nil (p : List String) (et : Table) :
    collect_changes_table p [] et = ([], []) := rfl

theorem collect_changes_table_cons (p : List String) (k : String) (v : Value)
    (rest et : Table) :
    collect_changes_table p ((k, v) :: rest) et =
      ((match lookupTable et k with
        | some ev => collect_changes (p ++ [k]) v (some ev)
        | none => (collect_additions (p ++ [k]) v, [])).1
          ++ (collect_changes_table p rest et).1,
       (match lookupTable et k with
        | some ev => collect_changes (p ++ [k]) v (some ev)
        | none => (collect_additions (p ++ [k]) v, [])).2
          ++ (collect_changes_table p rest et).2) := rfl

mutual
theorem collect_additions_shift : ∀ (pre p : List String) (v : Value),
    collect_additions (pre ++ p) v = (collect_additions p v).map (addPrepend pre)
  | pre, p, Value.table t => by
    simp only [collect_additions_table_val]
    exact collect_additions_table_shift pre p t
  | pre, p, Value.bool b => by simp [collect_additions, addPrepend]
  | pre, p, Value.int n => by simp [collect_additions, addPrepend]
  | pre, p, Value.str s => by simp [collect_additions, addPrepend]
  | pre, p, Value.arr xs => by simp [collect_additions, addPrepend]

theorem collect_additions_table_shift : ∀ (pre p : List String) (t : Table),
    collect_additions_table (pre ++ p) t = (collect_additions_table p t).map (addPrepend pre)
  | pre, p, [] => rfl
  | pre, p, (k, v) :: rest => by
    rw [collect_additions_table_cons, collect_additions_table_cons, List.map_append]
    have h1 := collect_additions_shift pre (p ++ [k]) v
    rw [← List.append_assoc] at h1
    rw [h1, collect_additions_table_shift pre p rest]
end

mutual
theorem collect_changes_shift : ∀ (pre p : List String) (v : Value) (ev : Option Value),
    collect_changes (pre ++ p) v ev =
      ((collect_changes p v ev).1.map (addPrepend pre),
       (collect_changes p v ev).2.map (ovPrepend pre))
  | pre, p, Value.table rt, ev => by
    match ev with
    | some (Value.table et) =>
      simp only [collect_changes]
      exact collect_changes_table_shift pre p rt et
    | some (Value.bool b) => simp [collect_changes, ovPrepend]
    | some (Value.int n) => simp [collect_changes, ovPrepend]
    | some (Value.str s) => simp [collect_changes, ovPrepend]
    | some (Value.arr xs) => simp [collect_changes, ovPrepend]
    | none =>
      simp only [collect_changes]
      simp [collect_additions_shift pre p (Value.table rt)]
  | pre, p, Value.bool b, ev => by
    match ev with
    | some (Value.table et) => simp [collect_changes, ovPrepend]
    | some (Value.bool b') =>
      by_cases h : Value.bool b' = Value.bool b <;> simp [collect_changes, h, ovPrepend]
    | some (Value.int n) => simp [collect_changes, ovPrepend]
    | some (Value.str s) => simp [collect_changes, ovPrepend]
    | some (Value.arr xs) => simp [collect_changes, ovPrepend]
    | none => simp [collect_changes, addPrepend]
  | pre, p, Value.int n, ev => by
    match ev with
    | some (Value.table et) => simp [collect_changes, ovPrepend]
    | some (Value.bool b) => simp [collect_changes, ovPrepend]
    | some (Value.int n') =>
      by_cases h : Value.int n' = Value.int n <;> simp [collect_changes, h, ovPrepend]
    | some (Value.str s) => simp [collect_changes, ovPrepend]
    | some (Value.arr xs) => simp [collect_changes, ovPrepend]
    | none => simp [collect_changes, addPrepend]
  | pre, p, Value.str s, ev => by
    match ev with
    | some (Value.table et) => simp [collect_changes, ovPrepend]
    | some (Value.bool b) => simp [collect_changes, ovPrepend]
    | some (Value.int n) => simp [collect_changes, ovPrepend]
    | some (Value.str s') =>
      by_cases h : Value.str s' = Value.str s <;> simp [collect_changes, h, ovPrepend]
    | some (Value.arr xs) => simp [collect_changes, ovPrepend]
    | none => simp [collect_changes, addPrepend]
  | pre, p, Value.arr xs, ev => by
    match ev with
    | some (Value.table et) => simp [collect_changes, ovPrepend]
    | some (Value.bool b) => simp [collect_changes, ovPrepend]
    | some (Value.int n) => simp [collect_changes, ovPrepend]
    | some (Value.str s) => simp [collect_changes, ovPrepend]
    | some (Value.arr xs') =>
      by_cases h : Value.arr xs' = Value.arr xs <;> simp [collect_changes, h, ovPrepend]
    | none => simp [collect_changes, addPrepend]

theorem collect_changes_table_shift : ∀ (pre p : List String) (rt et : Table),
    collect_changes_table (pre ++ p) rt et =
      ((collect_changes_table p rt et).1.map (addPrepend pre),
       (collect_changes_table p rt et).2.map (ovPrepend pre))
  | pre, p, [], et => rfl
  | pre, p, (k, v) :: rest, et => by
    rw [collect_changes_table_cons, collect_changes_table_cons]
    have htail := collect_changes_table_shift pre p rest et
    cases hl : lookupTable et k with
    | some ev =>
      have hhead := collect_changes_shift pre (p ++ [k]) v (some ev)
      simp [hl, hhead, htail]
    | none =>
      have hhead := collect_additions_shift pre (p ++ [k]) v
      simp [hl, hhead, htail]
end

theorem noEmptyVal_table_iff (t : Table) :
    noEmptyVal (Value.table t) = true ↔ t ≠ [] ∧ noEmptyTable t = true := by
  simp [noEmptyVal, List.isEmpty_iff]

theorem noEmptyTable_cons_iff (k : String) (v : Value) (rest : Table) :
    noEmptyTable ((k, v) :: rest) = true ↔
      noEmptyVal v = true ∧ noEmptyTable rest = true := by
  simp [noEmptyTable]

mutual
theorem collect_additions_ne_nil : ∀ (p : List String) (v : Value),
    noEmptyVal v = true → collect_additions p v ≠ []
  | p, Value.table t, h => by
    rw [noEmptyVal_table_iff] at h
    simp only [collect_additions_table_val]
    exact collect_additions_table_ne_nil p t h.1 h.2
  | p, Value.bool b, _ => by simp [collect_additions]
  | p, Value.int n, _ => by simp [collect_additions]
  | p, Value.str s, _ => by simp [collect_additions]
  | p, Value.arr xs, _ => by simp [collect_additions]

theorem collect_additions_table_ne_nil : ∀ (p : List String) (t : Table),
    t ≠ [] → noEmptyTable t = true → collect_additions_table p t ≠ []
  | p, [], hne, _ => absurd rfl hne
  | p, (k, v) :: rest, _, h => by
    rw [noEmptyTable_cons_iff] at h
    rw [collect_additions_table_cons]
    intro hc
    rcases List.append_eq_nil.mp hc with ⟨h1, _⟩
    exact collect_additions_ne_nil (p ++ [k]) v h.1 h1
end

mutual
theorem collect_additions_shape : ∀ (p : List String) (v : Value) (e : AddEntry),
    e ∈ collect_additions p v → ∃ s, e.path = p ++ s
  | p, Value.table t, e => fun h => by
    obtain ⟨k, s, hp, _⟩ := collect_additions_table_shape p t e h
    exact ⟨k :: s, hp⟩
  | p, Value.bool b, e => fun h => by
    simp [collect_additions] at h
    exact ⟨[], by simp [h]⟩
  | p, Value.int n, e => fun h => by
    simp [collect_additions] at h
    exact ⟨[], by simp [h]⟩
  | p, Value.str s, e => fun h => by
    simp [collect_additions] at h
    exact ⟨[], by simp [h]⟩
  | p, Value.arr xs, e => fun h => by
    simp [collect_additions] at h
    exact ⟨[], by simp [h]⟩

theorem collect_additions_table_shape : ∀ (p : List String) (t : Table) (e : AddEntry),
    e ∈ collect_additions_table p t → ∃ k s, e.path = p ++ k :: s ∧ k ∈ keysOf t
  | p, [], e => by simp
  | p, (k1, v1) :: rest, e => fun h => by
    rw [collect_additions_table_cons, List.mem_append] at h
    cases h with
    | inl h1 =>
      obtain ⟨s, hs⟩ := collect_additions_shape (p ++ [k1]) v1 e h1
      exact ⟨k1, s, by simp [hs], by simp⟩
    | inr h2 =>
      obtain ⟨k, s, hs, hk⟩ := collect_additions_table_shape p rest e h2
      exact ⟨k, s, hs, by simp [hk]⟩
end

theorem collect_changes_table_some_table (p : List String) (rt et : Table) :
    collect_changes p (Value.table rt) (some (Value.table et)) =
      collect_changes_table p rt et := rfl

theorem collect_changes_table_none (p : List String) (rt : Table) :
    collect_changes p (Value.table rt) none =
      (collect_additions p (Value.table rt), []) := rfl

theorem collect_changes_table_some_scalar (p : List String) (rt : Table) (ev : Value)
    (hev : is_dict ev = false) :
    collect_changes p (Value.table rt) (some ev) = ([], [⟨p, ev, Value.table rt⟩]) := by
  cases ev with
  | table t => simp [is_dict] at hev
  | bool b => rfl
  | int n => rfl
  | str s => rfl
  | arr xs => rfl

theorem collect_changes_scalar_none (p : List String) (v : Value) (hv : is_dict v = false) :
    collect_changes p v none = ([⟨p, v⟩], []) := by
  cases v with
  | table t => simp [is_dict] at hv
  | bool b => rfl
  | int n => rfl
  | str s => rfl
  | arr xs => rfl

theorem collect_changes_scalar_some_table (p : List String) (v : Value) (et : Table)
    (hv : is_dict v = false) :
    collect_changes p v (some (Value.table et)) = ([], [⟨p, Value.table et, v⟩]) := by
  cases v with
  | table t => simp [is_dict] at hv
  | bool b => rfl
  | int n => rfl
  | str s => rfl
  | arr xs => rfl

theorem collect_changes_scalar_some_scalar (p : List String) (v ev : Value)
    (hv : is_dict v = false) (hev : is_dict ev = false) :
    collect_changes p v (some ev) =
      if ev = v then ([], []) else ([], [⟨p, ev, v⟩]) := by
  cases v with
  | table t => simp [is_dict] at hv
  | bool b =>
    cases ev with
    | table t => simp [is_dict] at hev
    | bool c => rfl
    | int n => rfl
    | str s => rfl
    | arr xs => rfl
  | int m =>
    cases ev with
    | table t => simp [is_dict] at hev
    | bool c => rfl
    | int n => rfl
    | str s => rfl
    | arr xs => rfl
  | str u =>
    cases ev with
    | table t => simp [is_dict] at hev
    | bool c => rfl
    | int n => rfl
    | str s => rfl
    | arr xs => rfl
  | arr ys =>
    cases ev with
    | table t => simp [is_dict] at hev
    | bool c => rfl
    | int n => rfl
    | str s => rfl
    | arr xs => rfl

mutual
theorem collect_changes_shape_add : ∀ (p : List String) (v : Value) (ev : Option Value)
    (e : AddEntry), e ∈ (collect_changes p v ev).1 → ∃ s, e.path = p ++ s
  | p, Value.table rt, some (Value.table et), e => fun h => by
    rw [collect_changes_table_some_table] at h
    obtain ⟨k, s, hp, _⟩ := collect_changes_table_shape_add p rt et e h
    exact ⟨k :: s, hp⟩
  | p, Value.table rt, some (Value.bool b), e => fun h => by
    rw [collect_changes_table_some_scalar p rt _ (by rfl)] at h
    simp at h
  | p, Value.table rt, some (Value.int n), e => fun h => by
    rw [collect_changes_table_some_scalar p rt _ (by rfl)] at h
    simp at h
  | p, Value.table rt, some (Value.str s), e => fun h => by
    rw [collect_changes_table_some_scalar p rt _ (by rfl)] at h
    simp at h
  | p, Value.table rt, some (Value.arr xs), e => fun h => by
    rw [collect_changes_table_some_scalar p rt _ (by rfl)] at h
    simp at h
  | p, Value.table rt, none, e => fun h => by
    rw [collect_changes_table_none] at h
    exact collect_additions_shape p (Value.table rt) e h
  | p, Value.bool b, ev, e => fun h => by
    match ev with
    | some (Value.table et) => rw [collect_changes_scalar_some_table p _ et (by rfl)] at h; simp at h
    | some (Value.bool c) =>
      rw [collect_changes_scalar_some_scalar p _ _ (by rfl) (by rfl)] at h
      split at h <;> simp at h
    | some (Value.int n) =>
      rw [collect_changes_scalar_some_scalar p _ _ (by rfl) (by rfl)] at h
      split at h <;> simp at h
    | some (Value.str s) =>
      rw [collect_changes_scalar_some_scalar p _ _ (by rfl) (by rfl)] at h
      split at h <;> simp at h
    | some (Value.arr xs) =>
      rw [collect_changes_scalar_some_scalar p _ _ (by rfl) (by rfl)] at h
      split at h <;> simp at h
    | none =>
      rw [collect_changes_scalar_none p _ (by rfl)] at h
      simp at h
      exact ⟨[], by simp [h]⟩
  | p, Value.int m, ev, e => fun h => by
    match ev with
    | some (Value.table et) => rw [collect_changes_scalar_some_table p _ et (by rfl)] at h; simp at h
    | some (Value.bool c) =>
      rw [collect_changes_scalar_some_scalar p _ _ (by rfl) (by rfl)] at h
      split at h <;> simp at h
    | some (Value.int n) =>
      rw [collect_changes_scalar_some_scalar p _ _ (by rfl) (by rfl)] at h
      split at h <;> simp at h
    | some (Value.str s) =>
      rw [collect_changes_scalar_some_scalar p _ _ (by rfl) (by rfl)] at h
      split at h <;> simp at h
    | some (Value.arr xs) =>
      rw [collect_changes_scalar_some_scalar p _ _ (by rfl) (by rfl)] at h
      split at h <;> simp at h
    | none =>
      rw [collect_changes_scalar_none p _ (by rfl)] at h
      simp at h
      exact ⟨[], by simp [h]⟩
  | p, Value.str u, ev, e => fun h => by
    match ev with
    | some (Value.table et) => rw [collect_changes_scalar_some_table p _ et (by rfl)] at h; simp at h
    | some (Value.bool c) =>
      rw [collect_changes_scalar_some_scalar p _ _ (by rfl) (by rfl)] at h
      split at h <;> simp at h
    | some (Value.int n) =>
      rw [collect_changes_scalar_some_scalar p _ _ (by rfl) (by rfl)] at h
      split at h <;> simp at h
    | some (Value.str s) =>
      rw [collect_changes_scalar_some_scalar p _ _ (by rfl) (by rfl)] at h
      split at h <;> simp at h
    | some (Value.arr xs) =>
      rw [collect_changes_scalar_some_scalar p _ _ (by rfl) (by rfl)] at h
      split at h <;> simp at h
    | none =>
      rw [collect_changes_scalar_none p _ (by rfl)] at h
      simp at h
      exact ⟨[], by simp [h]⟩
  | p, Value.arr ys, ev, e => fun h => by
    match ev with
    | some (Value.table et) => rw [collect_changes_scalar_some_table p _ et (by rfl)] at h; simp at h
    | some (Value.bool c) =>
      rw [collect_changes_scalar_some_scalar p _ _ (by rfl) (by rfl)] at h
      split at h <;> simp at h
    | some (Value.int n) =>
      rw [collect_changes_scalar_some_scalar p _ _ (by rfl) (by rfl)] at h
      split at h <;> simp at h
    | some (Value.str s) =>
      rw [collect_changes_scalar_some_scalar p _ _ (by rfl) (by rfl)] at h
      split at h <;> simp at h
    | some (Value.arr xs) =>
      rw [collect_changes_scalar_some_scalar p _ _ (by rfl) (by rfl)] at h
      split at h <;> simp at h
    | none =>
      rw [collect_changes_scalar_none p _ (by rfl)] at h
      simp at h
      exact ⟨[], by simp [h]⟩

theorem collect_changes_table_shape_add : ∀ (p : List String) (rt et : Table) (e : AddEntry),
    e ∈ (collect_changes_table p rt et).1 → ∃ k s, e.path = p ++ k :: s ∧ k ∈ keysOf rt
  | p, [], et, e => by simp
  | p, (k1, v1) :: rest, et, e => fun h => by
    rw [collect_changes_table_cons] at h
    rw [List.mem_append] at h
    cases h with
    | inl h1 =>
      cases hl : lookupTable et k1 with
      | some ev =>
        rw [hl] at h1
        obtain ⟨s, hs⟩ := collect_changes_shape_add (p ++ [k1]) v1 (some ev) e h1
        exact ⟨k1, s, by simp [hs], by simp⟩
      | none =>
        rw [hl] at h1
        obtain ⟨s, hs⟩ := collect_additions_shape (p ++ [k1]) v1 e h1
        exact ⟨k1, s, by simp [hs], by simp⟩
    | inr h2 =>
      obtain ⟨k, s, hs, hk⟩ := collect_changes_table_shape_add p rest et e h2
      exact ⟨k, s, hs, by simp [hk]⟩
end

mutual
theorem collect_changes_shape_ov : ∀ (p : List String) (v : Value) (ev : Option Value)
    (e : OvEntry), e ∈ (collect_changes p v ev).2 → ∃ s, e.path = p ++ s
  | p, Value.table rt, some (Value.table et), e => fun h => by
    rw [collect_changes_table_some_table] at h
    obtain ⟨k, s, hp, _, _⟩ := collect_changes_table_shape_ov p rt et e h
    exact ⟨k :: s, hp⟩
  | p, Value.table rt, some (Value.bool b), e => fun h => by
    rw [collect_changes_table_some_scalar p rt _ (by rfl)] at h
    simp at h
    exact ⟨[], by simp [h]⟩
  | p, Value.table rt, some (Value.int n), e => fun h => by
    rw [collect_changes_table_some_scalar p rt _ (by rfl)] at h
    simp at h
    exact ⟨[], by simp [h]⟩
  | p, Value.table rt, some (Value.str s), e => fun h => by
    rw [collect_changes_table_some_scalar p rt _ (by rfl)] at h
    simp at h
    exact ⟨[], by simp [h]⟩
  | p, Value.table rt, some (Value.arr xs), e => fun h => by
    rw [collect_changes_table_some_scalar p rt _ (by rfl)] at h
    simp at h
    exact ⟨[], by simp [h]⟩
  | p, Value.table rt, none, e => fun h => by
    rw [collect_changes_table_none] at h
    simp at h
  | p, Value.bool b, ev, e => fun h => by
    match ev with
    | some (Value.table et) =>
      rw [collect_changes_scalar_some_table p _ et (by rfl)] at h
      simp at h
      exact ⟨[], by simp [h]⟩
    | some (Value.bool c) =>
      rw [collect_changes_scalar_some_scalar p _ _ (by rfl) (by rfl)] at h
      split at h <;> simp at h
      exact ⟨[], by simp [h]⟩
    | some (Value.int n) =>
      rw [collect_changes_scalar_some_scalar p _ _ (by rfl) (by rfl)] at h
      split at h <;> simp at h
      exact ⟨[], by simp [h]⟩
    | some (Value.str s) =>
      rw [collect_changes_scalar_some_scalar p _ _ (by rfl) (by rfl)] at h
      split at h <;> simp at h
      exact ⟨[], by simp [h]⟩
    | some (Value.arr xs) =>
      rw [collect_changes_scalar_some_scalar p _ _ (by rfl) (by rfl)] at h
      split at h <;> simp at h
      exact ⟨[], by simp [h]⟩
    | none =>
      rw [collect_changes_scalar_none p _ (by rfl)] at h
      simp at h
  | p, Value.int m, ev, e => fun h => by
    match ev with
    | some (Value.table et) =>
      rw [collect_changes_scalar_some_table p _ et (by rfl)] at h
      simp at h
      exact ⟨[], by simp [h]⟩
    | some (Value.bool c) =>
      rw [collect_changes_scalar_some_scalar p _ _ (by rfl) (by rfl)] at h
      split at h <;> simp at h
      exact ⟨[], by simp [h]⟩
    | some (Value.int n) =>
      rw [collect_changes_scalar_some_scalar p _ _ (by rfl) (by rfl)] at h
      split at h <;> simp at h
      exact ⟨[], by simp [h]⟩
    | some (Value.str s) =>
      rw [collect_changes_scalar_some_scalar p _ _ (by rfl) (by rfl)] at h
      split at h <;> simp at h
      exact ⟨[], by simp [h]⟩
    | some (Value.arr xs) =>
      rw [collect_changes_scalar_some_scalar p _ _ (by rfl) (by rfl)] at h
      split at h <;> simp at h
      exact ⟨[], by simp [h]⟩
    | none =>
      rw [collect_changes_scalar_none p _ (by rfl)] at h
      simp at h
  | p, Value.str u, ev, e => fun h => by
    match ev with
    | some (Value.table et) =>
      rw [collect_changes_scalar_some_table p _ et (by rfl)] at h
      simp at h
      exact ⟨[], by simp [h]⟩
    | some (Value.bool c) =>
      rw [collect_changes_scalar_some_scalar p _ _ (by rfl) (by rfl)] at h
      split at h <;> simp at h
      exact ⟨[], by simp [h]⟩
    | some (Value.int n) =>
      rw [collect_changes_scalar_some_scalar p _ _ (by rfl) (by rfl)] at h
      split at h <;> simp at h
      exact ⟨[], by simp [h]⟩
    | some (Value.str s) =>
      rw [collect_changes_scalar_some_scalar p _ _ (by rfl) (by rfl)] at h
      split at h <;> simp at h
      exact ⟨[], by simp [h]⟩
    | some (Value.arr xs) =>
      rw [collect_changes_scalar_some_scalar p _ _ (by rfl) (by rfl)] at h
      split at h <;> simp at h
      exact ⟨[], by simp [h]⟩
    | none =>
      rw [collect_changes_scalar_none p _ (by rfl)] at h
      simp at h
  | p, Value.arr ys, ev, e => fun h => by
    match ev with
    | some (Value.table et) =>
      rw [collect_changes_scalar_some_table p _ et (by rfl)] at h
      simp at h
      exact ⟨[], by simp [h]⟩
    | some (Value.bool c) =>
      rw [collect_changes_scalar_some_scalar p _ _ (by rfl) (by rfl)] at h
      split at h <;> simp at h
      exact ⟨[], by simp [h]⟩
    | some (Value.int n) =>
      rw [collect_changes_scalar_some_scalar p _ _ (by rfl) (by rfl)] at h
      split at h <;> simp at h
      exact ⟨[], by simp [h]⟩
    | some (Value.str s) =>
      rw [collect_changes_scalar_some_scalar p _ _ (by rfl) (by rfl)] at h
      split at h <;> simp at h
      exact ⟨[], by simp [h]⟩
    | some (Value.arr xs) =>
      rw [collect_changes_scalar_some_scalar p _ _ (by rfl) (by rfl)] at h
      split at h <;> simp at h
      exact ⟨[], by simp [h]⟩
    | none =>
      rw [collect_changes_scalar_none p _ (by rfl)] at h
      simp at h

theorem collect_changes_table_shape_ov : ∀ (p : List String) (rt et : Table) (e : OvEntry),
    e ∈ (collect_changes_table p rt et).2 →
      ∃ k s, e.path = p ++ k :: s ∧ k ∈ keysOf rt ∧ hasKey et k = true
  | p, [], et, e => by simp
  | p, (k1, v1) :: rest, et, e => fun h => by
    rw [collect_changes_table_cons] at h
    rw [List.mem_append] at h
    cases h with
    | inl h1 =>
      cases hl : lookupTable et k1 with
      | some ev =>
        rw [hl] at h1
        obtain ⟨s, hs⟩ := collect_changes_shape_ov (p ++ [k1]) v1 (some ev) e h1
        exact ⟨k1, s, by simp [hs], by simp, by simp [hasKey, hl]⟩
      | none =>
        rw [hl] at h1
        simp at h1
    | inr h2 =>
      obtain ⟨k, s, hs, hk, he⟩ := collect_changes_table_shape_ov p rest et e h2
      exact ⟨k, s, hs, by simp [hk], he⟩
end

theorem lookupTable_delKey_self (t : Table) (k : String) (hwf : wfTable t = true) :
    lookupTable (delKey t k) k = none := by
  induction t with
  | nil => simp
  | cons hd tl ih =>
    obtain ⟨k1, v1⟩ := hd
    rw [wfTable_cons_iff] at hwf
    by_cases h1 : k1 = k
    · subst h1
      rw [← hasKey_false_iff]
      simpa using hwf.1
    · simp [h1, ih hwf.2.2]

theorem path_get_path_delete_self : ∀ (p : List String) (d : Table), p ≠ [] →
    wfTable d = true → path_get (path_delete d p).1 p = none
  | [], d, hp, _ => absurd rfl hp
  | [k], d, _, hwf => by
    rw [path_delete_single]
    cases hk : hasKey d k with
    | false => simp [hk, path_get_cons_none d k [] ((hasKey_false_iff d k).mp hk)]
    | true => simp [hk, path_get_cons, lookupTable_delKey_self d k hwf]
  | k :: a :: b, d, _, hwf => by
    cases hl : lookupTable d k with
    | none =>
      rw [path_delete_cons_none d k (a :: b) (by simp) hl]
      exact path_get_cons_none d k (a :: b) hl
    | some v =>
      cases v with
      | table t =>
        cases hd : path_delete t (a :: b) with
        | mk t' ok =>
          rw [path_delete_cons_table_eq d k (a :: b) (by simp) t t' ok hl hd]
          cases ok with
          | false =>
            show path_get d (k :: a :: b) = none
            rw [path_get_cons_some d k (a :: b) _ hl, path_get_val_table]
            have hiff := path_delete_ok_iff (a :: b) t (by simp)
            rw [hd] at hiff
            simp only [Bool.false_eq_true, false_iff] at hiff
            simpa using hiff
          | true =>
            show path_get
              (if t' = [] then (delKey d k, true) else (setKey d k (Value.table t'), true)).1
              (k :: a :: b) = none
            by_cases ht : t' = []
            · rw [if_pos ht]
              show path_get (delKey d k) (k :: a :: b) = none
              rw [path_get_cons_none _ _ _ (lookupTable_delKey_self d k hwf)]
            · rw [if_neg ht]
              show path_get (setKey d k (Value.table t')) (k :: a :: b) = none
              rw [path_get_cons_some _ _ _ _ (lookupTable_setKey_self d k (Value.table t'))]
              rw [path_get_val_table]
              have hx := path_get_path_delete_self (a :: b) t (by simp)
                ((wfValue_table_iff t).mp (wfValue_lookup d k _ hwf hl))
              rw [hd] at hx
              exact hx
      | bool x =>
        rw [path_delete_cons_scalar d k (a :: b) (by simp) _ hl rfl]
        rw [path_get_cons_some d k (a :: b) _ hl]
        exact path_get_val_scalar _ _ (by simp) rfl
      | int x =>
        rw [path_delete_cons_scalar d k (a :: b) (by simp) _ hl rfl]
        rw [path_get_cons_some d k (a :: b) _ hl]
        exact path_get_val_scalar _ _ (by simp) rfl
      | str x =>
        rw [path_delete_cons_scalar d k (a :: b) (by simp) _ hl rfl]
        rw [path_get_cons_some d k (a :: b) _ hl]
        exact path_get_val_scalar _ _ (by simp) rfl
      | arr x =>
        rw [path_delete_cons_scalar d k (a :: b) (by simp) _ hl rfl]
        rw [path_get_cons_some d k (a :: b) _ hl]
        exact path_get_val_scalar _ _ (by simp) rfl

theorem path_delete_append : ∀ (a s : List String) (d t : Table), a ≠ [] → s ≠ [] →
    path_get d a = some (Value.table t) →
    path_delete d (a ++ s) =
      (match path_delete t s with
       | (t', true) => if t' = [] then path_delete d a else (path_set d a (Value.table t'), true)
       | (_, false) => (d, false))
  | [], s, d, t, ha, _, _ => absurd rfl ha
  | [k], s, d, t, _, hs, hget => by
    have hl : lookupTable d k = some (Value.table t) := by
      rw [path_get_cons] at hget
      cases hl : lookupTable d k with
      | none => rw [hl] at hget; simp at hget
      | some v =>
        rw [hl] at hget
        simp only [path_get_val] at hget
        rw [hget]
    rw [show ([k] : List String) ++ s = k :: s from rfl]
    cases hd : path_delete t s with
    | mk t' ok =>
      rw [path_delete_cons_table_eq d k s hs t t' ok hl hd]
      cases ok with
      | false => rfl
      | true =>
        show (if t' = [] then (delKey d k, true) else (setKey d k (Value.table t'), true)) =
          if t' = [] then path_delete d [k] else (path_set d [k] (Value.table t'), true)
        by_cases ht : t' = []
        · rw [if_pos ht, if_pos ht]
          simp [path_delete_single, hasKey, hl]
        · rw [if_neg ht, if_neg ht, path_set_single]
  | k :: a1 :: a2, s, d, t, _, hs, hget => by
    cases hl : lookupTable d k with
    | none => rw [path_get_cons_none d k (a1 :: a2) hl] at hget; simp at hget
    | some v =>
      rw [path_get_cons_some d k (a1 :: a2) v hl] at hget
      cases v with
      | table u =>
        rw [path_get_val_table] at hget
        have hrec := path_delete_append (a1 :: a2) s u t (by simp) hs hget
        rw [show (k :: a1 :: a2) ++ s = k :: ((a1 :: a2) ++ s) from rfl]
        cases hd : path_delete t s with
        | mk t' ok =>
          rw [hd] at hrec
          cases ok with
          | false =>
            have hrec' : path_delete u ((a1 :: a2) ++ s) = (u, false) := hrec
            rw [path_delete_cons_table_eq d k ((a1 :: a2) ++ s) (by simp) u u false hl hrec']
            rfl
          | true =>
            by_cases ht : t' = []
            · have hrec' : path_delete u ((a1 :: a2) ++ s) = path_delete u (a1 :: a2) := by
                rw [hrec]
                show (if t' = [] then path_delete u (a1 :: a2) else _) = _
                rw [if_pos ht]
              cases hu : path_delete u (a1 :: a2) with
              | mk u' ok2 =>
                rw [hu] at hrec'
                rw [path_delete_cons_table_eq d k ((a1 :: a2) ++ s) (by simp) u u' ok2 hl hrec']
                rw [show (match (t', true) with
                  | (t', true) => if t' = [] then path_delete d (k :: a1 :: a2)
                      else (path_set d (k :: a1 :: a2) (Value.table t'), true)
                  | (_, false) => (d, false)) =
                    if t' = [] then path_delete d (k :: a1 :: a2)
                      else (path_set d (k :: a1 :: a2) (Value.table t'), true) from rfl]
                rw [if_pos ht]
                rw [path_delete_cons_table_eq d k (a1 :: a2) (by simp) u u' ok2 hl hu]
            · have hrec' : path_delete u ((a1 :: a2) ++ s) =
                  (path_set u (a1 :: a2) (Value.table t'), true) := by
                rw [hrec]
                show (if t' = [] then path_delete u (a1 :: a2) else _) = _
                rw [if_neg ht]
              rw [path_delete_cons_table_eq d k ((a1 :: a2) ++ s) (by simp) u
                (path_set u (a1 :: a2) (Value.table t')) true hl hrec']
              rw [show (match (t', true) with
                | (t', true) => if t' = [] then path_delete d (k :: a1 :: a2)
                    else (path_set d (k :: a1 :: a2) (Value.table t'), true)
                | (_, false) => (d, false)) =
                  if t' = [] then path_delete d (k :: a1 :: a2)
                    else (path_set d (k :: a1 :: a2) (Value.table t'), true) from rfl]
              rw [if_neg ht]
              simp only [if_pos rfl]
              rw [if_neg (path_set_cons_ne_nil u a1 a2 (Value.table t'))]
              rw [path_set_cons₂ d k (a1 :: a2) (Value.table t') (by simp), hl]
              rfl
      | bool x =>
        rw [path_get_val_scalar _ _ (by simp) (by rfl)] at hget
        simp at hget
      | int x =>
        rw [path_get_val_scalar _ _ (by simp) (by rfl)] at hget
        simp at hget
      | str x =>
        rw [path_get_val_scalar _ _ (by simp) (by rfl)] at hget
        simp at hget
      | arr x =>
        rw [path_get_val_scalar _ _ (by simp) (by rfl)] at hget
        simp at hget

/-! ## Claim C6 -/

/-- C6: at a call where the repo value is a table and the existing tree
has a (present) non-table value, `collect_changes` records exactly one
Override entry at that path, with `previous` the whole existing value
and `repo` the whole repo subtree, and records nothing else at all — in
particular no entry at any strict descendant of the path (the walk does
not recurse below it). -/
theorem c6_table_over_scalar_single_override (p : List String) (rt : Table) (ev : Value)
    (hev : is_dict ev = false) :
    collect_changes p (Value.table rt) (some ev) = ([], [⟨p, ev, Value.table rt⟩]) :=
  collect_changes_table_some_scalar p rt ev hev

theorem c6_witness :
    collect_changes [keyA] (Value.table [(keyB, Value.int 1)]) (some (Value.int 5)) =
      ([], [⟨[keyA], Value.int 5, Value.table [(keyB, Value.int 1)]⟩]) :=
  c6_table_over_scalar_single_override [keyA] [(keyB, Value.int 1)] (Value.int 5) rfl

/-! ## Claim C7 (corrected) -/

/-- C7 counterexample: with repo `{a = {b = 2}}` and existing `{a = 1}`,
the repo supplies a table at path `a` where the existing tree has a
scalar, and the repo subtree has the leaf `a.b`; yet the differ records
no Addition entry at all (the whole subtree goes into one Override), so
the claim "every leaf of the repo subtree appears as an Addition" fails
at this input. -/
theorem c7_counterexample :
    path_get [(keyA, Value.table [(keyB, Value.int 2)])] [keyA]
        = some (Value.table [(keyB, Value.int 2)])
    ∧ path_get [(keyA, Value.int 1)] [keyA] = some (Value.int 1)
    ∧ path_get [(keyA, Value.table [(keyB, Value.int 2)])] [keyA, keyB] = some (Value.int 2)
    ∧ (diffTable [(keyA, Value.table [(keyB, Value.int 2)])] [(keyA, Value.int 1)]).1 = [] := by
  refine ⟨?_, ?_, ?_, ?_⟩ <;> decide

/-- C7 (amended): when the repo supplies a table at a path where the
existing tree has a scalar, the entire repo subtree is recorded in a
single Override entry at that path (whose `repo` field is the whole
subtree and whose `previous` field is the scalar); no sub-leaf of the
subtree appears as an Addition or as a separate Override. -/
theorem c7_amended_whole_subtree_single_override (p : List String) (rt : Table) (ev : Value)
    (hev : is_dict ev = false) :
    (collect_changes p (Value.table rt) (some ev)).1 = []
    ∧ (collect_changes p (Value.table rt) (some ev)).2.map OvEntry.path = [p]
    ∧ ∀ e ∈ (collect_changes p (Value.table rt) (some ev)).2,
        e.repo = Value.table rt ∧ e.previous = ev := by
  rw [collect_changes_table_some_scalar p rt ev hev]
  refine ⟨rfl, rfl, ?_⟩
  intro e he
  simp at he
  simp [he]

theorem c7_witness :
    (collect_changes [keyA] (Value.table [(keyB, Value.int 2)]) (some (Value.int 1))).1 = []
    ∧ (collect_changes [keyA] (Value.table [(keyB, Value.int 2)])
        (some (Value.int 1))).2.map OvEntry.path = [[keyA]]
    ∧ ∀ e ∈ (collect_changes [keyA] (Value.table [(keyB, Value.int 2)])
        (some (Value.int 1))).2,
        e.repo = Value.table [(keyB, Value.int 2)] ∧ e.previous = Value.int 1 :=
  c7_amended_whole_subtree_single_override [keyA] [(keyB, Value.int 2)] (Value.int 1) rfl

/-! ## Claim C3 -/

/-- C3: for an Override entry processed by the rollback pass against
the current tree: a missing path is skipped without touching the tree or
the skipped count; a present value structurally equal to the recorded
repo value makes the path be set back to the recorded previous value
(whatever it is, a table included); any other present value leaves the
tree untouched and increments the skipped count by exactly one. -/
theorem c3_rollback_override_entry_cases (d : Table) (n : Nat) (e : OvEntry) :
    (path_get d e.path = none → rollback_override (d, n) e = (d, n))
    ∧ (∀ cur, path_get d e.path = some cur → cur = e.repo →
        rollback_override (d, n) e = (path_set d e.path e.previous, n))
    ∧ (∀ cur, path_get d e.path = some cur → cur ≠ e.repo →
        rollback_override (d, n) e = (d, n + 1)) := by
  refine ⟨fun h => ?_, fun cur h hc => ?_, fun cur h hc => ?_⟩
  · simp [rollback_override, h]
  · simp [rollback_override, h, hc]
  · simp [rollback_override, h, hc]

theorem c3_witness :
    rollback_override ([(keyA, Value.int 5)], 0) ⟨[keyA], Value.int 1, Value.int 2⟩ =
      ([(keyA, Value.int 5)], 1) :=
  (c3_rollback_override_entry_cases [(keyA, Value.int 5)] 0
    ⟨[keyA], Value.int 1, Value.int 2⟩).2.2 (Value.int 5) rfl (by decide)

/-! ## Claim C4 -/

/-- C4: for an Addition entry processed by the rollback pass: a missing
path is skipped silently; a present value equal to the recorded repo
value makes the path be deleted via `path_delete`; any other present
value leaves the tree untouched and increments the skipped count by one.
The deletion itself removes the path (a lookup of it afterwards fails),
and prunes upward: deleting below an ancestor table behaves as the
localized form states — when the subtree deletion leaves the ancestor
table empty, the ancestor's own key is deleted by the same recursive
rule (pruning continues upward), and when the ancestor table stays
non-empty it is written back in place and pruning stops there. -/
theorem c4_rollback_addition_entry_cases (d : Table) (n : Nat) (e : AddEntry) :
    (path_get d e.path = none → rollback_addition (d, n) e = (d, n))
    ∧ (∀ cur, path_get d e.path = some cur → cur = e.repo →
        rollback_addition (d, n) e = ((path_delete d e.path).1, n))
    ∧ (∀ cur, path_get d e.path = some cur → cur ≠ e.repo →
        rollback_addition (d, n) e = (d, n + 1))
    ∧ (e.path ≠ [] → wfTable d = true → path_get (path_delete d e.path).1 e.path = none)
    ∧ (∀ (a s : List String) (t : Table), a ≠ [] → s ≠ [] →
        path_get d a = some (Value.table t) →
        path_delete d (a ++ s) =
          (match path_delete t s with
           | (t', true) =>
             if t' = [] then path_delete d a else (path_set d a (Value.table t'), true)
           | (_, false) => (d, false))) := by
  refine ⟨fun h => ?_, fun cur h hc => ?_, fun cur h hc => ?_,
    fun hp hwf => path_get_path_delete_self e.path d hp hwf,
    fun a s t ha hs hget => path_delete_append a s d t ha hs hget⟩
  · simp [rollback_addition, h]
  · simp [rollback_addition, h, hc]
  · simp [rollback_addition, h, hc]

theorem c4_witness :
    path_delete [(keyA, Value.table [(keyB, Value.table [(keyC, Value.int 1)])])]
      [keyA, keyB, keyC] = ([], true) := by
  have h := (c4_rollback_addition_entry_cases
    [(keyA, Value.table [(keyB, Value.table [(keyC, Value.int 1)])])] 0
    ⟨[keyA], Value.int 0⟩).2.2.2.2 [keyA] [keyB, keyC]
    [(keyB, Value.table [(keyC, Value.int 1)])] (by decide) (by decide) (by decide)
  rw [show ([keyA] : List String) ++ [keyB, keyC] = [keyA, keyB, keyC] from rfl] at h
  rw [h]
  decide

/-! ## Claim C9 -/

/-- C9: `remove` returns status 0 in every non-fatal case: always in
this model (the fatal error paths — unparseable documents — are outside
it); a missing state file leaves the target untouched and writes
nothing; a missing target document discards the state file; and when
entries are skipped the command still completes, deleting the state file
and reporting the skips only through the returned count. -/
theorem c9_remove_success_cases (state : Option Ledger) (target : Option Table) :
    (remove_op state target).exitCode = 0
    ∧ (state = none → (remove_op state target).target = target
        ∧ (remove_op state target).written = none)
    ∧ (∀ st, state = some st → target = none → (remove_op state target).stateAfter = none)
    ∧ (∀ st data, state = some st → target = some data →
        (remove_op state target).skipped = (rollback st.overrides st.additions data).2
        ∧ (remove_op state target).stateAfter = none) := by
  refine ⟨?_, ?_, ?_, ?_⟩
  · cases state with
    | none => rfl
    | some st =>
      cases target with
      | none => rfl
      | some data =>
        simp only [remove_op]
        split
        · rfl
        · split <;> rfl
  · rintro rfl
    exact ⟨rfl, rfl⟩
  · rintro st rfl rfl
    rfl
  · rintro st data rfl rfl
    constructor
    · simp only [remove_op]
      split
      · rfl
      · split <;> rfl
    · simp only [remove_op]
      split
      · rfl
      · split <;> rfl

theorem c9_witness :
    (remove_op
      (some { had_config := true, existing_header := [],
              additions := [⟨[keyB], Value.int 30⟩],
              overrides := [⟨[keyA], Value.int 1, Value.int 2⟩] })
      (some [(keyA, Value.int 7), (keyB, Value.int 30)])).skipped =
      (rollback [⟨[keyA], Value.int 1, Value.int 2⟩] [⟨[keyB], Value.int 30⟩]
        [(keyA, Value.int 7), (keyB, Value.int 30)]).2
    ∧ (remove_op
      (some { had_config := true, existing_header := [],
              additions := [⟨[keyB], Value.int 30⟩],
              overrides := [⟨[keyA], Value.int 1, Value.int 2⟩] })
      (some [(keyA, Value.int 7), (keyB, Value.int 30)])).stateAfter = none :=
  (c9_remove_success_cases
    (some { had_config := true, existing_header := [],
            additions := [⟨[keyB], Value.int 30⟩],
            overrides := [⟨[keyA], Value.int 1, Value.int 2⟩] })
    (some [(keyA, Value.int 7), (keyB, Value.int 30)])).2.2.2 _ _ rfl rfl

/-! ## Lemmas: the document writer builds on top of its line accumulator -/

mutual
theorem emitSubtables_extends : ∀ (path : List String) (t : Table) (lines : List String),
    ∃ suffix, emitSubtables path t lines = lines ++ suffix
  | _, [], lines => ⟨[], by simp [emitSubtables]⟩
  | path, (k, v) :: rest, lines => by
    obtain ⟨s1, h1⟩ := emitOneSubtable_extends path k v lines
    obtain ⟨s2, h2⟩ := emitSubtables_extends path rest (emitOneSubtable path k v lines)
    exact ⟨s1 ++ s2, by rw [emitSubtables, h2, h1, List.append_assoc]⟩

theorem emitOneSubtable_extends : ∀ (path : List String) (k : String) (v : Value)
    (lines : List String), ∃ suffix, emitOneSubtable path k v lines = lines ++ suffix
  | path, k, Value.table sub, lines => by
    rw [emitOneSubtable]
    by_cases hb : lines ≠ [] ∧ lines.getLast? ≠ some emptyLine
    · rw [if_pos hb]
      obtain ⟨s1, h1⟩ :=
        emitSubtables_extends (path ++ [k]) sub
          (emitScalars sub ((lines ++ [emptyLine]) ++ [tableHeading (path ++ [k])]))
      refine ⟨[emptyLine] ++ [tableHeading (path ++ [k])]
        ++ (sub.filter (fun p => !is_dict p.2)).map (fun p => kvLine p.1 p.2) ++ s1, ?_⟩
      rw [h1, emitScalars]
      simp [List.append_assoc]
    · rw [if_neg hb]
      obtain ⟨s1, h1⟩ :=
        emitSubtables_extends (path ++ [k]) sub
          (emitScalars sub (lines ++ [tableHeading (path ++ [k])]))
      refine ⟨[tableHeading (path ++ [k])]
        ++ (sub.filter (fun p => !is_dict p.2)).map (fun p => kvLine p.1 p.2) ++ s1, ?_⟩
      rw [h1, emitScalars]
      simp [List.append_assoc]
  | path, k, Value.bool b, lines => ⟨[], by simp [emitOneSubtable]⟩
  | path, k, Value.int n, lines => ⟨[], by simp [emitOneSubtable]⟩
  | path, k, Value.str s, lines => ⟨[], by simp [emitOneSubtable]⟩
  | path, k, Value.arr xs, lines => ⟨[], by simp [emitOneSubtable]⟩
end

theorem dump_toml_lines_header (data : Table) (header : List String) :
    (dump_toml_lines data header).take header.length = header := by
  rw [dump_toml_lines, emit_table]
  show (emitSubtables [] data
    (emitScalars data (if header ≠ [] then header ++ [emptyLine] else []))).take
      header.length = header
  obtain ⟨s1, h1⟩ := emitSubtables_extends [] data
    (emitScalars data (if header ≠ [] then header ++ [emptyLine] else []))
  rw [h1, emitScalars]
  by_cases hh : header ≠ []
  · rw [if_pos hh]
    rw [List.append_assoc, List.append_assoc]
    rw [show header ++ ([emptyLine] ++ ((data.filter (fun p => !is_dict p.2)).map
      (fun p => kvLine p.1 p.2) ++ s1)) = header ++ ([emptyLine]
      ++ ((data.filter (fun p => !is_dict p.2)).map (fun p => kvLine p.1 p.2) ++ s1))
      from rfl]
    exact List.take_left header _
  · rw [if_neg hh]
    simp at hh
    simp [hh]

theorem extract_header_characterization (lines : List String) :
    extract_header lines =
      (lines.takeWhile (fun l => isBlankLine l || isCommentLine l)).filter
        (fun l => isCommentLine l) := by
  induction lines with
  | nil => rfl
  | cons line rest ih =>
    rw [extract_header]
    cases hd : line.data.dropWhile charIsSpace with
    | nil =>
      have hb : isBlankLine line = true := by simp [isBlankLine, hd]
      simp [List.takeWhile_cons, hb, List.filter_cons, isCommentLine, hd, ih]
    | cons c cs =>
      by_cases hc : c = '#'
      · have hcl : isCommentLine line = true := by simp [isCommentLine, hd, hc]
        simp [hc, List.takeWhile_cons, hcl, List.filter_cons, ih]
      · have hcl : isCommentLine line = false := by simp [isCommentLine, hd, hc]
        have hb : isBlankLine line = false := by simp [isBlankLine, hd]
        simp [hc, List.takeWhile_cons, hcl, hb]

/-! ## Claim C8 (corrected) -/

/-- C8 counterexample: the header is not the verbatim leading run of
blank/comment lines (the blank line of `["", "# header"]` is dropped),
and the rolled-back document does not carry the same header lines as the
merged document: with a repo header and a header-less pre-existing
target, install writes the repo header on top of the merged document but
remove writes the rolled-back document with the (empty) pre-existing
header. -/
theorem c8_counterexample :
    extract_header [blankLine, headerLine] = [headerLine]
    ∧ [headerLine] ≠ [blankLine, headerLine]
    ∧ (install_op [(keyA, Value.int 1)] [headerLine]
        (some ([(keyB, Value.int 2)], [kvLine keyB (Value.int 2)]))).written.take 1
        = [headerLine]
    ∧ (remove_op
        (some (install_op [(keyA, Value.int 1)] [headerLine]
          (some ([(keyB, Value.int 2)], [kvLine keyB (Value.int 2)]))).ledger)
        (some (install_op [(keyA, Value.int 1)] [headerLine]
          (some ([(keyB, Value.int 2)], [kvLine keyB (Value.int 2)]))).mergedData)).written
        = some [kvLine keyB (Value.int 2)]
    ∧ (kvLine keyB (Value.int 2) ≠ headerLine) := by
  refine ⟨?_, ?_, ?_, ?_, ?_⟩ <;> decide

/-- C8 (amended): the header lines are the comment lines of the leading
run of blank/comment lines of a document's source text (blank lines
inside the run are dropped); install emits the repo document's header
when it is non-empty and otherwise the pre-existing target's header,
verbatim at the top of the merged document; remove emits the
pre-existing target's header (as stored in the state file) at the top of
whatever document it writes. -/
theorem c8_amended_header_behavior :
    (∀ lines : List String, extract_header lines =
        (lines.takeWhile (fun l => isBlankLine l || isCommentLine l)).filter
          (fun l => isCommentLine l))
    ∧ (∀ (repo : Table) (repoText : List String) (target : Option (Table × List String)),
        (install_op repo repoText target).written.take (installHeader repoText target).length
          = installHeader repoText target)
    ∧ (∀ (st : Ledger) (data : Table) (w : List String),
        (remove_op (some st) (some data)).written = some w →
        w.take st.existing_header.length = st.existing_header) := by
  refine ⟨extract_header_characterization, ?_, ?_⟩
  · intro repo repoText target
    have : (install_op repo repoText target).written =
        dump_toml_lines (install_op repo repoText target).mergedData
          (installHeader repoText target) := by
      rfl
    rw [this]
    exact dump_toml_lines_header _ _
  · intro st data w hw
    rw [remove_op] at hw
    by_cases h : (rollback st.overrides st.additions data).1 ≠ []
    · rw [if_pos h] at hw
      simp only [Option.some.injEq] at hw
      rw [← hw]
      exact dump_toml_lines_header _ _
    · rw [if_neg h] at hw
      by_cases h2 : st.had_config = false
      · rw [if_pos h2] at hw
        simp at hw
      · rw [if_neg h2] at hw
        simp only [Option.some.injEq] at hw
        rw [← hw]
        exact dump_toml_lines_header _ _

theorem c8_witness :
    (install_op [(keyA, Value.int 1)] [headerLine] none).written.take
        (installHeader [headerLine] none).length = installHeader [headerLine] none :=
  (c8_amended_header_behavior).2.1 [(keyA, Value.int 1)] [headerLine] none

/-! ## Lemmas: rollback steps leave keys their entries never name untouched -/

theorem lookup_rollback_override_ne (st : Table × Nat) (e : OvEntry) (k : String)
    (hne : e.path.head? ≠ some k) :
    lookupTable (rollback_override st e).1 k = lookupTable st.1 k := by
  rw [rollback_override]
  cases hg : path_get st.1 e.path with
  | none => rfl
  | some cur =>
    show lookupTable
      (if cur = e.repo then (path_set st.1 e.path e.previous, st.2) else (st.1, st.2 + 1)).1 k
      = lookupTable st.1 k
    by_cases hc : cur = e.repo
    · rw [if_pos hc]
      cases hp : e.path with
      | nil => simp [path_set]
      | cons k' q =>
        have hk' : k' ≠ k := by
          rw [hp] at hne
          simpa using hne
        exact lookupTable_path_set_ne st.1 k' q e.previous k hk'
    · rw [if_neg hc]

theorem lookup_rollback_addition_ne (st : Table × Nat) (e : AddEntry) (k : String)
    (hne : e.path.head? ≠ some k) :
    lookupTable (rollback_addition st e).1 k = lookupTable st.1 k := by
  rw [rollback_addition]
  cases hg : path_get st.1 e.path with
  | none => rfl
  | some cur =>
    show lookupTable
      (if cur = e.repo then ((path_delete st.1 e.path).1, st.2) else (st.1, st.2 + 1)).1 k
      = lookupTable st.1 k
    by_cases hc : cur = e.repo
    · rw [if_pos hc]
      cases hp : e.path with
      | nil => simp [path_delete]
      | cons k' q =>
        have hk' : k' ≠ k := by
          rw [hp] at hne
          simpa using hne
        exact lookupTable_path_delete_ne st.1 k' q k hk'
    · rw [if_neg hc]

theorem lookup_foldl_override_ne (es : List OvEntry) (k : String)
    (h : ∀ e ∈ es, e.path.head? ≠ some k) :
    ∀ st : Table × Nat, lookupTable (es.foldl rollback_override st).1 k = lookupTable st.1 k := by
  induction es with
  | nil => intro st; rfl
  | cons e rest ih =>
    intro st
    rw [List.foldl_cons]
    rw [ih (fun e' he' => h e' (by simp [he'])) (rollback_override st e)]
    exact lookup_rollback_override_ne st e k (h e (by simp))

theorem lookup_foldl_addition_ne (es : List AddEntry) (k : String)
    (h : ∀ e ∈ es, e.path.head? ≠ some k) :
    ∀ st : Table × Nat, lookupTable (es.foldl rollback_addition st).1 k = lookupTable st.1 k := by
  induction es with
  | nil => intro st; rfl
  | cons e rest ih =>
    intro st
    rw [List.foldl_cons]
    rw [ih (fun e' he' => h e' (by simp [he'])) (rollback_addition st e)]
    exact lookup_rollback_addition_ne st e k (h e (by simp))

theorem lookup_rollback_ne (ovs : List OvEntry) (adds : List AddEntry) (d : Table)
    (k : String) (hov : ∀ e ∈ ovs, e.path.head? ≠ some k)
    (had : ∀ e ∈ adds, e.path.head? ≠ some k) :
    lookupTable (rollback ovs adds d).1 k = lookupTable d k := by
  rw [rollback]
  rw [lookup_foldl_addition_ne adds k had _]
  exact lookup_foldl_override_ne ovs k hov (d, 0)

/-- When the repo maps `k` to an empty table and the existing tree lacks
`k`, no entry of the diff has `k` as the head of its path. -/
theorem diff_no_entries_at_empty_key : ∀ (R E : Table) (k : String), wfTable R = true →
    lookupTable R k = some (Value.table []) → lookupTable E k = none →
    (∀ e ∈ (collect_changes_table [] R E).1, e.path.head? ≠ some k)
    ∧ (∀ e ∈ (collect_changes_table [] R E).2, e.path.head? ≠ some k)
  | [], E, k, _, hk, _ => by simp at hk
  | (k1, v1) :: rest, E, k, hwf, hk, he => by
    rw [wfTable_cons_iff] at hwf
    rw [collect_changes_table_cons]
    by_cases h1 : k1 = k
    · subst h1
      simp at hk
      subst hk
      constructor
      · intro e he'
        rw [List.mem_append] at he'
        cases he' with
        | inl hin =>
          rw [he] at hin
          simp [collect_additions] at hin
        | inr hin =>
          obtain ⟨k', s, hs, hk'⟩ := collect_changes_table_shape_add [] rest E e hin
          rw [hs]
          simp only [List.nil_append, List.head?_cons]
          intro hkk
          simp only [Option.some.injEq] at hkk
          subst hkk
          exact absurd ((hasKey_iff_mem rest k').mpr hk') (by simp [hwf.1])
      · intro e he'
        rw [List.mem_append] at he'
        cases he' with
        | inl hin =>
          rw [he] at hin
          simp at hin
        | inr hin =>
          obtain ⟨k', s, hs, hk', _⟩ := collect_changes_table_shape_ov [] rest E e hin
          rw [hs]
          simp only [List.nil_append, List.head?_cons]
          intro hkk
          simp only [Option.some.injEq] at hkk
          subst hkk
          exact absurd ((hasKey_iff_mem rest k').mpr hk') (by simp [hwf.1])
    · simp only [lookupTable_cons, if_neg h1] at hk
      have hrest := diff_no_entries_at_empty_key rest E k hwf.2.2 hk he
      constructor
      · intro e he'
        rw [List.mem_append] at he'
        cases he' with
        | inl hin =>
          cases hl : lookupTable E k1 with
          | some ev =>
            rw [hl] at hin
            obtain ⟨s, hs⟩ := collect_changes_shape_add ([] ++ [k1]) v1 (some ev) e hin
            rw [hs]
            simp [h1]
          | none =>
            rw [hl] at hin
            obtain ⟨s, hs⟩ := collect_additions_shape ([] ++ [k1]) v1 e hin
            rw [hs]
            simp [h1]
        | inr hin => exact hrest.1 e hin
      · intro e he'
        rw [List.mem_append] at he'
        cases he' with
        | inl hin =>
          cases hl : lookupTable E k1 with
          | some ev =>
            rw [hl] at hin
            obtain ⟨s, hs⟩ := collect_changes_shape_ov ([] ++ [k1]) v1 (some ev) e hin
            rw [hs]
            simp [h1]
          | none =>
            rw [hl] at hin
            simp at hin
        | inr hin => exact hrest.2 e hin

/-! ## Claim C10 (corrected) -/

/-- C10 counterexample: repo `{a = {b = {}}}` against existing
`{a = 5}`.  The repo has an empty table at path `a.b`, absent from the
existing tree, and the ledger records no entry at that path or below
(its only entry is the Override at the ancestor `a`) — yet rollback
*does* remove the empty table: remove restores `a = 5`, so the merged
document's untracked `a.b` is gone and the claim's "rollback cannot
remove" fails at this input. -/
theorem c10_counterexample :
    path_get [(keyA, Value.table [(keyB, Value.table [])])] [keyA, keyB]
        = some (Value.table [])
    ∧ path_get [(keyA, Value.int 5)] [keyA, keyB] = none
    ∧ (∀ e ∈ (install_op [(keyA, Value.table [(keyB, Value.table [])])] []
        (some ([(keyA, Value.int 5)], []))).ledger.additions,
          e.path ≠ [keyA, keyB] ∧ e.path ≠ [keyA, keyB, keyC])
    ∧ path_get (install_op [(keyA, Value.table [(keyB, Value.table [])])] []
        (some ([(keyA, Value.int 5)], []))).mergedData [keyA, keyB] = some (Value.table [])
    ∧ (remove_op
        (some (install_op [(keyA, Value.table [(keyB, Value.table [])])] []
          (some ([(keyA, Value.int 5)], []))).ledger)
        (some (install_op [(keyA, Value.table [(keyB, Value.table [])])] []
          (some ([(keyA, Value.int 5)], []))).mergedData)).target
        = some [(keyA, Value.int 5)] := by
  refine ⟨?_, ?_, ?_, ?_, ?_⟩ <;> decide

/-! ## Lemmas: the claim-side fold operators -/

@[simp] theorem applyAdds_nil (d : Table) : applyAdds d [] = d := rfl

theorem applyAdds_cons (d : Table) (e : AddEntry) (es : List AddEntry) :
    applyAdds d (e :: es) = applyAdds (path_set d e.path e.repo) es := rfl

theorem applyAdds_append (d : Table) (es1 es2 : List AddEntry) :
    applyAdds d (es1 ++ es2) = applyAdds (applyAdds d es1) es2 := by
  simp [applyAdds, List.foldl_append]

@[simp] theorem applyOvs_nil (d : Table) : applyOvs d [] = d := rfl

theorem applyOvs_cons (d : Table) (e : OvEntry) (es : List OvEntry) :
    applyOvs d (e :: es) = applyOvs (path_set d e.path e.repo) es := rfl

theorem applyOvs_append (d : Table) (es1 es2 : List OvEntry) :
    applyOvs d (es1 ++ es2) = applyOvs (applyOvs d es1) es2 := by
  simp [applyOvs, List.foldl_append]

theorem addPrepend_single (k : String) (e : AddEntry) :
    addPrepend [k] e = ⟨k :: e.path, e.repo⟩ := rfl

theorem ovPrepend_single (k : String) (e : OvEntry) :
    ovPrepend [k] e = ⟨k :: e.path, e.previous, e.repo⟩ := rfl

theorem tableOfOpt_setKey_table (d : Table) (k : String) (c : Table) :
    tableOfOpt (lookupTable (setKey d k (Value.table c)) k) = c := by
  rw [lookupTable_setKey_self]
  rfl

theorem applyAdds_prepend : ∀ (es : List AddEntry) (d : Table) (k : String),
    es ≠ [] → (∀ e ∈ es, e.path ≠ []) →
    applyAdds d (es.map (addPrepend [k])) =
      setKey d k (Value.table (applyAdds (tableOfOpt (lookupTable d k)) es))
  | [], _, _, hnn, _ => absurd rfl hnn
  | [e], d, k, _, hne => by
    rw [List.map_cons, List.map_nil, applyAdds_cons, applyAdds_nil, addPrepend_single]
    rw [applyAdds_cons, applyAdds_nil]
    exact path_set_cons₂ d k e.path e.repo (hne e (by simp))
  | e :: e2 :: rest, d, k, _, hne => by
    rw [List.map_cons, applyAdds_cons, addPrepend_single]
    have hstep : path_set d (k :: e.path) e.repo =
        setKey d k (Value.table (path_set (tableOfOpt (lookupTable d k)) e.path e.repo)) :=
      path_set_cons₂ d k e.path e.repo (hne e (by simp))
    rw [hstep]
    rw [applyAdds_prepend (e2 :: rest) _ k (by simp) (fun e' he' => hne e' (by simp [he']))]
    rw [tableOfOpt_setKey_table, setKey_setKey]
    rfl

theorem applyOvs_prepend : ∀ (es : List OvEntry) (d : Table) (k : String),
    es ≠ [] → (∀ e ∈ es, e.path ≠ []) →
    applyOvs d (es.map (ovPrepend [k])) =
      setKey d k (Value.table (applyOvs (tableOfOpt (lookupTable d k)) es))
  | [], _, _, hnn, _ => absurd rfl hnn
  | [e], d, k, _, hne => by
    rw [List.map_cons, List.map_nil, applyOvs_cons, applyOvs_nil, ovPrepend_single]
    rw [applyOvs_cons, applyOvs_nil]
    exact path_set_cons₂ d k e.path e.repo (hne e (by simp))
  | e :: e2 :: rest, d, k, _, hne => by
    rw [List.map_cons, applyOvs_cons, ovPrepend_single]
    have hstep : path_set d (k :: e.path) e.repo =
        setKey d k (Value.table (path_set (tableOfOpt (lookupTable d k)) e.path e.repo)) :=
      path_set_cons₂ d k e.path e.repo (hne e (by simp))
    rw [hstep]
    rw [applyOvs_prepend (e2 :: rest) _ k (by simp) (fun e' he' => hne e' (by simp [he']))]
    rw [tableOfOpt_setKey_table, setKey_setKey]
    rfl

theorem hasKey_path_set_mono (d : Table) (p : List String) (v : Value) (k : String)
    (h : hasKey d k = true) : hasKey (path_set d p v) k = true := by
  cases p with
  | nil => exact h
  | cons k' q =>
    by_cases hk : k' = k
    · subst hk
      cases q with
      | nil => simp [path_set_single, hasKey, lookupTable_setKey_self]
      | cons a b =>
        rw [path_set_cons₂ d k' (a :: b) v (by simp)]
        simp [hasKey, lookupTable_setKey_self]
    · rw [hasKey, lookupTable_path_set_ne d k' q v k hk]
      exact h

theorem hasKey_applyAdds_mono (es : List AddEntry) (d : Table) (k : String)
    (h : hasKey d k = true) : hasKey (applyAdds d es) k = true := by
  induction es generalizing d with
  | nil => exact h
  | cons e rest ih =>
    rw [applyAdds_cons]
    exact ih _ (hasKey_path_set_mono d e.path e.repo k h)

theorem path_set_head_comm (d : Table) (k1 k2 : String) (q1 q2 : List String)
    (v1 v2 : Value) (hne : k1 ≠ k2) (hk1 : hasKey d k1 = true) :
    path_set (path_set d (k1 :: q1) v1) (k2 :: q2) v2 =
      path_set (path_set d (k2 :: q2) v2) (k1 :: q1) v1 := by
  have e1 : ∀ (dd : Table) (q : List String) (v : Value),
      path_set dd (k1 :: q) v =
        setKey dd k1 (if q = [] then v
          else Value.table (path_set (tableOfOpt (lookupTable dd k1)) q v)) := by
    intro dd q v
    cases q with
    | nil => simp [path_set_single]
    | cons a b => rw [path_set_cons₂ dd k1 (a :: b) v (by simp)]; simp
  have e2 : ∀ (dd : Table) (q : List String) (v : Value),
      path_set dd (k2 :: q) v =
        setKey dd k2 (if q = [] then v
          else Value.table (path_set (tableOfOpt (lookupTable dd k2)) q v)) := by
    intro dd q v
    cases q with
    | nil => simp [path_set_single]
    | cons a b => rw [path_set_cons₂ dd k2 (a :: b) v (by simp)]; simp
  rw [e1 d q1 v1, e2 _ q2 v2, e2 d q2 v2, e1 _ q1 v1]
  rw [lookupTable_setKey_ne d k1 _ k2 hne, lookupTable_setKey_ne d k2 _ k1 (Ne.symm hne)]
  exact setKey_comm d k1 k2 _ _ hne hk1

theorem applyAdds_path_set_comm (es : List AddEntry) (k : String) (q : List String)
    (v : Value) (hheads : ∀ e ∈ es, ∃ k' q', e.path = k' :: q' ∧ k' ≠ k) :
    ∀ d : Table, hasKey d k = true →
    applyAdds (path_set d (k :: q) v) es = path_set (applyAdds d es) (k :: q) v := by
  induction es with
  | nil => intro d _; rfl
  | cons e rest ih =>
    intro d hk
    rw [applyAdds_cons, applyAdds_cons]
    obtain ⟨k', q', hp, hk'⟩ := hheads e (by simp)
    rw [hp]
    rw [path_set_head_comm d k k' q q' v e.repo (Ne.symm hk') hk]
    exact ih (fun e' he' => hheads e' (by simp [he'])) _
      (hasKey_path_set_mono d (k' :: q') e.repo k hk)

theorem applyOvs_applyAdds_comm (ovs : List OvEntry) (adds : List AddEntry) (k : String)
    (hov : ∀ e ∈ ovs, ∃ q, e.path = k :: q)
    (hadd : ∀ e ∈ adds, ∃ k' q', e.path = k' :: q' ∧ k' ≠ k) :
    ∀ d : Table, hasKey d k = true →
    applyOvs (applyAdds d adds) ovs = applyAdds (applyOvs d ovs) adds := by
  induction ovs with
  | nil => intro d _; rfl
  | cons o rest ih =>
    intro d hk
    rw [applyOvs_cons, applyOvs_cons]
    obtain ⟨q, hp⟩ := hov o (by simp)
    rw [hp]
    rw [← applyAdds_path_set_comm adds k q o.repo hadd d hk]
    exact ih (fun e' he' => hov e' (by simp [he'])) _
      (hasKey_path_set_mono d (k :: q) o.repo k hk)

theorem hasKey_head (k : String) (v : Value) (rest : Table) :
    hasKey ((k, v) :: rest) k = true := by
  simp [hasKey]

theorem hasKey_cons_tail (k : String) (v : Value) (rest : Table) (k' : String)
    (h : hasKey rest k' = true) : hasKey ((k, v) :: rest) k' = true := by
  rw [hasKey_cons]
  split <;> simp [h]

theorem lookupTable_append_right (s t : Table) (k : String)
    (h : lookupTable s k = none) : lookupTable (s ++ t) k = lookupTable t k := by
  rw [lookupTable_append, h]

theorem lookupTable_append_left (s t : Table) (k : String) (v : Value)
    (h : lookupTable s k = some v) : lookupTable (s ++ t) k = some v := by
  rw [lookupTable_append, h]

theorem hasKey_append (s t : Table) (k : String) :
    hasKey (s ++ t) k = (hasKey s k || hasKey t k) := by
  rw [hasKey, hasKey, hasKey, lookupTable_append]
  cases h : lookupTable s k <;> simp

theorem wf_append_single (E : Table) (k : String) (v : Value) (hwf : wfTable E = true)
    (hk : lookupTable E k = none) (hv : wfValue v = true) :
    wfTable (E ++ [(k, v)]) = true := by
  induction E with
  | nil => simp [wfTable_cons_iff, hv, wfTable]
  | cons hd tl ih =>
    obtain ⟨k1, v1⟩ := hd
    rw [wfTable_cons_iff] at hwf
    by_cases h1 : k1 = k
    · simp [h1] at hk
    · rw [lookupTable_cons, if_neg h1] at hk
      rw [List.cons_append, wfTable_cons_iff]
      refine ⟨?_, hwf.2.1, ih hwf.2.2 hk⟩
      rw [hasKey_append]
      simp only [hwf.1, Bool.false_or]
      have hk2 : ¬k = k1 := fun hh => h1 hh.symm
      simp [hasKey_cons, hk2]

mutual
theorem applyAdds_build : ∀ (v : Value) (t : Table) (k : String),
    wfValue v = true → noEmptyVal v = true → lookupTable t k = none →
    applyAdds t (collect_additions [k] v) = t ++ [(k, v)]
  | Value.table vt, t, k, hwf, hne, hl => by
    rw [noEmptyVal_table_iff] at hne
    rw [wfValue_table_iff] at hwf
    rw [collect_additions_table_val]
    have hshift : collect_additions_table [k] vt =
        (collect_additions_table [] vt).map (addPrepend [k]) := by
      have h := collect_additions_table_shift [k] [] vt
      simpa using h
    rw [hshift]
    rw [applyAdds_prepend (collect_additions_table [] vt) t k
      (collect_additions_table_ne_nil [] vt hne.1 hne.2)
      (fun e he => by
        obtain ⟨k', s, hs, _⟩ := collect_additions_table_shape [] vt e he
        simp [hs])]
    rw [hl]
    rw [show tableOfOpt none = [] from rfl]
    rw [applyAdds_build_table vt [] hwf hne.2 (fun k' _ => rfl)]
    rw [List.nil_append]
    exact setKey_absent t k (Value.table vt) hl
  | Value.bool b, t, k, _, _, hl => by
    rw [collect_additions_scalar [k] (Value.bool b) rfl, applyAdds_cons, applyAdds_nil]
    rw [path_set_single]
    exact setKey_absent t k (Value.bool b) hl
  | Value.int n, t, k, _, _, hl => by
    rw [collect_additions_scalar [k] (Value.int n) rfl, applyAdds_cons, applyAdds_nil]
    rw [path_set_single]
    exact setKey_absent t k (Value.int n) hl
  | Value.str u, t, k, _, _, hl => by
    rw [collect_additions_scalar [k] (Value.str u) rfl, applyAdds_cons, applyAdds_nil]
    rw [path_set_single]
    exact setKey_absent t k (Value.str u) hl
  | Value.arr xs, t, k, _, _, hl => by
    rw [collect_additions_scalar [k] (Value.arr xs) rfl, applyAdds_cons, applyAdds_nil]
    rw [path_set_single]
    exact setKey_absent t k (Value.arr xs) hl

theorem applyAdds_build_table : ∀ (vt : Table) (t : Table),
    wfTable vt = true → noEmptyTable vt = true →
    (∀ k', hasKey vt k' = true → lookupTable t k' = none) →
    applyAdds t (collect_additions_table [] vt) = t ++ vt
  | [], t, _, _, _ => by simp
  | (k1, v1) :: rest, t, hwf, hne, hdis => by
    rw [wfTable_cons_iff] at hwf
    rw [noEmptyTable_cons_iff] at hne
    rw [collect_additions_table_cons, List.nil_append, applyAdds_append]
    rw [applyAdds_build v1 t k1 hwf.2.1 hne.1 (hdis k1 (hasKey_head k1 v1 rest))]
    rw [applyAdds_build_table rest (t ++ [(k1, v1)]) hwf.2.2 hne.2 (fun k' hk' => by
      have hne1 : k1 ≠ k' := by
        intro hkk
        subst hkk
        exact absurd hk' (by simp [hwf.1])
      rw [lookupTable_append]
      rw [hdis k' (hasKey_cons_tail k1 v1 rest k' hk')]
      simp [hne1])]
    simp

end

theorem collect_changes_table_congr : ∀ (p : List String) (rt e1 e2 : Table),
    (∀ k, hasKey rt k = true → lookupTable e1 k = lookupTable e2 k) →
    collect_changes_table p rt e1 = collect_changes_table p rt e2
  | _, [], _, _, _ => rfl
  | p, (k, v) :: rest, e1, e2, h => by
    rw [collect_changes_table_cons, collect_changes_table_cons]
    rw [h k (hasKey_head k v rest)]
    rw [collect_changes_table_congr p rest e1 e2
      (fun k' hk' => h k' (hasKey_cons_tail k v rest k' hk'))]

theorem mergeGo_congr : ∀ (b o1 o2 : Table),
    (∀ k, hasKey b k = true → lookupTable o1 k = lookupTable o2 k) →
    mergeGo b o1 = mergeGo b o2
  | [], _, _, _ => rfl
  | (k, bv) :: rest, o1, o2, h => by
    rw [mergeGo_cons, mergeGo_cons]
    rw [h k (hasKey_head k bv rest)]
    rw [mergeGo_congr rest o1 o2 (fun k' hk' => h k' (hasKey_cons_tail k bv rest k' hk'))]

theorem mergeGo_append (a b o : Table) : mergeGo (a ++ b) o = mergeGo a o ++ mergeGo b o := by
  induction a with
  | nil => simp
  | cons hd tl ih =>
    obtain ⟨k, bv⟩ := hd
    rw [List.cons_append, mergeGo_cons, mergeGo_cons, ih, List.cons_append]

/-- Pulling a repo-only key out of the overlay: merging with
`(k, v) :: R'` is merging the extended base with `R'`. -/
theorem merge_cons_new (E R' : Table) (k : String) (v : Value)
    (hkE : lookupTable E k = none) (hkR' : lookupTable R' k = none) :
    merge_dicts E ((k, v) :: R') = merge_dicts (E ++ [(k, v)]) R' := by
  rw [merge_dicts, merge_dicts]
  have h1 : mergeGo E ((k, v) :: R') = mergeGo E R' := by
    apply mergeGo_congr
    intro k' hk'
    have hne : k ≠ k' := by
      intro hkk
      subst hkk
      rw [hasKey, hkE] at hk'
      simp at hk'
    simp [hne]
  have h2 : mergeGo (E ++ [(k, v)]) R' = mergeGo E R' ++ [(k, mergeEntry v (lookupTable R' k))] := by
    rw [mergeGo_append]
    rfl
  rw [h1, h2, hkR', mergeEntry_none]
  have h3 : ((k, v) :: R').filter (fun p => !hasKey E p.1) =
      (k, v) :: R'.filter (fun p => !hasKey E p.1) := by
    rw [List.filter_cons]
    simp [hasKey, hkE]
  have h4 : R'.filter (fun p => !hasKey (E ++ [(k, v)]) p.1) =
      R'.filter (fun p => !hasKey E p.1) := by
    apply List.filter_congr
    intro p hp
    rw [hasKey_append]
    have hpk : p.1 ≠ k := by
      intro hkk
      have h5 := (hasKey_false_iff R' k).mpr hkR'
      rw [← hkk] at h5
      exact absurd ((hasKey_iff_mem R' p.1).mpr (List.mem_map_of_mem Prod.fst hp))
        (by simp [h5])
    have hpk' : ¬k = p.1 := fun hh => hpk hh.symm
    have h6 : hasKey [(k, v)] p.1 = false := by simp [hasKey_cons, hpk']
    rw [h6]
    simp
  rw [h3, h4]
  simp

/-- Folding an overlay key that the base already has into the base:
merging with `(k, v) :: R'` is merging the updated base with `R'`. -/
theorem merge_cons_mem : ∀ (E : Table) (R' : Table) (k : String) (v : Value) (ev : Value),
    wfTable E = true → lookupTable E k = some ev → lookupTable R' k = none →
    merge_dicts E ((k, v) :: R') = merge_dicts (setKey E k (mergeEntry ev (some v))) R'
  | E, R', k, v, ev, hwfE, hkE, hkR' => by
    rw [merge_dicts, merge_dicts]
    have hgo : ∀ (b : Table), wfTable b = true → lookupTable b k = some ev →
        mergeGo b ((k, v) :: R') = mergeGo (setKey b k (mergeEntry ev (some v))) R' := by
      intro b
      induction b with
      | nil => intro _ hb; simp at hb
      | cons hd tl ih =>
        obtain ⟨k1, v1⟩ := hd
        intro hwfb hb
        rw [wfTable_cons_iff] at hwfb
        by_cases h1 : k1 = k
        · subst h1
          rw [lookupTable_cons, if_pos rfl] at hb
          simp only [Option.some.injEq] at hb
          subst hb
          rw [setKey_cons_self]
          rw [mergeGo_cons, mergeGo_cons]
          rw [show lookupTable ((k1, v) :: R') k1 = some v from by simp]
          rw [hkR', mergeEntry_none]
          rw [mergeGo_congr tl ((k1, v) :: R') R' (fun k' hk' => by
            have hne : k1 ≠ k' := by
              intro hkk
              subst hkk
              exact absurd hk' (by simp [hwfb.1])
            simp [hne])]
        · rw [setKey_cons]
          simp only [if_neg h1]
          rw [mergeGo_cons, mergeGo_cons]
          rw [lookupTable_cons, if_neg h1] at hb
          rw [ih hwfb.2.2 hb]
          have hne2 : ¬k = k1 := fun hkk => h1 hkk.symm
          have hlk : lookupTable ((k, v) :: R') k1 = lookupTable R' k1 := by
            rw [lookupTable_cons, if_neg hne2]
          rw [hlk]
    rw [hgo E hwfE hkE]
    have h3 : ((k, v) :: R').filter (fun p => !hasKey E p.1) =
        R'.filter (fun p => !hasKey E p.1) := by
      rw [List.filter_cons]
      simp [hasKey, hkE]
    have h4 : R'.filter (fun p => !hasKey (setKey E k (mergeEntry ev (some v))) p.1) =
        R'.filter (fun p => !hasKey E p.1) := by
      apply List.filter_congr
      intro p hp
      rw [hasKey_setKey]
      by_cases hpk : k = p.1
      · rw [if_pos hpk]
        rw [← hpk]
        simp [hasKey, hkE]
      · rw [if_neg hpk]
    rw [h3, h4]

theorem sizeOf_val_lt_of_mem {b : Table} {k : String} {v : Value} (h : (k, v) ∈ b) :
    sizeOf v < sizeOf b := by
  have h1 := List.sizeOf_lt_of_mem h
  have h2 : sizeOf (k, v) = 1 + sizeOf k + sizeOf v := rfl
  omega

theorem sizeOf_lookup_lt {b : Table} {k : String} {v : Value}
    (h : lookupTable b k = some v) : sizeOf v < sizeOf b := by
  induction b with
  | nil => simp at h
  | cons hd tl ih =>
    obtain ⟨k1, v1⟩ := hd
    by_cases h1 : k1 = k
    · rw [lookupTable_cons, if_pos h1] at h
      simp only [Option.some.injEq] at h
      subst h
      exact sizeOf_val_lt_of_mem (show (k1, v1) ∈ (k1, v1) :: tl from List.mem_cons_self _ _)
    · rw [lookupTable_cons, if_neg h1] at h
      have := ih h
      have h2 : sizeOf tl < sizeOf ((k1, v1) :: tl) := by simp
      omega

theorem wfTable_parts : ∀ (t : Table), wfTable t = true →
    (keysOf t).Nodup ∧ ∀ p ∈ t, wfValue p.2 = true
  | [], _ => ⟨List.nodup_nil, by simp⟩
  | (k, v) :: rest, h => by
    rw [wfTable_cons_iff] at h
    obtain ⟨ih1, ih2⟩ := wfTable_parts rest h.2.2
    refine ⟨?_, ?_⟩
    · rw [keysOf_cons, List.nodup_cons]
      refine ⟨fun hmem => ?_, ih1⟩
      exact absurd ((hasKey_iff_mem rest k).mpr hmem) (by simp [h.1])
    · intro p hp
      rw [List.mem_cons] at hp
      cases hp with
      | inl hp1 => rw [hp1]; exact h.2.1
      | inr hp2 => exact ih2 p hp2

theorem wfTable_of_parts : ∀ (t : Table), (keysOf t).Nodup →
    (∀ p ∈ t, wfValue p.2 = true) → wfTable t = true
  | [], _, _ => rfl
  | (k, v) :: rest, hnd, hv => by
    rw [keysOf_cons, List.nodup_cons] at hnd
    rw [wfTable_cons_iff]
    refine ⟨?_, hv (k, v) (by simp), wfTable_of_parts rest hnd.2 (fun p hp => hv p (by simp [hp]))⟩
    cases hh : hasKey rest k
    · rfl
    · exact absurd ((hasKey_iff_mem rest k).mp hh) hnd.1

theorem mem_mergeGo : ∀ (b o : Table) (p : String × Value), p ∈ mergeGo b o →
    ∃ q ∈ b, p = (q.1, mergeEntry q.2 (lookupTable o q.1))
  | [], _, _, h => by simp [mergeGo] at h
  | (k, bv) :: rest, o, p, h => by
    rw [mergeGo_cons, List.mem_cons] at h
    cases h with
    | inl h1 => exact ⟨(k, bv), by simp, h1⟩
    | inr h2 =>
      obtain ⟨q, hq, hqeq⟩ := mem_mergeGo rest o p h2
      exact ⟨q, by simp [hq], hqeq⟩

theorem wfTable_merge_aux : ∀ (N : Nat) (b o : Table), sizeOf b ≤ N →
    wfTable b = true → wfTable o = true → wfTable (merge_dicts b o) = true := by
  intro N
  induction N using Nat.strong_induction_on with
  | _ N ih =>
    intro b o hsz hwfb hwfo
    apply wfTable_of_parts
    · rw [keysOf_merge_dicts]
      apply List.Nodup.append
      · exact (wfTable_parts b hwfb).1
      · exact ((wfTable_parts o hwfo).1).filter _
      · intro k hk1 hk2
        rw [List.mem_filter] at hk2
        have := (hasKey_iff_mem b k).mpr hk1
        simp [this] at hk2
    · intro p hp
      rw [merge_dicts, List.mem_append] at hp
      cases hp with
      | inl hin =>
        obtain ⟨q, hq, hqeq⟩ := mem_mergeGo b o p hin
        rw [hqeq]
        obtain ⟨q1, q2⟩ := q
        simp only
        cases hlo : lookupTable o q1 with
        | none =>
          rw [mergeEntry_none]
          exact (wfTable_parts b hwfb).2 (q1, q2) hq
        | some ov =>
          cases hq2 : q2 with
          | table bt =>
            cases ov with
            | table ot =>
              rw [mergeEntry_table_table, wfValue_table_iff]
              have hlt : sizeOf bt < sizeOf b := by
                have h1 := sizeOf_val_lt_of_mem hq
                have h2 : sizeOf q2 = sizeOf (Value.table bt) := by rw [hq2]
                have h3 : sizeOf bt < sizeOf (Value.table bt) := by simp
                omega
              refine ih (sizeOf bt) (by omega) bt ot le_rfl ?_ ?_
              · have := (wfTable_parts b hwfb).2 (q1, q2) hq
                rw [hq2] at this
                exact (wfValue_table_iff bt).mp this
              · exact (wfValue_table_iff ot).mp (wfValue_lookup o q1 _ hwfo hlo)
            | bool x =>
              rw [mergeEntry_overlay_not_dict _ _ (by rfl)]
              exact wfValue_lookup o q1 _ hwfo hlo
            | int x =>
              rw [mergeEntry_overlay_not_dict _ _ (by rfl)]
              exact wfValue_lookup o q1 _ hwfo hlo
            | str x =>
              rw [mergeEntry_overlay_not_dict _ _ (by rfl)]
              exact wfValue_lookup o q1 _ hwfo hlo
            | arr x =>
              rw [mergeEntry_overlay_not_dict _ _ (by rfl)]
              exact wfValue_lookup o q1 _ hwfo hlo
          | bool x =>
            rw [mergeEntry_base_not_dict _ _ (by rfl)]
            exact wfValue_lookup o q1 _ hwfo hlo
          | int x =>
            rw [mergeEntry_base_not_dict _ _ (by rfl)]
            exact wfValue_lookup o q1 _ hwfo hlo
          | str x =>
            rw [mergeEntry_base_not_dict _ _ (by rfl)]
            exact wfValue_lookup o q1 _ hwfo hlo
          | arr x =>
            rw [mergeEntry_base_not_dict _ _ (by rfl)]
            exact wfValue_lookup o q1 _ hwfo hlo
      | inr hin =>
        exact (wfTable_parts o hwfo).2 p (List.mem_of_mem_filter hin)

theorem wfTable_merge_dicts (b o : Table) (hwfb : wfTable b = true)
    (hwfo : wfTable o = true) : wfTable (merge_dicts b o) = true :=
  wfTable_merge_aux (sizeOf b) b o le_rfl hwfb hwfo

/-- Applying a `[k]`-prefixed group of additions then overrides to `E`
is one `setKey` of the group applied inside the child table. -/
theorem group_apply (E : Table) (k : String) (et : Table)
    (hk : lookupTable E k = some (Value.table et))
    (A1 : List AddEntry) (O1 : List OvEntry)
    (hA : ∀ e ∈ A1, e.path ≠ []) (hO : ∀ e ∈ O1, e.path ≠ []) :
    applyOvs (applyAdds E (A1.map (addPrepend [k]))) (O1.map (ovPrepend [k])) =
      setKey E k (Value.table (applyOvs (applyAdds et A1) O1)) := by
  have htab : tableOfOpt (lookupTable E k) = et := by
    rw [hk]
    rfl
  by_cases hA1 : A1 = []
  · subst hA1
    by_cases hO1 : O1 = []
    · subst hO1
      simp only [List.map_nil, applyAdds_nil, applyOvs_nil]
      exact (setKey_self E k (Value.table et) hk).symm
    · simp only [List.map_nil, applyAdds_nil]
      rw [applyOvs_prepend O1 E k hO1 hO, htab]
  · rw [applyAdds_prepend A1 E k hA1 hA, htab]
    by_cases hO1 : O1 = []
    · subst hO1
      simp only [List.map_nil, applyOvs_nil]
    · rw [applyOvs_prepend O1 _ k hO1 hO, tableOfOpt_setKey_table, setKey_setKey]

theorem wfValue_mergeEntry (bv ov : Value) (h1 : wfValue bv = true)
    (h2 : wfValue ov = true) : wfValue (mergeEntry bv (some ov)) = true := by
  cases bv with
  | table bt =>
    cases ov with
    | table ot =>
      rw [mergeEntry_table_table, wfValue_table_iff]
      exact wfTable_merge_dicts bt ot ((wfValue_table_iff bt).mp h1)
        ((wfValue_table_iff ot).mp h2)
    | bool b => exact h2
    | int n => exact h2
    | str s => exact h2
    | arr xs => exact h2
  | bool b => exact h2
  | int n => exact h2
  | str s => exact h2
  | arr xs => exact h2

/-- The single-key group of `collect_changes [k] v (some ev)`, applied to
`E`, is exactly `setKey E k (mergeEntry ev (some v))`, given the
table/table inner round trip as a hypothesis. -/
theorem group_mid (E : Table) (k : String) (v ev : Value)
    (hE : lookupTable E k = some ev)
    (hinner : ∀ rt et, v = Value.table rt → ev = Value.table et →
      applyOvs (applyAdds et (collect_changes_table [] rt et).1)
        (collect_changes_table [] rt et).2 = merge_dicts et rt) :
    applyOvs (applyAdds E (collect_changes [k] v (some ev)).1)
      (collect_changes [k] v (some ev)).2 = setKey E k (mergeEntry ev (some v)) := by
  cases v with
  | table rt =>
    cases ev with
    | table et =>
      have hin := hinner rt et rfl rfl
      rw [collect_changes_table_some_table]
      have hshiftR : collect_changes_table [k] rt et =
          ((collect_changes_table [] rt et).1.map (addPrepend [k]),
           (collect_changes_table [] rt et).2.map (ovPrepend [k])) := by
        have h := collect_changes_table_shift [k] [] rt et
        simpa using h
      rw [hshiftR]
      have hA : ∀ e ∈ (collect_changes_table [] rt et).1, e.path ≠ [] := by
        intro e he
        obtain ⟨k', s, hs, _⟩ := collect_changes_table_shape_add [] rt et e he
        simp [hs]
      have hO : ∀ e ∈ (collect_changes_table [] rt et).2, e.path ≠ [] := by
        intro e he
        obtain ⟨k', s, hs, _, _⟩ := collect_changes_table_shape_ov [] rt et e he
        simp [hs]
      rw [group_apply E k et hE (collect_changes_table [] rt et).1
        (collect_changes_table [] rt et).2 hA hO]
      rw [hin, mergeEntry_table_table]
    | bool b => exact path_set_single E k _
    | int n => exact path_set_single E k _
    | str s => exact path_set_single E k _
    | arr xs => exact path_set_single E k _
  | bool b =>
    cases ev with
    | table et => exact path_set_single E k _
    | bool c =>
      rw [collect_changes_scalar_some_scalar [k] (Value.bool b) (Value.bool c) rfl rfl]
      by_cases hbc : Value.bool c = Value.bool b
      · rw [if_pos hbc]
        show E = setKey E k (mergeEntry (Value.bool c) (some (Value.bool b)))
        rw [show mergeEntry (Value.bool c) (some (Value.bool b)) = Value.bool b from rfl]
        rw [← hbc]
        exact (setKey_self E k (Value.bool c) hE).symm
      · rw [if_neg hbc]
        exact path_set_single E k _
    | int n => exact path_set_single E k _
    | str s => exact path_set_single E k _
    | arr xs => exact path_set_single E k _
  | int m =>
    cases ev with
    | table et => exact path_set_single E k _
    | bool c => exact path_set_single E k _
    | int n =>
      rw [collect_changes_scalar_some_scalar [k] (Value.int m) (Value.int n) rfl rfl]
      by_cases hbc : Value.int n = Value.int m
      · rw [if_pos hbc]
        show E = setKey E k (mergeEntry (Value.int n) (some (Value.int m)))
        rw [show mergeEntry (Value.int n) (some (Value.int m)) = Value.int m from rfl]
        rw [← hbc]
        exact (setKey_self E k (Value.int n) hE).symm
      · rw [if_neg hbc]
        exact path_set_single E k _
    | str s => exact path_set_single E k _
    | arr xs => exact path_set_single E k _
  | str u =>
    cases ev with
    | table et => exact path_set_single E k _
    | bool c => exact path_set_single E k _
    | int n => exact path_set_single E k _
    | str s =>
      rw [collect_changes_scalar_some_scalar [k] (Value.str u) (Value.str s) rfl rfl]
      by_cases hbc : Value.str s = Value.str u
      · rw [if_pos hbc]
        show E = setKey E k (mergeEntry (Value.str s) (some (Value.str u)))
        rw [show mergeEntry (Value.str s) (some (Value.str u)) = Value.str u from rfl]
        rw [← hbc]
        exact (setKey_self E k (Value.str s) hE).symm
      · rw [if_neg hbc]
        exact path_set_single E k _
    | arr xs => exact path_set_single E k _
  | arr ys =>
    cases ev with
    | table et => exact path_set_single E k _
    | bool c => exact path_set_single E k _
    | int n => exact path_set_single E k _
    | str s => exact path_set_single E k _
    | arr xs =>
      rw [collect_changes_scalar_some_scalar [k] (Value.arr ys) (Value.arr xs) rfl rfl]
      by_cases hbc : Value.arr xs = Value.arr ys
      · rw [if_pos hbc]
        show E = setKey E k (mergeEntry (Value.arr xs) (some (Value.arr ys)))
        rw [show mergeEntry (Value.arr xs) (some (Value.arr ys)) = Value.arr ys from rfl]
        rw [← hbc]
        exact (setKey_self E k (Value.arr xs) hE).symm
      · rw [if_neg hbc]
        exact path_set_single E k _

/-- Replaying the recorded additions then overrides of the diff onto the
existing tree gives the merged tree, for well-formed trees with no empty
sub-table on the repo side. -/
theorem c2_master_aux : ∀ (N : Nat) (R E : Table), sizeOf R ≤ N →
    wfTable R = true → wfTable E = true → noEmptyTable R = true →
    applyOvs (applyAdds E (collect_changes_table [] R E).1)
      (collect_changes_table [] R E).2 = merge_dicts E R := by
  intro N
  induction N using Nat.strong_induction_on with
  | _ N ih =>
    intro R E hsz hwfR hwfE hneR
    cases R with
    | nil =>
      rw [merge_dicts_nil_overlay]
      rfl
    | cons hd R' =>
      obtain ⟨k, v⟩ := hd
      rw [wfTable_cons_iff] at hwfR
      obtain ⟨hkR'f, hwfv, hwfR'⟩ := hwfR
      rw [noEmptyTable_cons_iff] at hneR
      obtain ⟨hnev, hneR'⟩ := hneR
      have hkR' : lookupTable R' k = none := (hasKey_false_iff R' k).mp hkR'f
      have hszR' : sizeOf R' < N := by
        have h1 : sizeOf R' < sizeOf ((k, v) :: R') := by simp
        omega
      have hT1heads : ∀ e ∈ (collect_changes_table [] R' E).1,
          ∃ k' q', e.path = k' :: q' ∧ k' ≠ k := by
        intro e he
        obtain ⟨k', s, hs, hk'⟩ := collect_changes_table_shape_add [] R' E e he
        refine ⟨k', s, by simpa using hs, fun hkk => ?_⟩
        subst hkk
        exact absurd ((hasKey_iff_mem R' k').mpr hk') (by simp [hkR'f])
      cases hE : lookupTable E k with
      | none =>
        have hsplit1 : (collect_changes_table [] ((k, v) :: R') E).1 =
            collect_additions [k] v ++ (collect_changes_table [] R' E).1 := by
          rw [collect_changes_table_cons, hE]
          simp
        have hsplit2 : (collect_changes_table [] ((k, v) :: R') E).2 =
            (collect_changes_table [] R' E).2 := by
          rw [collect_changes_table_cons, hE]
          simp
        rw [hsplit1, hsplit2, applyAdds_append]
        rw [applyAdds_build v E k hwfv hnev hE]
        have hcongr : collect_changes_table [] R' E =
            collect_changes_table [] R' (E ++ [(k, v)]) := by
          apply collect_changes_table_congr
          intro k' hk'
          have hne : ¬k = k' := fun hkk => by
            subst hkk
            exact absurd hk' (by simp [hkR'f])
          cases hlE : lookupTable E k' with
          | some w => rw [lookupTable_append_left E [(k, v)] k' w hlE]
          | none =>
            rw [lookupTable_append_right E [(k, v)] k' hlE, lookupTable_cons,
              if_neg hne]
            rfl
        rw [hcongr]
        rw [merge_cons_new E R' k v hE hkR']
        exact ih (sizeOf R') hszR' R' (E ++ [(k, v)]) le_rfl hwfR'
          (wf_append_single E k v hwfE hE hwfv) hneR'
      | some ev =>
        have hsplit1 : (collect_changes_table [] ((k, v) :: R') E).1 =
            (collect_changes [k] v (some ev)).1 ++ (collect_changes_table [] R' E).1 := by
          rw [collect_changes_table_cons, hE]
          simp
        have hsplit2 : (collect_changes_table [] ((k, v) :: R') E).2 =
            (collect_changes [k] v (some ev)).2 ++ (collect_changes_table [] R' E).2 := by
          rw [collect_changes_table_cons, hE]
          simp
        rw [hsplit1, hsplit2, applyAdds_append, applyOvs_append]
        have hkEt : hasKey E k = true := by simp [hasKey, hE]
        have hov : ∀ e ∈ (collect_changes [k] v (some ev)).2, ∃ q, e.path = k :: q := by
          intro e he
          obtain ⟨s, hs⟩ := collect_changes_shape_ov [k] v (some ev) e he
          exact ⟨s, by simpa using hs⟩
        rw [applyOvs_applyAdds_comm (collect_changes [k] v (some ev)).2
          (collect_changes_table [] R' E).1 k hov hT1heads
          (applyAdds E (collect_changes [k] v (some ev)).1)
          (hasKey_applyAdds_mono (collect_changes [k] v (some ev)).1 E k hkEt)]
        have hinner : ∀ rt et, v = Value.table rt → ev = Value.table et →
            applyOvs (applyAdds et (collect_changes_table [] rt et).1)
              (collect_changes_table [] rt et).2 = merge_dicts et rt := by
          intro rt et hv hev
          subst hv
          subst hev
          have hszrt : sizeOf rt < N := by
            have h1 : sizeOf (Value.table rt) < sizeOf ((k, Value.table rt) :: R') :=
              sizeOf_val_lt_of_mem (List.mem_cons_self _ _)
            have h2 : sizeOf rt < sizeOf (Value.table rt) := by simp
            omega
          exact ih (sizeOf rt) hszrt rt et le_rfl
            ((wfValue_table_iff rt).mp hwfv)
            ((wfValue_table_iff et).mp (wfValue_lookup E k _ hwfE hE))
            ((noEmptyVal_table_iff rt).mp hnev).2
        rw [group_mid E k v ev hE hinner]
        have hwfmv : wfValue (mergeEntry ev (some v)) = true :=
          wfValue_mergeEntry ev v (wfValue_lookup E k ev hwfE hE) hwfv
        have hcongr : collect_changes_table [] R' E =
            collect_changes_table [] R' (setKey E k (mergeEntry ev (some v))) := by
          apply collect_changes_table_congr
          intro k' hk'
          have hne : k ≠ k' := fun hkk => by
            subst hkk
            exact absurd hk' (by simp [hkR'f])
          exact (lookupTable_setKey_ne E k _ k' hne).symm
        rw [hcongr]
        rw [merge_cons_mem E R' k v ev hwfE hE hkR']
        exact ih (sizeOf R') hszR' R' (setKey E k (mergeEntry ev (some v))) le_rfl
          hwfR' (wfTable_setKey E k _ hwfE hwfmv) hneR'

/-- C2 counterexample: as stated (for every repo tree R and every
existing tree E) the claim fails.  With `R = {a = {}}` and `E = {}` the
diff records nothing, so replaying it onto E gives `{}`, while
`merge(E, R)` contains the empty table at `a`. -/
theorem c2_counterexample :
    applyDiff [] (diffTable [(keyA, Value.table [])] []) ≠
      merge_dicts [] [(keyA, Value.table [])] := by
  decide

/-- C2 (amended): for well-formed repo and existing trees whose repo
side contains no empty sub-table, taking E and setting the repo value at
each Addition entry's path and each Override entry's path recorded by
`diff(R, E)` yields a tree equal to `merge(E, R)`. -/
theorem c2_amended_diff_replay_eq_merge (R E : Table)
    (hwfR : wfTable R = true) (hwfE : wfTable E = true)
    (hne : noEmptyTable R = true) :
    applyDiff E (diffTable R E) = merge_dicts E R :=
  c2_master_aux (sizeOf R) R E le_rfl hwfR hwfE hne

theorem c2_witness :
    wfTable [(keyA, Value.int 1), (keyB, Value.table [(keyC, Value.int 2)])] = true ∧
    wfTable [(keyB, Value.table [(keyC, Value.int 3)])] = true ∧
    noEmptyTable [(keyA, Value.int 1), (keyB, Value.table [(keyC, Value.int 2)])] = true ∧
    applyDiff [(keyB, Value.table [(keyC, Value.int 3)])]
        (diffTable [(keyA, Value.int 1), (keyB, Value.table [(keyC, Value.int 2)])]
          [(keyB, Value.table [(keyC, Value.int 3)])]) =
      merge_dicts [(keyB, Value.table [(keyC, Value.int 3)])]
        [(keyA, Value.int 1), (keyB, Value.table [(keyC, Value.int 2)])] :=
  ⟨by decide, by decide, by decide,
    c2_amended_diff_replay_eq_merge _ _ (by decide) (by decide) (by decide)⟩

/-! ## Rollback: head-local characterization of the two step functions -/

theorem rollback_override_absent (st : Table × Nat) (e : OvEntry)
    (hg : path_get st.1 e.path = none) : rollback_override st e = st := by
  simp [rollback_override, hg]

theorem rollback_override_hit (st : Table × Nat) (e : OvEntry) (cur : Value)
    (hg : path_get st.1 e.path = some cur) (hc : cur = e.repo) :
    rollback_override st e = (path_set st.1 e.path e.previous, st.2) := by
  simp [rollback_override, hg, hc]

theorem rollback_override_miss (st : Table × Nat) (e : OvEntry) (cur : Value)
    (hg : path_get st.1 e.path = some cur) (hc : cur ≠ e.repo) :
    rollback_override st e = (st.1, st.2 + 1) := by
  simp [rollback_override, hg, hc]

theorem rollback_addition_absent (st : Table × Nat) (e : AddEntry)
    (hg : path_get st.1 e.path = none) : rollback_addition st e = st := by
  simp [rollback_addition, hg]

theorem rollback_addition_hit (st : Table × Nat) (e : AddEntry) (cur : Value)
    (hg : path_get st.1 e.path = some cur) (hc : cur = e.repo) :
    rollback_addition st e = ((path_delete st.1 e.path).1, st.2) := by
  simp [rollback_addition, hg, hc]

theorem rollback_addition_miss (st : Table × Nat) (e : AddEntry) (cur : Value)
    (hg : path_get st.1 e.path = some cur) (hc : cur ≠ e.repo) :
    rollback_addition st e = (st.1, st.2 + 1) := by
  simp [rollback_addition, hg, hc]

theorem headGet_none (q : List String) : headGet none q = none := rfl

theorem ovStepSpec_of_none (cur : Option Value) (q : List String) (pv rv : Value)
    (hg : headGet cur q = none) : ovStepSpec cur q pv rv = (none, 0) := by
  rw [ovStepSpec, hg]

theorem ovStepSpec_of_eq (cur : Option Value) (q : List String) (pv rv g : Value)
    (hg : headGet cur q = some g) (hc : g = rv) :
    ovStepSpec cur q pv rv = (some (some (setVal cur q pv)), 0) := by
  rw [ovStepSpec, hg]
  simp [hc]

theorem ovStepSpec_of_ne (cur : Option Value) (q : List String) (pv rv g : Value)
    (hg : headGet cur q = some g) (hc : g ≠ rv) :
    ovStepSpec cur q pv rv = (none, 1) := by
  rw [ovStepSpec, hg]
  simp [hc]

theorem addStepSpec_of_none (cur : Option Value) (q : List String) (rv : Value)
    (hg : headGet cur q = none) : addStepSpec cur q rv = (none, 0) := by
  rw [addStepSpec, hg]

theorem addStepSpec_of_eq (cur : Option Value) (q : List String) (rv g : Value)
    (hg : headGet cur q = some g) (hc : g = rv) :
    addStepSpec cur q rv = (delRes cur q, 0) := by
  rw [addStepSpec, hg]
  simp [hc]

theorem addStepSpec_of_ne (cur : Option Value) (q : List String) (rv g : Value)
    (hg : headGet cur q = some g) (hc : g ≠ rv) :
    addStepSpec cur q rv = (none, 1) := by
  rw [addStepSpec, hg]
  simp [hc]

theorem path_set_cons_setVal (d : Table) (h : String) (q : List String) (pv : Value) :
    path_set d (h :: q) pv = setKey d h (setVal (lookupTable d h) q pv) := by
  cases q with
  | nil => exact path_set_single d h pv
  | cons a b => exact path_set_cons₂ d h (a :: b) pv (by simp)

theorem rollback_override_spec (d : Table) (n : Nat) (e : OvEntry) (h : String)
    (q : List String) (hp : e.path = h :: q) :
    rollback_override (d, n) e =
      (stepRes d h (ovStepSpec (lookupTable d h) q e.previous e.repo).1,
       n + (ovStepSpec (lookupTable d h) q e.previous e.repo).2) := by
  have hpg : path_get d (h :: q) = headGet (lookupTable d h) q := path_get_cons d h q
  cases hg : headGet (lookupTable d h) q with
  | none =>
    rw [rollback_override_absent (d, n) e (by rw [hp]; exact hpg.trans hg)]
    rw [ovStepSpec_of_none _ _ _ _ hg]
    rfl
  | some g =>
    by_cases hc : g = e.repo
    · rw [rollback_override_hit (d, n) e g (by rw [hp]; exact hpg.trans hg) hc]
      rw [ovStepSpec_of_eq _ _ _ _ g hg hc]
      show (path_set d e.path e.previous, n) =
        (setKey d h (setVal (lookupTable d h) q e.previous), n + 0)
      rw [hp, path_set_cons_setVal]
      rfl
    · rw [rollback_override_miss (d, n) e g (by rw [hp]; exact hpg.trans hg) hc]
      rw [ovStepSpec_of_ne _ _ _ _ g hg hc]
      rfl

theorem rollback_addition_spec (d : Table) (n : Nat) (e : AddEntry) (h : String)
    (q : List String) (hp : e.path = h :: q) :
    rollback_addition (d, n) e =
      (stepRes d h (addStepSpec (lookupTable d h) q e.repo).1,
       n + (addStepSpec (lookupTable d h) q e.repo).2) := by
  have hpg : path_get d (h :: q) = headGet (lookupTable d h) q := path_get_cons d h q
  cases hg : headGet (lookupTable d h) q with
  | none =>
    rw [rollback_addition_absent (d, n) e (by rw [hp]; exact hpg.trans hg)]
    rw [addStepSpec_of_none _ _ _ hg]
    rfl
  | some g =>
    by_cases hc : g = e.repo
    · rw [rollback_addition_hit (d, n) e g (by rw [hp]; exact hpg.trans hg) hc]
      rw [addStepSpec_of_eq _ _ _ g hg hc]
      rw [hp]
      cases q with
      | nil =>
        cases hcur : lookupTable d h with
        | none =>
          rw [hcur] at hg
          exact absurd hg (by simp [headGet_none])
        | some w =>
          rw [hcur] at hg
          have hgw : w = g := by simpa [headGet, path_get_val] using hg
          have hk : hasKey d h = true := by simp [hasKey, hcur]
          show ((path_delete d [h]).1, n) = (delKey d h, n + 0)
          rw [path_delete_single]
          simp [hk]
      | cons a b =>
        cases hcur : lookupTable d h with
        | none =>
          rw [hcur] at hg
          exact absurd hg (by simp [headGet_none])
        | some w =>
          rw [hcur] at hg
          have hg' : path_get_val w (a :: b) = some g := hg
          cases w with
          | table c =>
            have hgc : path_get c (a :: b) = some g := by
              rw [← path_get_val_table]
              exact hg'
            have hok : (path_delete c (a :: b)).2 = true := by
              rw [path_delete_ok_iff (a :: b) c (by simp), hgc]
              rfl
            have hpd : path_delete c (a :: b) = ((path_delete c (a :: b)).1, true) := by
              have h0 : path_delete c (a :: b) =
                  ((path_delete c (a :: b)).1, (path_delete c (a :: b)).2) := rfl
              rw [hok] at h0
              exact h0
            have houter := path_delete_cons_table_eq d h (a :: b) (by simp) c
              (path_delete c (a :: b)).1 true hcur hpd
            by_cases hemp : (path_delete c (a :: b)).1 = []
            · have h1 : (path_delete d (h :: a :: b)).1 = delKey d h := by
                rw [houter]
                simp [hemp]
              rw [h1]
              show (delKey d h, n) = (stepRes d h (delRes (some (Value.table c)) (a :: b)), n + 0)
              rw [show delRes (some (Value.table c)) (a :: b) = some none from by
                show (if (path_delete c (a :: b)).1 = [] then some none
                  else some (some (Value.table (path_delete c (a :: b)).1))) = some none
                rw [if_pos hemp]]
              rfl
            · have h1 : (path_delete d (h :: a :: b)).1 =
                  setKey d h (Value.table (path_delete c (a :: b)).1) := by
                rw [houter]
                simp [hemp]
              rw [h1]
              show (setKey d h (Value.table (path_delete c (a :: b)).1), n) =
                (stepRes d h (delRes (some (Value.table c)) (a :: b)), n + 0)
              rw [show delRes (some (Value.table c)) (a :: b) =
                  some (some (Value.table (path_delete c (a :: b)).1)) from by
                show (if (path_delete c (a :: b)).1 = [] then some none
                  else some (some (Value.table (path_delete c (a :: b)).1))) =
                  some (some (Value.table (path_delete c (a :: b)).1))
                rw [if_neg hemp]]
              rfl
          | bool x =>
            rw [path_get_val_scalar (Value.bool x) (a :: b) (by simp) rfl] at hg'
            simp at hg'
          | int x =>
            rw [path_get_val_scalar (Value.int x) (a :: b) (by simp) rfl] at hg'
            simp at hg'
          | str x =>
            rw [path_get_val_scalar (Value.str x) (a :: b) (by simp) rfl] at hg'
            simp at hg'
          | arr x =>
            rw [path_get_val_scalar (Value.arr x) (a :: b) (by simp) rfl] at hg'
            simp at hg'
    · rw [rollback_addition_miss (d, n) e g (by rw [hp]; exact hpg.trans hg) hc]
      rw [addStepSpec_of_ne _ _ _ g hg hc]
      rfl

theorem stepRes_lookup_ne (d : Table) (h k : String) (r : Option (Option Value))
    (hne : h ≠ k) : lookupTable (stepRes d h r) k = lookupTable d k := by
  cases r with
  | none => rfl
  | some w =>
    cases w with
    | none => exact lookupTable_delKey_ne d h k hne
    | some x => exact lookupTable_setKey_ne d h x k hne

theorem stepRes_comm (d : Table) (h1 h2 : String) (r1 r2 : Option (Option Value))
    (hne : h1 ≠ h2) (hk1 : r1 ≠ none → hasKey d h1 = true) :
    stepRes (stepRes d h1 r1) h2 r2 = stepRes (stepRes d h2 r2) h1 r1 := by
  cases r1 with
  | none => rfl
  | some w1 =>
    cases r2 with
    | none => rfl
    | some w2 =>
      have hk := hk1 (by simp)
      cases w1 with
      | none =>
        cases w2 with
        | none => exact delKey_comm d h1 h2 hne
        | some x2 => exact setKey_delKey_comm d h2 h1 x2 (Ne.symm hne)
      | some x1 =>
        cases w2 with
        | none => exact (setKey_delKey_comm d h1 h2 x1 hne).symm
        | some x2 => exact setKey_comm d h1 h2 x1 x2 hne hk

theorem ovStepSpec_act_needs_key (d : Table) (h : String) (q : List String)
    (pv rv : Value) :
    (ovStepSpec (lookupTable d h) q pv rv).1 ≠ none → hasKey d h = true := by
  intro hr
  cases hcur : lookupTable d h with
  | some v => simp [hasKey, hcur]
  | none =>
    rw [hcur, ovStepSpec_of_none _ _ _ _ (headGet_none q)] at hr
    simp at hr

theorem addStepSpec_act_needs_key (d : Table) (h : String) (q : List String)
    (rv : Value) :
    (addStepSpec (lookupTable d h) q rv).1 ≠ none → hasKey d h = true := by
  intro hr
  cases hcur : lookupTable d h with
  | some v => simp [hasKey, hcur]
  | none =>
    rw [hcur, addStepSpec_of_none _ _ _ (headGet_none q)] at hr
    simp at hr

/-- Rollback steps for an override and an addition whose paths start at
different keys commute. -/
theorem rollback_ov_add_step_comm (st : Table × Nat) (e1 : OvEntry) (e2 : AddEntry)
    (h1 h2 : String) (q1 q2 : List String) (hp1 : e1.path = h1 :: q1)
    (hp2 : e2.path = h2 :: q2) (hne : h1 ≠ h2) :
    rollback_addition (rollback_override st e1) e2 =
      rollback_override (rollback_addition st e2) e1 := by
  obtain ⟨d, n⟩ := st
  rw [rollback_override_spec d n e1 h1 q1 hp1]
  rw [rollback_addition_spec _ _ e2 h2 q2 hp2]
  rw [rollback_addition_spec d n e2 h2 q2 hp2]
  rw [rollback_override_spec _ _ e1 h1 q1 hp1]
  rw [stepRes_lookup_ne d h1 h2 _ hne]
  rw [stepRes_lookup_ne d h2 h1 _ (Ne.symm hne)]
  rw [stepRes_comm d h1 h2 _ _ hne (ovStepSpec_act_needs_key d h1 q1 e1.previous e1.repo)]
  rw [Nat.add_right_comm]

/-- A single override step commutes past a fold of addition steps whose
head keys all differ from its own. -/
theorem foldl_add_single_ov_comm : ∀ (adds : List AddEntry) (o : OvEntry) (h : String)
    (q : List String), o.path = h :: q →
    (∀ e ∈ adds, ∃ h' q', e.path = h' :: q' ∧ h' ≠ h) → ∀ st : Table × Nat,
    List.foldl rollback_addition (rollback_override st o) adds =
      rollback_override (List.foldl rollback_addition st adds) o
  | [], _, _, _, _, _, _ => rfl
  | a :: rest, o, h, q, ho, hadds, st => by
    rw [List.foldl_cons, List.foldl_cons]
    obtain ⟨h', q', hp', hne'⟩ := hadds a (by simp)
    rw [rollback_ov_add_step_comm st o a h h' q q' ho hp' (Ne.symm hne')]
    exact foldl_add_single_ov_comm rest o h q ho (fun e he => hadds e (by simp [he])) _

/-- A fold of override steps with heads away from `k` commutes past a
fold of addition steps with head `k`. -/
theorem foldl_ov_add_comm : ∀ (ovs : List OvEntry) (adds : List AddEntry) (k : String),
    (∀ e ∈ ovs, ∃ h q, e.path = h :: q ∧ h ≠ k) →
    (∀ e ∈ adds, ∃ q, e.path = k :: q) → ∀ st : Table × Nat,
    List.foldl rollback_addition (List.foldl rollback_override st ovs) adds =
      List.foldl rollback_override (List.foldl rollback_addition st adds) ovs
  | [], _, _, _, _, _ => rfl
  | o :: rest, adds, k, hov, hadds, st => by
    rw [List.foldl_cons, List.foldl_cons]
    rw [foldl_ov_add_comm rest adds k (fun e he => hov e (by simp [he])) hadds _]
    obtain ⟨h, q, hp, hne⟩ := hov o (by simp)
    rw [foldl_add_single_ov_comm adds o h q hp (fun e he => by
      obtain ⟨q', hq'⟩ := hadds e he
      exact ⟨k, q', hq', Ne.symm hne⟩) st]

/-! ## Rollback: transporting `[k]`-prefixed folds into the child table -/

theorem rollback_override_prepend_step (d c : Table) (n : Nat) (k : String)
    (e : OvEntry) (hq : e.path ≠ []) (hl : lookupTable d k = some (Value.table c)) :
    rollback_override (d, n) (ovPrepend [k] e) =
      (setKey d k (Value.table (rollback_override (c, n) e).1),
       (rollback_override (c, n) e).2) := by
  have hpg : path_get d (k :: e.path) = path_get c e.path := by
    rw [path_get_cons_some d k e.path _ hl, path_get_val_table]
  cases hg : path_get c e.path with
  | none =>
    rw [rollback_override_absent (d, n) (ovPrepend [k] e) (hpg.trans hg)]
    rw [rollback_override_absent (c, n) e hg]
    show (d, n) = (setKey d k (Value.table c), n)
    rw [setKey_self d k (Value.table c) hl]
  | some cur =>
    by_cases hc : cur = e.repo
    · rw [rollback_override_hit (d, n) (ovPrepend [k] e) cur (hpg.trans hg) hc]
      rw [rollback_override_hit (c, n) e cur hg hc]
      show (path_set d (k :: e.path) e.previous, n) =
        (setKey d k (Value.table (path_set c e.path e.previous)), n)
      rw [path_set_cons₂ d k e.path e.previous hq]
      have htab : tableOfOpt (lookupTable d k) = c := by
        rw [hl]
        rfl
      rw [htab]
    · rw [rollback_override_miss (d, n) (ovPrepend [k] e) cur (hpg.trans hg) hc]
      rw [rollback_override_miss (c, n) e cur hg hc]
      show (d, n + 1) = (setKey d k (Value.table c), n + 1)
      rw [setKey_self d k (Value.table c) hl]

theorem foldl_override_prepend : ∀ (es : List OvEntry) (d c : Table) (n : Nat) (k : String),
    lookupTable d k = some (Value.table c) → (∀ e ∈ es, e.path ≠ []) →
    List.foldl rollback_override (d, n) (es.map (ovPrepend [k])) =
      (setKey d k (Value.table (List.foldl rollback_override (c, n) es).1),
       (List.foldl rollback_override (c, n) es).2)
  | [], d, c, n, k, hl, _ => by
    show (d, n) = (setKey d k (Value.table c), n)
    rw [setKey_self d k (Value.table c) hl]
  | e :: rest, d, c, n, k, hl, hne => by
    rw [List.map_cons, List.foldl_cons, List.foldl_cons]
    rw [rollback_override_prepend_step d c n k e (hne e (by simp)) hl]
    rw [foldl_override_prepend rest (setKey d k (Value.table (rollback_override (c, n) e).1))
      (rollback_override (c, n) e).1 (rollback_override (c, n) e).2 k
      (lookupTable_setKey_self d k _) (fun e' he' => hne e' (by simp [he']))]
    rw [setKey_setKey]

theorem rollback_override_fst_ne_nil (st : Table × Nat) (e : OvEntry)
    (h : st.1 ≠ []) : (rollback_override st e).1 ≠ [] := by
  cases hg : path_get st.1 e.path with
  | none =>
    rw [rollback_override_absent st e hg]
    exact h
  | some cur =>
    by_cases hc : cur = e.repo
    · rw [rollback_override_hit st e cur hg hc]
      show path_set st.1 e.path e.previous ≠ []
      cases hp : e.path with
      | nil => exact h
      | cons a b => exact path_set_cons_ne_nil st.1 a b e.previous
    · rw [rollback_override_miss st e cur hg hc]
      exact h

theorem foldl_override_ne_nil : ∀ (es : List OvEntry) (st : Table × Nat), st.1 ≠ [] →
    (List.foldl rollback_override st es).1 ≠ []
  | [], _, h => h
  | e :: rest, st, h => by
    rw [List.foldl_cons]
    exact foldl_override_ne_nil rest _ (rollback_override_fst_ne_nil st e h)

theorem foldl_addition_nil_inner : ∀ (es : List AddEntry) (n : Nat),
    (∀ e ∈ es, e.path ≠ []) → List.foldl rollback_addition (([] : Table), n) es = ([], n)
  | [], _, _ => rfl
  | e :: rest, n, hne => by
    rw [List.foldl_cons]
    have hp : path_get ([] : Table) e.path = none := by
      cases hpa : e.path with
      | nil => exact absurd hpa (hne e (by simp))
      | cons a b => exact path_get_cons_none [] a b rfl
    rw [rollback_addition_absent ([], n) e hp]
    exact foldl_addition_nil_inner rest n (fun e' he' => hne e' (by simp [he']))

theorem foldl_addition_head_absent : ∀ (es : List AddEntry) (st : Table × Nat) (k : String),
    lookupTable st.1 k = none → (∀ e ∈ es, e.path ≠ []) →
    List.foldl rollback_addition st (es.map (addPrepend [k])) = st
  | [], _, _, _, _ => rfl
  | e :: rest, st, k, hl, hne => by
    rw [List.map_cons, List.foldl_cons]
    have hp : path_get st.1 (k :: e.path) = none := path_get_cons_none st.1 k e.path hl
    rw [rollback_addition_absent st (addPrepend [k] e) hp]
    exact foldl_addition_head_absent rest st k hl (fun e' he' => hne e' (by simp [he']))

/-- Transporting a `[k]`-prefixed fold of addition rollbacks into the
child table `c` at `k`: the outer fold deletes `k` exactly when the
inner fold empties the child, and stores the folded child back
otherwise.  `honce` says `k` occurs at most once in `d`. -/
theorem foldl_addition_prepend : ∀ (es : List AddEntry) (d c : Table) (n : Nat) (k : String),
    lookupTable d k = some (Value.table c) → c ≠ [] →
    lookupTable (delKey d k) k = none → (∀ e ∈ es, e.path ≠ []) →
    List.foldl rollback_addition (d, n) (es.map (addPrepend [k])) =
      (if (List.foldl rollback_addition (c, n) es).1 = [] then delKey d k
       else setKey d k (Value.table (List.foldl rollback_addition (c, n) es).1),
       (List.foldl rollback_addition (c, n) es).2)
  | [], d, c, n, k, hl, hc, _, _ => by
    show (d, n) = (if c = [] then delKey d k else setKey d k (Value.table c), n)
    rw [if_neg hc, setKey_self d k (Value.table c) hl]
  | e :: rest, d, c, n, k, hl, hc, honce, hne => by
    rw [List.map_cons, List.foldl_cons, List.foldl_cons]
    have hq := hne e (by simp)
    have hpg : path_get d (k :: e.path) = path_get c e.path := by
      rw [path_get_cons_some d k e.path _ hl, path_get_val_table]
    cases hg : path_get c e.path with
    | none =>
      rw [rollback_addition_absent (d, n) (addPrepend [k] e) (hpg.trans hg)]
      rw [rollback_addition_absent (c, n) e hg]
      exact foldl_addition_prepend rest d c n k hl hc honce
        (fun e' he' => hne e' (by simp [he']))
    | some cur =>
      by_cases hcr : cur = e.repo
      · rw [rollback_addition_hit (d, n) (addPrepend [k] e) cur (hpg.trans hg) hcr]
        rw [rollback_addition_hit (c, n) e cur hg hcr]
        show List.foldl rollback_addition ((path_delete d (k :: e.path)).1, n)
            (List.map (addPrepend [k]) rest) =
          (if (List.foldl rollback_addition ((path_delete c e.path).1, n) rest).1 = []
            then delKey d k
            else setKey d k
              (Value.table (List.foldl rollback_addition ((path_delete c e.path).1, n) rest).1),
           (List.foldl rollback_addition ((path_delete c e.path).1, n) rest).2)
        have hok : (path_delete c e.path).2 = true := by
          rw [path_delete_ok_iff e.path c hq, hg]
          rfl
        have hpd : path_delete c e.path = ((path_delete c e.path).1, true) := by
          have h0 : path_delete c e.path =
              ((path_delete c e.path).1, (path_delete c e.path).2) := rfl
          rw [hok] at h0
          exact h0
        have houter := path_delete_cons_table_eq d k e.path hq c
          (path_delete c e.path).1 true hl hpd
        by_cases hemp : (path_delete c e.path).1 = []
        · have h1 : (path_delete d (k :: e.path)).1 = delKey d k := by
            rw [houter]
            simp [hemp]
          rw [h1, hemp]
          rw [foldl_addition_nil_inner rest n (fun e' he' => hne e' (by simp [he']))]
          rw [foldl_addition_head_absent rest (delKey d k, n) k honce
            (fun e' he' => hne e' (by simp [he']))]
          show (delKey d k, n) =
            (if ([] : Table) = [] then delKey d k else setKey d k (Value.table []), n)
          rw [if_pos rfl]
        · have h1 : (path_delete d (k :: e.path)).1 =
              setKey d k (Value.table (path_delete c e.path).1) := by
            rw [houter]
            simp [hemp]
          rw [h1]
          rw [foldl_addition_prepend rest (setKey d k (Value.table (path_delete c e.path).1))
            (path_delete c e.path).1 n k (lookupTable_setKey_self d k _) hemp
            (by rw [delKey_setKey_same]; exact honce)
            (fun e' he' => hne e' (by simp [he']))]
          rw [delKey_setKey_same, setKey_setKey]
      · rw [rollback_addition_miss (d, n) (addPrepend [k] e) cur (hpg.trans hg) hcr]
        rw [rollback_addition_miss (c, n) e cur hg hcr]
        exact foldl_addition_prepend rest d c (n + 1) k hl hc honce
          (fun e' he' => hne e' (by simp [he']))

/-! ## Rollback deletes a freshly added subtree entirely -/

mutual
theorem rollback_del : ∀ (v : Value) (d : Table) (n : Nat) (k : String),
    wfValue v = true → noEmptyVal v = true → lookupTable d k = some v →
    lookupTable (delKey d k) k = none →
    List.foldl rollback_addition (d, n) (collect_additions [k] v) = (delKey d k, n)
  | Value.table vt, d, n, k, hwf, hne, hl, honce => by
    rw [wfValue_table_iff] at hwf
    rw [noEmptyVal_table_iff] at hne
    rw [collect_additions_table_val]
    have hshift : collect_additions_table [k] vt =
        (collect_additions_table [] vt).map (addPrepend [k]) := by
      have h := collect_additions_table_shift [k] [] vt
      simpa using h
    rw [hshift]
    rw [foldl_addition_prepend (collect_additions_table [] vt) d vt n k hl hne.1 honce
      (fun e he => by
        obtain ⟨k', s, hs, _⟩ := collect_additions_table_shape [] vt e he
        simp [hs])]
    rw [rollback_del_table vt n hwf hne.2]
    show (if ([] : Table) = [] then delKey d k else setKey d k (Value.table []), n) =
      (delKey d k, n)
    rw [if_pos rfl]
  | Value.bool b, d, n, k, _, _, hl, _ => by
    rw [collect_additions_scalar [k] (Value.bool b) rfl]
    rw [List.foldl_cons, List.foldl_nil]
    have hg : path_get d [k] = some (Value.bool b) := by
      rw [path_get_cons_some d k [] _ hl]
      rfl
    rw [rollback_addition_hit (d, n) ⟨[k], Value.bool b⟩ (Value.bool b) hg rfl]
    have hk : hasKey d k = true := by simp [hasKey, hl]
    show ((path_delete d [k]).1, n) = (delKey d k, n)
    rw [path_delete_single]
    simp [hk]
  | Value.int m, d, n, k, _, _, hl, _ => by
    rw [collect_additions_scalar [k] (Value.int m) rfl]
    rw [List.foldl_cons, List.foldl_nil]
    have hg : path_get d [k] = some (Value.int m) := by
      rw [path_get_cons_some d k [] _ hl]
      rfl
    rw [rollback_addition_hit (d, n) ⟨[k], Value.int m⟩ (Value.int m) hg rfl]
    have hk : hasKey d k = true := by simp [hasKey, hl]
    show ((path_delete d [k]).1, n) = (delKey d k, n)
    rw [path_delete_single]
    simp [hk]
  | Value.str u, d, n, k, _, _, hl, _ => by
    rw [collect_additions_scalar [k] (Value.str u) rfl]
    rw [List.foldl_cons, List.foldl_nil]
    have hg : path_get d [k] = some (Value.str u) := by
      rw [path_get_cons_some d k [] _ hl]
      rfl
    rw [rollback_addition_hit (d, n) ⟨[k], Value.str u⟩ (Value.str u) hg rfl]
    have hk : hasKey d k = true := by simp [hasKey, hl]
    show ((path_delete d [k]).1, n) = (delKey d k, n)
    rw [path_delete_single]
    simp [hk]
  | Value.arr xs, d, n, k, _, _, hl, _ => by
    rw [collect_additions_scalar [k] (Value.arr xs) rfl]
    rw [List.foldl_cons, List.foldl_nil]
    have hg : path_get d [k] = some (Value.arr xs) := by
      rw [path_get_cons_some d k [] _ hl]
      rfl
    rw [rollback_addition_hit (d, n) ⟨[k], Value.arr xs⟩ (Value.arr xs) hg rfl]
    have hk : hasKey d k = true := by simp [hasKey, hl]
    show ((path_delete d [k]).1, n) = (delKey d k, n)
    rw [path_delete_single]
    simp [hk]

theorem rollback_del_table : ∀ (vt : Table) (n : Nat),
    wfTable vt = true → noEmptyTable vt = true →
    List.foldl rollback_addition (vt, n) (collect_additions_table [] vt) = (([] : Table), n)
  | [], n, _, _ => rfl
  | (k1, v1) :: rest, n, hwf, hne => by
    rw [wfTable_cons_iff] at hwf
    rw [noEmptyTable_cons_iff] at hne
    rw [collect_additions_table_cons, List.nil_append, List.foldl_append]
    have hl1 : lookupTable ((k1, v1) :: rest) k1 = some v1 := by simp
    have honce1 : lookupTable (delKey ((k1, v1) :: rest) k1) k1 = none := by
      rw [delKey_cons, if_pos rfl]
      exact (hasKey_false_iff rest k1).mp hwf.1
    rw [rollback_del v1 ((k1, v1) :: rest) n k1 hwf.2.1 hne.1 hl1 honce1]
    have hdel : delKey ((k1, v1) :: rest) k1 = rest := by
      rw [delKey_cons, if_pos rfl]
    rw [hdel]
    exact rollback_del_table rest n hwf.2.2 hne.2
end

/-! ## Restructuring the merge around one head key, for the round trip -/

theorem delKey_append_left_absent (s t : Table) (k : String) (hs : hasKey s k = false) :
    delKey (s ++ t) k = s ++ delKey t k := by
  induction s with
  | nil => simp
  | cons hd tl ih =>
    obtain ⟨k1, v1⟩ := hd
    rw [hasKey_cons] at hs
    by_cases h1 : k1 = k
    · rw [if_pos h1] at hs
      exact absurd hs (by simp)
    · rw [if_neg h1] at hs
      rw [List.cons_append, delKey_cons, if_neg h1, ih hs, List.cons_append]

theorem setKey_append_left_present (s t : Table) (k : String) (v : Value)
    (hs : hasKey s k = true) : setKey (s ++ t) k v = setKey s k v ++ t := by
  induction s with
  | nil => simp [hasKey] at hs
  | cons hd tl ih =>
    obtain ⟨k1, v1⟩ := hd
    by_cases h1 : k1 = k
    · rw [List.cons_append, setKey_cons, if_pos h1, setKey_cons, if_pos h1, List.cons_append]
    · rw [hasKey_cons, if_neg h1] at hs
      rw [List.cons_append, setKey_cons, if_neg h1, setKey_cons, if_neg h1, ih hs,
        List.cons_append]

theorem filter_hasKey_append_single (R' E : Table) (k : String) (v : Value)
    (hR' : lookupTable R' k = none) :
    R'.filter (fun p => !hasKey (E ++ [(k, v)]) p.1) =
      R'.filter (fun p => !hasKey E p.1) := by
  apply List.filter_congr
  intro p hp
  have hpk : ¬k = p.1 := by
    intro hkk
    have h5 := (hasKey_false_iff R' k).mpr hR'
    rw [hkk] at h5
    exact absurd ((hasKey_iff_mem R' p.1).mpr (List.mem_map_of_mem Prod.fst hp))
      (by simp [h5])
  rw [hasKey_append]
  have h6 : hasKey [(k, v)] p.1 = false := by simp [hasKey_cons, hpk]
  rw [h6]
  simp

/-- Deleting the head key that only the repo side introduced undoes its
contribution to the merge. -/
theorem delKey_merge_new (E R' : Table) (k : String) (v : Value)
    (hE : lookupTable E k = none) (hR' : lookupTable R' k = none) :
    delKey (merge_dicts E ((k, v) :: R')) k = merge_dicts E R' := by
  rw [merge_cons_new E R' k v hE hR']
  have hGoL : mergeGo (E ++ [(k, v)]) R' = mergeGo E R' ++ [(k, v)] := by
    rw [mergeGo_append]
    rw [show mergeGo [(k, v)] R' = (k, mergeEntry v (lookupTable R' k)) :: mergeGo [] R'
      from rfl]
    rw [hR', mergeEntry_none]
    rfl
  rw [show merge_dicts (E ++ [(k, v)]) R' =
      mergeGo (E ++ [(k, v)]) R' ++ R'.filter (fun p => !hasKey (E ++ [(k, v)]) p.1)
    from rfl]
  rw [hGoL, filter_hasKey_append_single R' E k v hR', List.append_assoc]
  have hmgo : hasKey (mergeGo E R') k = false := by
    have h0 : lookupTable (mergeGo E R') k = none := by
      rw [lookupTable_mergeGo, hE]
      rfl
    exact (hasKey_false_iff _ k).mpr h0
  rw [delKey_append_left_absent (mergeGo E R')
    ([(k, v)] ++ R'.filter (fun p => !hasKey E p.1)) k hmgo]
  rw [show delKey ([(k, v)] ++ R'.filter (fun p => !hasKey E p.1)) k =
      R'.filter (fun p => !hasKey E p.1) from by
    rw [show ([(k, v)] : Table) ++ R'.filter (fun p => !hasKey E p.1) =
        (k, v) :: R'.filter (fun p => !hasKey E p.1) from rfl]
    rw [delKey_cons, if_pos rfl]]
  rfl

theorem setKey_mergeGo_restore (E : Table) (R' : Table) (k : String) (ev mv : Value)
    (hE : lookupTable E k = some ev) (hR' : lookupTable R' k = none) :
    setKey (mergeGo (setKey E k mv) R') k ev = mergeGo E R' := by
  induction E with
  | nil => simp at hE
  | cons hd tl ih =>
    obtain ⟨k1, v1⟩ := hd
    by_cases h1 : k1 = k
    · subst h1
      rw [lookupTable_cons, if_pos rfl] at hE
      simp only [Option.some.injEq] at hE
      subst hE
      rw [setKey_cons_self]
      rw [mergeGo_cons, mergeGo_cons]
      rw [hR', mergeEntry_none, mergeEntry_none]
      rw [setKey_cons_self]
    · rw [setKey_cons, if_neg h1]
      rw [lookupTable_cons, if_neg h1] at hE
      rw [mergeGo_cons, mergeGo_cons]
      rw [setKey_cons, if_neg h1]
      rw [ih hE]

/-- Restoring the previous value at a head key both sides had undoes the
merge's override of it. -/
theorem setKey_merge_restore (E R' : Table) (k : String) (ev mv : Value)
    (hE : lookupTable E k = some ev) (hR' : lookupTable R' k = none) :
    setKey (merge_dicts (setKey E k mv) R') k ev = merge_dicts E R' := by
  rw [show merge_dicts (setKey E k mv) R' =
      mergeGo (setKey E k mv) R' ++ R'.filter (fun p => !hasKey (setKey E k mv) p.1)
    from rfl]
  have hfil : R'.filter (fun p => !hasKey (setKey E k mv) p.1) =
      R'.filter (fun p => !hasKey E p.1) := by
    apply List.filter_congr
    intro p hp
    rw [hasKey_setKey]
    by_cases hpk : k = p.1
    · rw [if_pos hpk, ← hpk]
      simp [hasKey, hE]
    · rw [if_neg hpk]
  rw [hfil]
  have hkgo : hasKey (mergeGo (setKey E k mv) R') k = true := by
    have h0 : lookupTable (mergeGo (setKey E k mv) R') k =
        some (mergeEntry mv (lookupTable R' k)) := by
      rw [lookupTable_mergeGo, lookupTable_setKey_self]
      rfl
    simp [hasKey, h0]
  rw [setKey_append_left_present _ _ k ev hkgo]
  rw [setKey_mergeGo_restore E R' k ev mv hE hR']
  rfl

theorem noEmptyVal_lookup (t : Table) (k : String) (v : Value)
    (hne : noEmptyTable t = true) (hl : lookupTable t k = some v) :
    noEmptyVal v = true := by
  induction t with
  | nil => simp at hl
  | cons hd tl ih =>
    obtain ⟨k1, v1⟩ := hd
    rw [noEmptyTable_cons_iff] at hne
    by_cases h1 : k1 = k
    · rw [lookupTable_cons, if_pos h1] at hl
      simp only [Option.some.injEq] at hl
      subst hl
      exact hne.1
    · rw [lookupTable_cons, if_neg h1] at hl
      exact ih hne.2 hl

theorem merge_dicts_ne_nil_of_base (b o : Table) (hb : b ≠ []) :
    merge_dicts b o ≠ [] := by
  intro hh
  have hk := keysOf_merge_dicts b o
  rw [hh] at hk
  cases b with
  | nil => exact hb rfl
  | cons hd tl =>
    obtain ⟨a, w⟩ := hd
    rw [keysOf_cons] at hk
    simp at hk

/-- A single override entry at path `[k]` whose recorded repo value is
still at `k` sets `k` back to the recorded previous value. -/
theorem rollback_single_override (M : Table) (k : String) (pv rv : Value) (n : Nat)
    (hM : lookupTable M k = some rv) :
    List.foldl rollback_addition
      (List.foldl rollback_override (M, n) [⟨[k], pv, rv⟩]) [] = (setKey M k pv, n) := by
  rw [List.foldl_cons, List.foldl_nil, List.foldl_nil]
  have hg : path_get M [k] = some rv := by
    rw [path_get_cons_some M k [] rv hM]
    cases rv <;> rfl
  rw [rollback_override_hit (M, n) ⟨[k], pv, rv⟩ rv hg rfl]
  rfl

/-- Rolling back the single-key group of `collect_changes [k] v (some ev)`
against the merged tree restores the existing value `ev` at `k`, given
the table/table inner round trip as a hypothesis. -/
theorem rollback_group_mid (M : Table) (k : String) (v ev : Value) (n : Nat)
    (hM : lookupTable M k = some (mergeEntry ev (some v)))
    (honce : lookupTable (delKey M k) k = none)
    (hinner : ∀ rt et, v = Value.table rt → ev = Value.table et →
      List.foldl rollback_addition
        (List.foldl rollback_override (merge_dicts et rt, n)
          (collect_changes_table [] rt et).2)
        (collect_changes_table [] rt et).1 = (et, n))
    (hevne : ∀ et, ev = Value.table et → et ≠ []) :
    List.foldl rollback_addition
      (List.foldl rollback_override (M, n) (collect_changes [k] v (some ev)).2)
      (collect_changes [k] v (some ev)).1 = (setKey M k ev, n) := by
  cases v with
  | table rt =>
    cases ev with
    | table et =>
      have hin := hinner rt et rfl rfl
      have hetne : et ≠ [] := hevne et rfl
      have hMt : lookupTable M k = some (Value.table (merge_dicts et rt)) := by
        rw [hM, mergeEntry_table_table]
      rw [collect_changes_table_some_table]
      have hshiftR : collect_changes_table [k] rt et =
          ((collect_changes_table [] rt et).1.map (addPrepend [k]),
           (collect_changes_table [] rt et).2.map (ovPrepend [k])) := by
        have h := collect_changes_table_shift [k] [] rt et
        simpa using h
      rw [hshiftR]
      have hA : ∀ e ∈ (collect_changes_table [] rt et).1, e.path ≠ [] := by
        intro e he
        obtain ⟨k', s, hs, _⟩ := collect_changes_table_shape_add [] rt et e he
        simp [hs]
      have hO : ∀ e ∈ (collect_changes_table [] rt et).2, e.path ≠ [] := by
        intro e he
        obtain ⟨k', s, hs, _, _⟩ := collect_changes_table_shape_ov [] rt et e he
        simp [hs]
      rw [foldl_override_prepend (collect_changes_table [] rt et).2 M (merge_dicts et rt)
        n k hMt hO]
      rw [foldl_addition_prepend (collect_changes_table [] rt et).1
        (setKey M k (Value.table
          (List.foldl rollback_override (merge_dicts et rt, n)
            (collect_changes_table [] rt et).2).1))
        (List.foldl rollback_override (merge_dicts et rt, n)
          (collect_changes_table [] rt et).2).1
        (List.foldl rollback_override (merge_dicts et rt, n)
          (collect_changes_table [] rt et).2).2
        k (lookupTable_setKey_self M k _)
        (foldl_override_ne_nil (collect_changes_table [] rt et).2 (merge_dicts et rt, n)
          (merge_dicts_ne_nil_of_base et rt hetne))
        (by rw [delKey_setKey_same]; exact honce) hA]
      have hin' : List.foldl rollback_addition
          ((List.foldl rollback_override (merge_dicts et rt, n)
            (collect_changes_table [] rt et).2).1,
           (List.foldl rollback_override (merge_dicts et rt, n)
            (collect_changes_table [] rt et).2).2)
          (collect_changes_table [] rt et).1 = (et, n) := hin
      rw [hin']
      have hcond : ¬(((et, n) : Table × Nat).1 = []) := hetne
      rw [if_neg hcond, setKey_setKey]
    | bool c => exact rollback_single_override M k (Value.bool c) (Value.table rt) n hM
    | int m2 => exact rollback_single_override M k (Value.int m2) (Value.table rt) n hM
    | str s2 => exact rollback_single_override M k (Value.str s2) (Value.table rt) n hM
    | arr xs2 => exact rollback_single_override M k (Value.arr xs2) (Value.table rt) n hM
  | bool b =>
    cases ev with
    | table et => exact rollback_single_override M k (Value.table et) (Value.bool b) n hM
    | bool c =>
      rw [collect_changes_scalar_some_scalar [k] (Value.bool b) (Value.bool c) rfl rfl]
      by_cases hbc : Value.bool c = Value.bool b
      · rw [if_pos hbc]
        show (M, n) = (setKey M k (Value.bool c), n)
        have hMc : lookupTable M k = some (Value.bool c) := by
          rw [hM]
          rw [show mergeEntry (Value.bool c) (some (Value.bool b)) = Value.bool b from rfl]
          rw [hbc]
        rw [setKey_self M k (Value.bool c) hMc]
      · rw [if_neg hbc]
        exact rollback_single_override M k (Value.bool c) (Value.bool b) n hM
    | int m2 => exact rollback_single_override M k (Value.int m2) (Value.bool b) n hM
    | str s2 => exact rollback_single_override M k (Value.str s2) (Value.bool b) n hM
    | arr xs2 => exact rollback_single_override M k (Value.arr xs2) (Value.bool b) n hM
  | int m =>
    cases ev with
    | table et => exact rollback_single_override M k (Value.table et) (Value.int m) n hM
    | bool c => exact rollback_single_override M k (Value.bool c) (Value.int m) n hM
    | int m2 =>
      rw [collect_changes_scalar_some_scalar [k] (Value.int m) (Value.int m2) rfl rfl]
      by_cases hbc : Value.int m2 = Value.int m
      · rw [if_pos hbc]
        show (M, n) = (setKey M k (Value.int m2), n)
        have hMc : lookupTable M k = some (Value.int m2) := by
          rw [hM]
          rw [show mergeEntry (Value.int m2) (some (Value.int m)) = Value.int m from rfl]
          rw [hbc]
        rw [setKey_self M k (Value.int m2) hMc]
      · rw [if_neg hbc]
        exact rollback_single_override M k (Value.int m2) (Value.int m) n hM
    | str s2 => exact rollback_single_override M k (Value.str s2) (Value.int m) n hM
    | arr xs2 => exact rollback_single_override M k (Value.arr xs2) (Value.int m) n hM
  | str u =>
    cases ev with
    | table et => exact rollback_single_override M k (Value.table et) (Value.str u) n hM
    | bool c => exact rollback_single_override M k (Value.bool c) (Value.str u) n hM
    | int m2 => exact rollback_single_override M k (Value.int m2) (Value.str u) n hM
    | str s2 =>
      rw [collect_changes_scalar_some_scalar [k] (Value.str u) (Value.str s2) rfl rfl]
      by_cases hbc : Value.str s2 = Value.str u
      · rw [if_pos hbc]
        show (M, n) = (setKey M k (Value.str s2), n)
        have hMc : lookupTable M k = some (Value.str s2) := by
          rw [hM]
          rw [show mergeEntry (Value.str s2) (some (Value.str u)) = Value.str u from rfl]
          rw [hbc]
        rw [setKey_self M k (Value.str s2) hMc]
      · rw [if_neg hbc]
        exact rollback_single_override M k (Value.str s2) (Value.str u) n hM
    | arr xs2 => exact rollback_single_override M k (Value.arr xs2) (Value.str u) n hM
  | arr ys =>
    cases ev with
    | table et => exact rollback_single_override M k (Value.table et) (Value.arr ys) n hM
    | bool c => exact rollback_single_override M k (Value.bool c) (Value.arr ys) n hM
    | int m2 => exact rollback_single_override M k (Value.int m2) (Value.arr ys) n hM
    | str s2 => exact rollback_single_override M k (Value.str s2) (Value.arr ys) n hM
    | arr xs2 =>
      rw [collect_changes_scalar_some_scalar [k] (Value.arr ys) (Value.arr xs2) rfl rfl]
      by_cases hbc : Value.arr xs2 = Value.arr ys
      · rw [if_pos hbc]
        show (M, n) = (setKey M k (Value.arr xs2), n)
        have hMc : lookupTable M k = some (Value.arr xs2) := by
          rw [hM]
          rw [show mergeEntry (Value.arr xs2) (some (Value.arr ys)) = Value.arr ys from rfl]
          rw [hbc]
        rw [setKey_self M k (Value.arr xs2) hMc]
      · rw [if_neg hbc]
        exact rollback_single_override M k (Value.arr xs2) (Value.arr ys) n hM

/-- The rollback round trip: running the rollback pass of `remove` with
the ledger of `diff(R, E)` against the untouched `merge(E, R)` gives
back `E` and skips nothing, for well-formed trees with no empty
sub-table on either side. -/
theorem c1_master_aux : ∀ (N : Nat) (R E : Table) (n : Nat), sizeOf R ≤ N →
    wfTable R = true → wfTable E = true → noEmptyTable R = true → noEmptyTable E = true →
    List.foldl rollback_addition
      (List.foldl rollback_override (merge_dicts E R, n) (collect_changes_table [] R E).2)
      (collect_changes_table [] R E).1 = (E, n) := by
  intro N
  induction N using Nat.strong_induction_on with
  | _ N ih =>
    intro R E n hsz hwfR hwfE hneR hneE
    cases R with
    | nil =>
      rw [merge_dicts_nil_overlay]
      rfl
    | cons hd R' =>
      obtain ⟨k, v⟩ := hd
      have hwfM : wfTable (merge_dicts E ((k, v) :: R')) = true :=
        wfTable_merge_dicts E _ hwfE hwfR
      rw [wfTable_cons_iff] at hwfR
      obtain ⟨hkR'f, hwfv, hwfR'⟩ := hwfR
      rw [noEmptyTable_cons_iff] at hneR
      obtain ⟨hnev, hneR'⟩ := hneR
      have hkR' : lookupTable R' k = none := (hasKey_false_iff R' k).mp hkR'f
      have hszR' : sizeOf R' < N := by
        have h1 : sizeOf R' < sizeOf ((k, v) :: R') := by simp
        omega
      have hT2heads : ∀ e ∈ (collect_changes_table [] R' E).2,
          ∃ h q, e.path = h :: q ∧ h ≠ k := by
        intro e he
        obtain ⟨k', s, hs, hk', _⟩ := collect_changes_table_shape_ov [] R' E e he
        refine ⟨k', s, by simpa using hs, fun hkk => ?_⟩
        subst hkk
        exact absurd ((hasKey_iff_mem R' k').mpr hk') (by simp [hkR'f])
      cases hE : lookupTable E k with
      | none =>
        have hsplit1 : (collect_changes_table [] ((k, v) :: R') E).1 =
            collect_additions [k] v ++ (collect_changes_table [] R' E).1 := by
          rw [collect_changes_table_cons, hE]
          simp
        have hsplit2 : (collect_changes_table [] ((k, v) :: R') E).2 =
            (collect_changes_table [] R' E).2 := by
          rw [collect_changes_table_cons, hE]
          simp
        rw [hsplit1, hsplit2, List.foldl_append]
        rw [foldl_ov_add_comm (collect_changes_table [] R' E).2 (collect_additions [k] v) k
          hT2heads (fun e he => by
            obtain ⟨s, hs⟩ := collect_additions_shape [k] v e he
            exact ⟨s, by simpa using hs⟩) (merge_dicts E ((k, v) :: R'), n)]
        have hlMk : lookupTable (merge_dicts E ((k, v) :: R')) k = some v := by
          rw [lookupTable_merge_dicts, hE]
          simp
        have honceM : lookupTable (delKey (merge_dicts E ((k, v) :: R')) k) k = none :=
          lookupTable_delKey_self _ k hwfM
        rw [rollback_del v (merge_dicts E ((k, v) :: R')) n k hwfv hnev hlMk honceM]
        rw [delKey_merge_new E R' k v hE hkR']
        exact ih (sizeOf R') hszR' R' E n le_rfl hwfR' hwfE hneR' hneE
      | some ev =>
        have hsplit1 : (collect_changes_table [] ((k, v) :: R') E).1 =
            (collect_changes [k] v (some ev)).1 ++ (collect_changes_table [] R' E).1 := by
          rw [collect_changes_table_cons, hE]
          simp
        have hsplit2 : (collect_changes_table [] ((k, v) :: R') E).2 =
            (collect_changes [k] v (some ev)).2 ++ (collect_changes_table [] R' E).2 := by
          rw [collect_changes_table_cons, hE]
          simp
        rw [hsplit1, hsplit2, List.foldl_append, List.foldl_append]
        rw [foldl_ov_add_comm (collect_changes_table [] R' E).2
          (collect_changes [k] v (some ev)).1 k hT2heads (fun e he => by
            obtain ⟨s, hs⟩ := collect_changes_shape_add [k] v (some ev) e he
            exact ⟨s, by simpa using hs⟩)
          (List.foldl rollback_override (merge_dicts E ((k, v) :: R'), n)
            (collect_changes [k] v (some ev)).2)]
        have hlMk : lookupTable (merge_dicts E ((k, v) :: R')) k =
            some (mergeEntry ev (some v)) := by
          rw [lookupTable_merge_dicts, hE]
          simp
        have honceM : lookupTable (delKey (merge_dicts E ((k, v) :: R')) k) k = none :=
          lookupTable_delKey_self _ k hwfM
        have hinner : ∀ rt et, v = Value.table rt → ev = Value.table et →
            List.foldl rollback_addition
              (List.foldl rollback_override (merge_dicts et rt, n)
                (collect_changes_table [] rt et).2)
              (collect_changes_table [] rt et).1 = (et, n) := by
          intro rt et hv hev
          subst hv
          subst hev
          have hszrt : sizeOf rt < N := by
            have h1 : sizeOf (Value.table rt) < sizeOf ((k, Value.table rt) :: R') :=
              sizeOf_val_lt_of_mem (List.mem_cons_self _ _)
            have h2 : sizeOf rt < sizeOf (Value.table rt) := by simp
            omega
          exact ih (sizeOf rt) hszrt rt et n le_rfl
            ((wfValue_table_iff rt).mp hwfv)
            ((wfValue_table_iff et).mp (wfValue_lookup E k _ hwfE hE))
            ((noEmptyVal_table_iff rt).mp hnev).2
            ((noEmptyVal_table_iff et).mp (noEmptyVal_lookup E k _ hneE hE)).2
        have hevne : ∀ et, ev = Value.table et → et ≠ [] := by
          intro et hev
          subst hev
          exact ((noEmptyVal_table_iff et).mp (noEmptyVal_lookup E k _ hneE hE)).1
        rw [rollback_group_mid (merge_dicts E ((k, v) :: R')) k v ev n hlMk honceM
          hinner hevne]
        have hrestore : setKey (merge_dicts E ((k, v) :: R')) k ev = merge_dicts E R' := by
          rw [merge_cons_mem E R' k v ev hwfE hE hkR']
          exact setKey_merge_restore E R' k ev _ hE hkR'
        rw [hrestore]
        exact ih (sizeOf R') hszR' R' E n le_rfl hwfR' hwfE hneR' hneE

theorem remove_op_after_rollback (st : Ledger) (data : Table) (res : Table × Nat)
    (h : rollback st.overrides st.additions data = res) :
    remove_op (some st) (some data) =
      if res.1 ≠ [] then
        { target := some res.1
          written := some (dump_toml_lines res.1 st.existing_header)
          stateAfter := none
          skipped := res.2
          exitCode := 0 }
      else if st.had_config = false then
        { target := none, written := none, stateAfter := none,
          skipped := res.2, exitCode := 0 }
      else
        { target := some res.1
          written := some (dump_toml_lines res.1 st.existing_header)
          stateAfter := none
          skipped := res.2
          exitCode := 0 } := by
  subst h
  rfl

/-! ## Claim C1 -/

/-- C1 counterexample: as stated (for every repo tree R and existing
tree E, absent E included) the claim fails.  With `R = {a = {}}` and no
pre-existing document, install writes `{a = {}}` but records an empty
ledger, so remove leaves the document in place instead of removing it. -/
theorem c1_counterexample :
    (remove_op (some (install_op [(keyA, Value.table [])] [] none).ledger)
        (some (install_op [(keyA, Value.table [])] [] none).mergedData)).target ≠ none := by
  decide

/-- C1 (amended): for a well-formed repo tree with no empty sub-table
and a well-formed existing tree with no empty sub-table (or no existing
document at all), running `remove` on the ledger written by `install`
against the unmodified merged document reproduces the existing tree
exactly — the document is removed entirely when it did not exist — with
a skipped count of 0 and exit code 0. -/
theorem c1_amended_install_remove_round_trip (R : Table) (repoText : List String)
    (target : Option (Table × List String))
    (hwfR : wfTable R = true) (hneR : noEmptyTable R = true)
    (hwfE : wfTable (match target with | some p => p.1 | none => []) = true)
    (hneE : noEmptyTable (match target with | some p => p.1 | none => []) = true) :
    (remove_op (some (install_op R repoText target).ledger)
        (some (install_op R repoText target).mergedData)).target = target.map Prod.fst ∧
    (remove_op (some (install_op R repoText target).ledger)
        (some (install_op R repoText target).mergedData)).skipped = 0 ∧
    (remove_op (some (install_op R repoText target).ledger)
        (some (install_op R repoText target).mergedData)).exitCode = 0 := by
  cases target with
  | none =>
    have hrb : rollback (install_op R repoText none).ledger.overrides
        (install_op R repoText none).ledger.additions
        (install_op R repoText none).mergedData = ([], 0) := by
      show List.foldl rollback_addition
        (List.foldl rollback_override (merge_dicts [] R, 0) (collect_changes_table [] R []).2)
        (collect_changes_table [] R []).1 = ([], 0)
      exact c1_master_aux (sizeOf R) R [] 0 le_rfl hwfR hwfE hneR hneE
    rw [remove_op_after_rollback _ _ ([], 0) hrb]
    exact ⟨rfl, rfl, rfl⟩
  | some p =>
    obtain ⟨E, lines⟩ := p
    have hrb : rollback (install_op R repoText (some (E, lines))).ledger.overrides
        (install_op R repoText (some (E, lines))).ledger.additions
        (install_op R repoText (some (E, lines))).mergedData = (E, 0) := by
      show List.foldl rollback_addition
        (List.foldl rollback_override (merge_dicts E R, 0) (collect_changes_table [] R E).2)
        (collect_changes_table [] R E).1 = (E, 0)
      exact c1_master_aux (sizeOf R) R E 0 le_rfl hwfR hwfE hneR hneE
    rw [remove_op_after_rollback _ _ (E, 0) hrb]
    by_cases hE0 : E = []
    · subst hE0
      exact ⟨rfl, rfl, rfl⟩
    · have hcond : ((E, 0) : Table × Nat).1 ≠ [] := hE0
      refine ⟨?_, ?_, ?_⟩
      · rw [if_pos hcond]
        rfl
      · rw [if_pos hcond]
      · rw [if_pos hcond]

theorem c1_witness :
    wfTable [(keyA, Value.int 1)] = true ∧
    noEmptyTable [(keyA, Value.int 1)] = true ∧
    (remove_op (some (install_op [(keyA, Value.int 1)] []
          (some ([(keyB, Value.int 2)], []))).ledger)
        (some (install_op [(keyA, Value.int 1)] []
          (some ([(keyB, Value.int 2)], []))).mergedData)).target =
      (some (([(keyB, Value.int 2)], ([] : List String)))).map Prod.fst :=
  ⟨by decide, by decide,
    (c1_amended_install_remove_round_trip [(keyA, Value.int 1)] []
      (some ([(keyB, Value.int 2)], [])) (by decide) (by decide) (by decide) (by decide)).1⟩

/-! ## Paths below an empty repo table, in depth (for claim C10) -/

theorem startsWithPath_cons_nil (a : String) (p : List String) :
    startsWithPath (a :: p) [] = false := rfl

theorem startsWithPath_cons_cons (a : String) (p : List String) (b : String)
    (q : List String) :
    startsWithPath (a :: p) (b :: q) = if a = b then startsWithPath p q else false := rfl

theorem startsWithPath_cons_same (a : String) (p q : List String) :
    startsWithPath (a :: p) (a :: q) = startsWithPath p q := by
  rw [startsWithPath_cons_cons, if_pos rfl]

theorem startsWithPath_cons_ne (a : String) (p : List String) (b : String)
    (q : List String) (hne : a ≠ b) : startsWithPath (a :: p) (b :: q) = false := by
  rw [startsWithPath_cons_cons, if_neg hne]

theorem startsWithPath_append (pre x y : List String) :
    startsWithPath (pre ++ x) (pre ++ y) = startsWithPath x y := by
  induction pre with
  | nil => rfl
  | cons a rest ih =>
    rw [List.cons_append, List.cons_append, startsWithPath_cons_same]
    exact ih

theorem path_get_val_table_of_empty (v : Value) (s : List String)
    (h : path_get_val v s = some (Value.table [])) : ∃ rt, v = Value.table rt := by
  cases v with
  | table rt => exact ⟨rt, rfl⟩
  | bool b =>
    cases s with
    | nil => simp [path_get_val] at h
    | cons a b2 =>
      rw [path_get_val_scalar (Value.bool b) (a :: b2) (by simp) rfl] at h
      simp at h
  | int m =>
    cases s with
    | nil => simp [path_get_val] at h
    | cons a b2 =>
      rw [path_get_val_scalar (Value.int m) (a :: b2) (by simp) rfl] at h
      simp at h
  | str u =>
    cases s with
    | nil => simp [path_get_val] at h
    | cons a b2 =>
      rw [path_get_val_scalar (Value.str u) (a :: b2) (by simp) rfl] at h
      simp at h
  | arr xs =>
    cases s with
    | nil => simp [path_get_val] at h
    | cons a b2 =>
      rw [path_get_val_scalar (Value.arr xs) (a :: b2) (by simp) rfl] at h
      simp at h

mutual
theorem collect_additions_not_below_empty : ∀ (v : Value) (pre s : List String),
    wfValue v = true → path_get_val v s = some (Value.table []) →
    ∀ e ∈ collect_additions pre v, startsWithPath (pre ++ s) e.path = false
  | Value.table rt, pre, s, hwf, hget, e, he => by
    rw [wfValue_table_iff] at hwf
    rw [path_get_val_table] at hget
    have he' : e ∈ collect_additions_table pre rt := he
    exact collect_additions_table_not_below_empty rt pre s hwf hget e he'
  | Value.bool b, pre, s, _, hget, e, _ => by
    obtain ⟨rt, hrt⟩ := path_get_val_table_of_empty (Value.bool b) s hget
    simp at hrt
  | Value.int m, pre, s, _, hget, e, _ => by
    obtain ⟨rt, hrt⟩ := path_get_val_table_of_empty (Value.int m) s hget
    simp at hrt
  | Value.str u, pre, s, _, hget, e, _ => by
    obtain ⟨rt, hrt⟩ := path_get_val_table_of_empty (Value.str u) s hget
    simp at hrt
  | Value.arr xs, pre, s, _, hget, e, _ => by
    obtain ⟨rt, hrt⟩ := path_get_val_table_of_empty (Value.arr xs) s hget
    simp at hrt

theorem collect_additions_table_not_below_empty : ∀ (rt : Table) (pre s : List String),
    wfTable rt = true → path_get rt s = some (Value.table []) →
    ∀ e ∈ collect_additions_table pre rt, startsWithPath (pre ++ s) e.path = false
  | [], pre, s, _, _, e, he => by
    rw [collect_additions_table_nil] at he
    exact absurd he (List.not_mem_nil e)
  | (k1, v1) :: rest, pre, s, hwf, hget, e, he => by
    rw [wfTable_cons_iff] at hwf
    cases s with
    | nil =>
      rw [path_get_nil_path] at hget
      simp at hget
    | cons sb s2 =>
      rw [collect_additions_table_cons, List.mem_append] at he
      by_cases hsb : k1 = sb
      · subst hsb
        have hl1 : lookupTable ((k1, v1) :: rest) k1 = some v1 := by simp
        rw [path_get_cons_some _ k1 s2 v1 hl1] at hget
        cases he with
        | inl h1 =>
          have := collect_additions_not_below_empty v1 (pre ++ [k1]) s2 hwf.2.1 hget e h1
          rw [List.append_assoc, List.singleton_append] at this
          exact this
        | inr h2 =>
          obtain ⟨k', s0, hs0, hk'⟩ := collect_additions_table_shape pre rest e h2
          rw [hs0]
          have hne : k1 ≠ k' := fun hh => by
            subst hh
            exact absurd ((hasKey_iff_mem rest k1).mpr hk') (by simp [hwf.1])
          rw [show pre ++ k' :: s0 = pre ++ ([k'] ++ s0) from by simp]
          rw [show pre ++ (k1 :: s2) = pre ++ ([k1] ++ s2) from by simp]
          rw [startsWithPath_append pre ([k1] ++ s2) ([k'] ++ s0)]
          rw [List.singleton_append, List.singleton_append]
          exact startsWithPath_cons_ne k1 s2 k' s0 hne
      · have hl2 : lookupTable ((k1, v1) :: rest) sb = lookupTable rest sb := by
          rw [lookupTable_cons, if_neg hsb]
        have hget' : path_get rest (sb :: s2) = some (Value.table []) := by
          rw [path_get_cons] at hget ⊢
          rw [hl2] at hget
          exact hget
        cases he with
        | inl h1 =>
          obtain ⟨s0, hs0⟩ := collect_additions_shape (pre ++ [k1]) v1 e h1
          rw [hs0]
          rw [List.append_assoc, List.singleton_append]
          rw [show pre ++ (sb :: s2) = pre ++ ([sb] ++ s2) from by simp]
          rw [show pre ++ (k1 :: s0) = pre ++ ([k1] ++ s0) from by simp]
          rw [startsWithPath_append pre ([sb] ++ s2) ([k1] ++ s0)]
          rw [List.singleton_append, List.singleton_append]
          exact startsWithPath_cons_ne sb s2 k1 s0 (fun hh => hsb hh.symm)
        | inr h2 =>
          exact collect_additions_table_not_below_empty rest pre (sb :: s2) hwf.2.2 hget' e h2
end

/-- No diff entry is recorded at or below a path where the repo tree
holds an empty table that the existing tree lacks. -/
theorem diff_no_entries_below_empty : ∀ (N : Nat) (R E : Table) (p : List String),
    sizeOf R ≤ N → wfTable R = true → p ≠ [] →
    path_get R p = some (Value.table []) → path_get E p = none →
    (∀ e ∈ (collect_changes_table [] R E).1, startsWithPath p e.path = false)
    ∧ (∀ e ∈ (collect_changes_table [] R E).2, startsWithPath p e.path = false) := by
  intro N
  induction N using Nat.strong_induction_on with
  | _ N ih =>
    intro R E p hsz hwf hp hrp hep
    cases R with
    | nil =>
      cases p with
      | nil => exact absurd rfl hp
      | cons a b =>
        rw [path_get_cons_none [] a b rfl] at hrp
        simp at hrp
    | cons hd R' =>
      obtain ⟨k1, v1⟩ := hd
      have hszR' : sizeOf R' < N := by
        have h1 : sizeOf R' < sizeOf ((k1, v1) :: R') := by simp
        omega
      rw [wfTable_cons_iff] at hwf
      cases p with
      | nil => exact absurd rfl hp
      | cons sb tail =>
        rw [collect_changes_table_cons]
        by_cases hsb : k1 = sb
        · subst hsb
          have hl1 : lookupTable ((k1, v1) :: R') k1 = some v1 := by simp
          rw [path_get_cons_some _ k1 tail v1 hl1] at hrp
          have htailadd : ∀ e ∈ (collect_changes_table [] R' E).1,
              startsWithPath (k1 :: tail) e.path = false := by
            intro e hin
            obtain ⟨k', s, hs, hk'⟩ := collect_changes_table_shape_add [] R' E e hin
            rw [hs]
            have hne : k1 ≠ k' := fun hh => by
              subst hh
              exact absurd ((hasKey_iff_mem R' k1).mpr hk') (by simp [hwf.1])
            rw [List.nil_append]
            exact startsWithPath_cons_ne k1 tail k' s hne
          have htailov : ∀ e ∈ (collect_changes_table [] R' E).2,
              startsWithPath (k1 :: tail) e.path = false := by
            intro e hin
            obtain ⟨k', s, hs, hk', _⟩ := collect_changes_table_shape_ov [] R' E e hin
            rw [hs]
            have hne : k1 ≠ k' := fun hh => by
              subst hh
              exact absurd ((hasKey_iff_mem R' k1).mpr hk') (by simp [hwf.1])
            rw [List.nil_append]
            exact startsWithPath_cons_ne k1 tail k' s hne
          cases hE : lookupTable E k1 with
          | none =>
            constructor
            · intro e he'
              rw [List.mem_append] at he'
              cases he' with
              | inl hin =>
                have hin' : e ∈ collect_additions [k1] v1 := hin
                have := collect_additions_not_below_empty v1 [k1] tail hwf.2.1 hrp e hin'
                rw [List.singleton_append] at this
                exact this
              | inr hin => exact htailadd e hin
            · intro e he'
              rw [List.mem_append] at he'
              cases he' with
              | inl hin =>
                have hin' : e ∈ ([] : List OvEntry) := hin
                exact absurd hin' (List.not_mem_nil e)
              | inr hin => exact htailov e hin
          | some ev =>
            have hepv : path_get_val ev tail = none := by
              rw [path_get_cons_some E k1 tail ev hE] at hep
              exact hep
            obtain ⟨rt1, rfl⟩ := path_get_val_table_of_empty v1 tail hrp
            rw [path_get_val_table] at hrp
            constructor
            · intro e he'
              rw [List.mem_append] at he'
              cases he' with
              | inl hin =>
                cases ev with
                | table et1 =>
                  rw [path_get_val_table] at hepv
                  cases tail with
                  | nil => simp at hepv
                  | cons a b =>
                    have hin' : e ∈ (collect_changes_table [k1] rt1 et1).1 := hin
                    have hshiftR : collect_changes_table [k1] rt1 et1 =
                        ((collect_changes_table [] rt1 et1).1.map (addPrepend [k1]),
                         (collect_changes_table [] rt1 et1).2.map (ovPrepend [k1])) := by
                      have h := collect_changes_table_shift [k1] [] rt1 et1
                      simpa using h
                    rw [hshiftR] at hin'
                    simp only [List.mem_map] at hin'
                    obtain ⟨e0, he0, rfl⟩ := hin'
                    have hszrt : sizeOf rt1 < N := by
                      have h1 : sizeOf (Value.table rt1) <
                          sizeOf ((k1, Value.table rt1) :: R') :=
                        sizeOf_val_lt_of_mem (List.mem_cons_self _ _)
                      have h2 : sizeOf rt1 < sizeOf (Value.table rt1) := by simp
                      omega
                    have hIHin := ih (sizeOf rt1) hszrt rt1 et1 (a :: b) le_rfl
                      ((wfValue_table_iff rt1).mp hwf.2.1) (by simp) hrp hepv
                    have h0 := hIHin.1 e0 he0
                    show startsWithPath (k1 :: a :: b) ([k1] ++ e0.path) = false
                    rw [List.singleton_append, startsWithPath_cons_same]
                    exact h0
                | bool c =>
                  cases tail with
                  | nil => simp [path_get_val] at hepv
                  | cons a b =>
                    have hin' : e ∈ ([] : List AddEntry) := hin
                    exact absurd hin' (List.not_mem_nil e)
                | int m2 =>
                  cases tail with
                  | nil => simp [path_get_val] at hepv
                  | cons a b =>
                    have hin' : e ∈ ([] : List AddEntry) := hin
                    exact absurd hin' (List.not_mem_nil e)
                | str s2 =>
                  cases tail with
                  | nil => simp [path_get_val] at hepv
                  | cons a b =>
                    have hin' : e ∈ ([] : List AddEntry) := hin
                    exact absurd hin' (List.not_mem_nil e)
                | arr xs2 =>
                  cases tail with
                  | nil => simp [path_get_val] at hepv
                  | cons a b =>
                    have hin' : e ∈ ([] : List AddEntry) := hin
                    exact absurd hin' (List.not_mem_nil e)
              | inr hin => exact htailadd e hin
            · intro e he'
              rw [List.mem_append] at he'
              cases he' with
              | inl hin =>
                cases ev with
                | table et1 =>
                  rw [path_get_val_table] at hepv
                  cases tail with
                  | nil => simp at hepv
                  | cons a b =>
                    have hin' : e ∈ (collect_changes_table [k1] rt1 et1).2 := hin
                    have hshiftR : collect_changes_table [k1] rt1 et1 =
                        ((collect_changes_table [] rt1 et1).1.map (addPrepend [k1]),
                         (collect_changes_table [] rt1 et1).2.map (ovPrepend [k1])) := by
                      have h := collect_changes_table_shift [k1] [] rt1 et1
                      simpa using h
                    rw [hshiftR] at hin'
                    simp only [List.mem_map] at hin'
                    obtain ⟨e0, he0, rfl⟩ := hin'
                    have hszrt : sizeOf rt1 < N := by
                      have h1 : sizeOf (Value.table rt1) <
                          sizeOf ((k1, Value.table rt1) :: R') :=
                        sizeOf_val_lt_of_mem (List.mem_cons_self _ _)
                      have h2 : sizeOf rt1 < sizeOf (Value.table rt1) := by simp
                      omega
                    have hIHin := ih (sizeOf rt1) hszrt rt1 et1 (a :: b) le_rfl
                      ((wfValue_table_iff rt1).mp hwf.2.1) (by simp) hrp hepv
                    have h0 := hIHin.2 e0 he0
                    show startsWithPath (k1 :: a :: b) ([k1] ++ e0.path) = false
                    rw [List.singleton_append, startsWithPath_cons_same]
                    exact h0
                | bool c =>
                  cases tail with
                  | nil => simp [path_get_val] at hepv
                  | cons a b =>
                    have hin' : e ∈ [(⟨[k1], Value.bool c, Value.table rt1⟩ : OvEntry)] := hin
                    rw [List.mem_singleton] at hin'
                    subst hin'
                    show startsWithPath (k1 :: a :: b) [k1] = false
                    rw [startsWithPath_cons_cons, if_pos rfl]
                    exact startsWithPath_cons_nil a b
                | int m2 =>
                  cases tail with
                  | nil => simp [path_get_val] at hepv
                  | cons a b =>
                    have hin' : e ∈ [(⟨[k1], Value.int m2, Value.table rt1⟩ : OvEntry)] := hin
                    rw [List.mem_singleton] at hin'
                    subst hin'
                    show startsWithPath (k1 :: a :: b) [k1] = false
                    rw [startsWithPath_cons_cons, if_pos rfl]
                    exact startsWithPath_cons_nil a b
                | str s2 =>
                  cases tail with
                  | nil => simp [path_get_val] at hepv
                  | cons a b =>
                    have hin' : e ∈ [(⟨[k1], Value.str s2, Value.table rt1⟩ : OvEntry)] := hin
                    rw [List.mem_singleton] at hin'
                    subst hin'
                    show startsWithPath (k1 :: a :: b) [k1] = false
                    rw [startsWithPath_cons_cons, if_pos rfl]
                    exact startsWithPath_cons_nil a b
                | arr xs2 =>
                  cases tail with
                  | nil => simp [path_get_val] at hepv
                  | cons a b =>
                    have hin' : e ∈ [(⟨[k1], Value.arr xs2, Value.table rt1⟩ : OvEntry)] := hin
                    rw [List.mem_singleton] at hin'
                    subst hin'
                    show startsWithPath (k1 :: a :: b) [k1] = false
                    rw [startsWithPath_cons_cons, if_pos rfl]
                    exact startsWithPath_cons_nil a b
              | inr hin => exact htailov e hin
        · have hl2 : lookupTable ((k1, v1) :: R') sb = lookupTable R' sb := by
            rw [lookupTable_cons, if_neg hsb]
          have hrp' : path_get R' (sb :: tail) = some (Value.table []) := by
            rw [path_get_cons] at hrp ⊢
            rw [hl2] at hrp
            exact hrp
          have hIH := ih (sizeOf R') hszR' R' E (sb :: tail) le_rfl hwf.2.2 (by simp)
            hrp' hep
          constructor
          · intro e he'
            rw [List.mem_append] at he'
            cases he' with
            | inl hin =>
              cases hE : lookupTable E k1 with
              | some ev =>
                rw [hE] at hin
                obtain ⟨s, hs⟩ := collect_changes_shape_add ([] ++ [k1]) v1 (some ev) e hin
                rw [hs]
                rw [List.nil_append, List.singleton_append]
                exact startsWithPath_cons_ne sb tail k1 s (fun hh => hsb hh.symm)
              | none =>
                rw [hE] at hin
                obtain ⟨s, hs⟩ := collect_additions_shape ([] ++ [k1]) v1 e hin
                rw [hs]
                rw [List.nil_append, List.singleton_append]
                exact startsWithPath_cons_ne sb tail k1 s (fun hh => hsb hh.symm)
            | inr hin => exact hIH.1 e hin
          · intro e he'
            rw [List.mem_append] at he'
            cases he' with
            | inl hin =>
              cases hE : lookupTable E k1 with
              | some ev =>
                rw [hE] at hin
                obtain ⟨s, hs⟩ := collect_changes_shape_ov ([] ++ [k1]) v1 (some ev) e hin
                rw [hs]
                rw [List.nil_append, List.singleton_append]
                exact startsWithPath_cons_ne sb tail k1 s (fun hh => hsb hh.symm)
              | none =>
                rw [hE] at hin
                simp at hin
            | inr hin => exact hIH.2 e hin

/-- The merged tree keeps the repo's empty table at any path the
existing tree lacks. -/
theorem merge_path_get_empty : ∀ (p : List String) (R E : Table), p ≠ [] →
    path_get R p = some (Value.table []) → path_get E p = none →
    path_get (merge_dicts E R) p = some (Value.table [])
  | [], _, _, hp, _, _ => absurd rfl hp
  | k :: tail, R, E, _, hrp, hep => by
    cases hR : lookupTable R k with
    | none =>
      rw [path_get_cons_none R k tail hR] at hrp
      simp at hrp
    | some rv =>
      rw [path_get_cons_some R k tail rv hR] at hrp
      obtain ⟨rt1, rfl⟩ := path_get_val_table_of_empty rv tail hrp
      rw [path_get_val_table] at hrp
      cases hE : lookupTable E k with
      | none =>
        have hm : lookupTable (merge_dicts E R) k = some (Value.table rt1) := by
          rw [lookupTable_merge_dicts, hE]
          show lookupTable R k = some (Value.table rt1)
          exact hR
        rw [path_get_cons_some _ k tail _ hm, path_get_val_table]
        exact hrp
      | some ev =>
        rw [path_get_cons_some E k tail ev hE] at hep
        cases ev with
        | table et1 =>
          rw [path_get_val_table] at hep
          have hm : lookupTable (merge_dicts E R) k =
              some (Value.table (merge_dicts et1 rt1)) := by
            rw [lookupTable_merge_dicts, hE]
            show some (mergeEntry (Value.table et1) (lookupTable R k)) = _
            rw [hR]
            rw [mergeEntry_table_table]
          rw [path_get_cons_some _ k tail _ hm, path_get_val_table]
          cases tail with
          | nil => simp at hep
          | cons a b => exact merge_path_get_empty (a :: b) rt1 et1 (by simp) hrp hep
        | bool c =>
          have hm : lookupTable (merge_dicts E R) k = some (Value.table rt1) := by
            rw [lookupTable_merge_dicts, hE]
            show some (mergeEntry (Value.bool c) (lookupTable R k)) = _
            rw [hR]
            rfl
          rw [path_get_cons_some _ k tail _ hm, path_get_val_table]
          exact hrp
        | int m2 =>
          have hm : lookupTable (merge_dicts E R) k = some (Value.table rt1) := by
            rw [lookupTable_merge_dicts, hE]
            show some (mergeEntry (Value.int m2) (lookupTable R k)) = _
            rw [hR]
            rfl
          rw [path_get_cons_some _ k tail _ hm, path_get_val_table]
          exact hrp
        | str s2 =>
          have hm : lookupTable (merge_dicts E R) k = some (Value.table rt1) := by
            rw [lookupTable_merge_dicts, hE]
            show some (mergeEntry (Value.str s2) (lookupTable R k)) = _
            rw [hR]
            rfl
          rw [path_get_cons_some _ k tail _ hm, path_get_val_table]
          exact hrp
        | arr xs2 =>
          have hm : lookupTable (merge_dicts E R) k = some (Value.table rt1) := by
            rw [lookupTable_merge_dicts, hE]
            show some (mergeEntry (Value.arr xs2) (lookupTable R k)) = _
            rw [hR]
            rfl
          rw [path_get_cons_some _ k tail _ hm, path_get_val_table]
          exact hrp

/-! ## Locality of the rollback folds at one key -/

theorem stepRes_once_ne (d : Table) (h : String) (r : Option (Option Value)) (k' : String)
    (hne : h ≠ k') (h0 : lookupTable (delKey d k') k' = none) :
    lookupTable (delKey (stepRes d h r) k') k' = none := by
  cases r with
  | none => exact h0
  | some w =>
    cases w with
    | none =>
      show lookupTable (delKey (delKey d h) k') k' = none
      rw [delKey_comm d h k' hne]
      rw [lookupTable_delKey_ne _ h k' hne]
      exact h0
    | some x =>
      show lookupTable (delKey (setKey d h x) k') k' = none
      rw [← setKey_delKey_comm d h k' x hne]
      rw [lookupTable_setKey_ne _ h x k' hne]
      exact h0

theorem stepRes_once_self (d : Table) (h : String) (r : Option (Option Value))
    (h0 : lookupTable (delKey d h) h = none) :
    lookupTable (delKey (stepRes d h r) h) h = none := by
  cases r with
  | none => exact h0
  | some w =>
    cases w with
    | none =>
      show lookupTable (delKey (delKey d h) h) h = none
      rw [delKey_absent (delKey d h) h h0]
      exact h0
    | some x =>
      show lookupTable (delKey (setKey d h x) h) h = none
      rw [delKey_setKey_same]
      exact h0

theorem stepRes_lookup_self_congr (d1 d2 : Table) (h : String) (r : Option (Option Value))
    (hl : lookupTable d1 h = lookupTable d2 h)
    (h01 : lookupTable (delKey d1 h) h = none)
    (h02 : lookupTable (delKey d2 h) h = none) :
    lookupTable (stepRes d1 h r) h = lookupTable (stepRes d2 h r) h := by
  cases r with
  | none => exact hl
  | some w =>
    cases w with
    | none =>
      show lookupTable (delKey d1 h) h = lookupTable (delKey d2 h) h
      rw [h01, h02]
    | some x =>
      show lookupTable (setKey d1 h x) h = lookupTable (setKey d2 h x) h
      rw [lookupTable_setKey_self, lookupTable_setKey_self]

theorem rollback_override_sb_congr (e : OvEntry) (st1 st2 : Table × Nat) (sb : String)
    (hq : e.path ≠ [])
    (hl : lookupTable st1.1 sb = lookupTable st2.1 sb)
    (h01 : lookupTable (delKey st1.1 sb) sb = none)
    (h02 : lookupTable (delKey st2.1 sb) sb = none) :
    lookupTable (rollback_override st1 e).1 sb = lookupTable (rollback_override st2 e).1 sb
    ∧ lookupTable (delKey (rollback_override st1 e).1 sb) sb = none
    ∧ lookupTable (delKey (rollback_override st2 e).1 sb) sb = none := by
  obtain ⟨d1, n1⟩ := st1
  obtain ⟨d2, n2⟩ := st2
  cases hp : e.path with
  | nil => exact absurd hp hq
  | cons h q =>
    rw [rollback_override_spec d1 n1 e h q hp, rollback_override_spec d2 n2 e h q hp]
    by_cases hhs : h = sb
    · subst hhs
      have hl' : lookupTable d1 h = lookupTable d2 h := hl
      have h01' : lookupTable (delKey d1 h) h = none := h01
      have h02' : lookupTable (delKey d2 h) h = none := h02
      rw [hl']
      exact ⟨stepRes_lookup_self_congr d1 d2 h _ hl' h01' h02',
        stepRes_once_self d1 h _ h01', stepRes_once_self d2 h _ h02'⟩
    · have hl' : lookupTable d1 sb = lookupTable d2 sb := hl
      have h01' : lookupTable (delKey d1 sb) sb = none := h01
      have h02' : lookupTable (delKey d2 sb) sb = none := h02
      refine ⟨?_, ?_, ?_⟩
      · rw [stepRes_lookup_ne d1 h sb _ hhs, stepRes_lookup_ne d2 h sb _ hhs]
        exact hl'
      · exact stepRes_once_ne d1 h _ sb hhs h01'
      · exact stepRes_once_ne d2 h _ sb hhs h02'

theorem rollback_addition_sb_congr (e : AddEntry) (st1 st2 : Table × Nat) (sb : String)
    (hq : e.path ≠ [])
    (hl : lookupTable st1.1 sb = lookupTable st2.1 sb)
    (h01 : lookupTable (delKey st1.1 sb) sb = none)
    (h02 : lookupTable (delKey st2.1 sb) sb = none) :
    lookupTable (rollback_addition st1 e).1 sb = lookupTable (rollback_addition st2 e).1 sb
    ∧ lookupTable (delKey (rollback_addition st1 e).1 sb) sb = none
    ∧ lookupTable (delKey (rollback_addition st2 e).1 sb) sb = none := by
  obtain ⟨d1, n1⟩ := st1
  obtain ⟨d2, n2⟩ := st2
  cases hp : e.path with
  | nil => exact absurd hp hq
  | cons h q =>
    rw [rollback_addition_spec d1 n1 e h q hp, rollback_addition_spec d2 n2 e h q hp]
    by_cases hhs : h = sb
    · subst hhs
      have hl' : lookupTable d1 h = lookupTable d2 h := hl
      have h01' : lookupTable (delKey d1 h) h = none := h01
      have h02' : lookupTable (delKey d2 h) h = none := h02
      rw [hl']
      exact ⟨stepRes_lookup_self_congr d1 d2 h _ hl' h01' h02',
        stepRes_once_self d1 h _ h01', stepRes_once_self d2 h _ h02'⟩
    · have hl' : lookupTable d1 sb = lookupTable d2 sb := hl
      have h01' : lookupTable (delKey d1 sb) sb = none := h01
      have h02' : lookupTable (delKey d2 sb) sb = none := h02
      refine ⟨?_, ?_, ?_⟩
      · rw [stepRes_lookup_ne d1 h sb _ hhs, stepRes_lookup_ne d2 h sb _ hhs]
        exact hl'
      · exact stepRes_once_ne d1 h _ sb hhs h01'
      · exact stepRes_once_ne d2 h _ sb hhs h02'

theorem foldl_override_sb_congr : ∀ (es : List OvEntry) (st1 st2 : Table × Nat)
    (sb : String), (∀ e ∈ es, e.path ≠ []) →
    lookupTable st1.1 sb = lookupTable st2.1 sb →
    lookupTable (delKey st1.1 sb) sb = none →
    lookupTable (delKey st2.1 sb) sb = none →
    lookupTable (List.foldl rollback_override st1 es).1 sb =
      lookupTable (List.foldl rollback_override st2 es).1 sb
    ∧ lookupTable (delKey (List.foldl rollback_override st1 es).1 sb) sb = none
    ∧ lookupTable (delKey (List.foldl rollback_override st2 es).1 sb) sb = none
  | [], _, _, _, _, hl, h01, h02 => ⟨hl, h01, h02⟩
  | e :: rest, st1, st2, sb, hq, hl, h01, h02 => by
    rw [List.foldl_cons, List.foldl_cons]
    obtain ⟨hl', h01', h02'⟩ :=
      rollback_override_sb_congr e st1 st2 sb (hq e (by simp)) hl h01 h02
    exact foldl_override_sb_congr rest _ _ sb (fun e' he' => hq e' (by simp [he']))
      hl' h01' h02'

theorem foldl_addition_sb_congr : ∀ (es : List AddEntry) (st1 st2 : Table × Nat)
    (sb : String), (∀ e ∈ es, e.path ≠ []) →
    lookupTable st1.1 sb = lookupTable st2.1 sb →
    lookupTable (delKey st1.1 sb) sb = none →
    lookupTable (delKey st2.1 sb) sb = none →
    lookupTable (List.foldl rollback_addition st1 es).1 sb =
      lookupTable (List.foldl rollback_addition st2 es).1 sb
    ∧ lookupTable (delKey (List.foldl rollback_addition st1 es).1 sb) sb = none
    ∧ lookupTable (delKey (List.foldl rollback_addition st2 es).1 sb) sb = none
  | [], _, _, _, _, hl, h01, h02 => ⟨hl, h01, h02⟩
  | e :: rest, st1, st2, sb, hq, hl, h01, h02 => by
    rw [List.foldl_cons, List.foldl_cons]
    obtain ⟨hl', h01', h02'⟩ :=
      rollback_addition_sb_congr e st1 st2 sb (hq e (by simp)) hl h01 h02
    exact foldl_addition_sb_congr rest _ _ sb (fun e' he' => hq e' (by simp [he']))
      hl' h01' h02'

theorem merge_dicts_ne_nil_of_overlay (b o : Table) (ho : o ≠ []) :
    merge_dicts b o ≠ [] := by
  intro hh
  have hk := keysOf_merge_dicts b o
  rw [hh] at hk
  have h2 := List.append_eq_nil.mp hk.symm
  cases b with
  | cons hd tl =>
    obtain ⟨a, w⟩ := hd
    rw [keysOf_cons] at h2
    simp at h2
  | nil =>
    have h3 : (keysOf o).filter (fun k => !hasKey [] k) = keysOf o := by
      apply List.filter_eq_self.mpr
      intro a _
      simp [hasKey]
    rw [h3] at h2
    cases o with
    | nil => exact ho rfl
    | cons hd tl =>
      obtain ⟨a, w⟩ := hd
      rw [keysOf_cons] at h2
      simp at h2

/-! ## Rolling back a subtree's additions keeps its empty tables -/

mutual
theorem rollback_keep_empty : ∀ (v : Value) (t : Table) (k : String) (n : Nat)
    (s : List String), wfValue v = true → lookupTable t k = some v →
    lookupTable (delKey t k) k = none →
    path_get_val v s = some (Value.table []) →
    path_get (List.foldl rollback_addition (t, n) (collect_additions [k] v)).1 (k :: s)
      = some (Value.table [])
  | Value.table rt, t, k, n, s, hwf, hl, honce, hget => by
    rw [wfValue_table_iff] at hwf
    rw [path_get_val_table] at hget
    rw [collect_additions_table_val]
    cases s with
    | nil =>
      rw [path_get_nil_path] at hget
      simp only [Option.some.injEq, Value.table.injEq] at hget
      subst hget
      rw [collect_additions_table_nil, List.foldl_nil]
      rw [path_get_cons_some t k [] _ hl]
      rfl
    | cons b s3 =>
      have hrtne : rt ≠ [] := by
        intro hh
        subst hh
        rw [path_get_cons_none [] b s3 rfl] at hget
        simp at hget
      have hshift : collect_additions_table [k] rt =
          (collect_additions_table [] rt).map (addPrepend [k]) := by
        have h := collect_additions_table_shift [k] [] rt
        simpa using h
      rw [hshift]
      have hpaths : ∀ e ∈ collect_additions_table [] rt, e.path ≠ [] := by
        intro e he
        obtain ⟨k', s0, hs0, _⟩ := collect_additions_table_shape [] rt e he
        simp [hs0]
      rw [foldl_addition_prepend (collect_additions_table [] rt) t rt n k hl hrtne
        honce hpaths]
      have hinner := rollback_keep_empty_table rt rt n (b :: s3) hwf
        (fun k2 _ => rfl) (fun k2 _ => lookupTable_delKey_self rt k2 hwf) (by simp) hget
      have hne : (List.foldl rollback_addition (rt, n)
          (collect_additions_table [] rt)).1 ≠ [] := by
        intro hh
        rw [hh] at hinner
        rw [path_get_cons_none [] b s3 rfl] at hinner
        simp at hinner
      rw [if_neg hne]
      rw [path_get_cons_some _ k (b :: s3) _ (lookupTable_setKey_self t k _),
        path_get_val_table]
      exact hinner
  | Value.bool c, t, k, n, s, _, _, _, hget => by
    obtain ⟨rt, hrt⟩ := path_get_val_table_of_empty (Value.bool c) s hget
    simp at hrt
  | Value.int m, t, k, n, s, _, _, _, hget => by
    obtain ⟨rt, hrt⟩ := path_get_val_table_of_empty (Value.int m) s hget
    simp at hrt
  | Value.str u, t, k, n, s, _, _, _, hget => by
    obtain ⟨rt, hrt⟩ := path_get_val_table_of_empty (Value.str u) s hget
    simp at hrt
  | Value.arr xs, t, k, n, s, _, _, _, hget => by
    obtain ⟨rt, hrt⟩ := path_get_val_table_of_empty (Value.arr xs) s hget
    simp at hrt

theorem rollback_keep_empty_table : ∀ (rt : Table) (t : Table) (n : Nat)
    (s : List String), wfTable rt = true →
    (∀ k2, hasKey rt k2 = true → lookupTable t k2 = lookupTable rt k2) →
    (∀ k2, hasKey rt k2 = true → lookupTable (delKey t k2) k2 = none) →
    s ≠ [] → path_get rt s = some (Value.table []) →
    path_get (List.foldl rollback_addition (t, n) (collect_additions_table [] rt)).1 s
      = some (Value.table [])
  | [], t, n, s, _, _, _, hs, hget => by
    cases s with
    | nil => exact absurd rfl hs
    | cons a b =>
      rw [path_get_cons_none [] a b rfl] at hget
      simp at hget
  | (k1, v1) :: rest, t, n, s, hwf, hagree, honce, hs, hget => by
    rw [wfTable_cons_iff] at hwf
    cases s with
    | nil => exact absurd rfl hs
    | cons sb s2 =>
      rw [collect_additions_table_cons, List.nil_append, List.foldl_append]
      have hheads1 : ∀ e ∈ collect_additions [k1] v1, e.path ≠ [] := by
        intro e he
        obtain ⟨s0, hs0⟩ := collect_additions_shape [k1] v1 e he
        simp [hs0]
      by_cases hsb : k1 = sb
      · subst hsb
        have hl1 : lookupTable ((k1, v1) :: rest) k1 = some v1 := by simp
        rw [path_get_cons_some _ k1 s2 v1 hl1] at hget
        have hL1 := rollback_keep_empty v1 t k1 n s2 hwf.2.1
          (by rw [hagree k1 (hasKey_head k1 v1 rest)]; simp)
          (honce k1 (hasKey_head k1 v1 rest)) hget
        have hheads2 : ∀ e ∈ collect_additions_table [] rest, e.path.head? ≠ some k1 := by
          intro e he
          obtain ⟨k', s0, hs0, hk'⟩ := collect_additions_table_shape [] rest e he
          rw [hs0]
          simp only [List.nil_append, List.head?_cons]
          intro hkk
          simp only [Option.some.injEq] at hkk
          subst hkk
          exact absurd ((hasKey_iff_mem rest k').mpr hk') (by simp [hwf.1])
        have hlk := lookup_foldl_addition_ne (collect_additions_table [] rest) k1 hheads2
          (List.foldl rollback_addition (t, n) (collect_additions [k1] v1))
        rw [path_get_cons, hlk, ← path_get_cons]
        exact hL1
      · have hlagree : ∀ k2, hasKey rest k2 = true →
            lookupTable (List.foldl rollback_addition (t, n)
              (collect_additions [k1] v1)).1 k2 = lookupTable rest k2 := by
          intro k2 hk2
          have hk2ne : k1 ≠ k2 := fun hh => by
            subst hh
            exact absurd hk2 (by simp [hwf.1])
          have hheads1' : ∀ e ∈ collect_additions [k1] v1, e.path.head? ≠ some k2 := by
            intro e he
            obtain ⟨s0, hs0⟩ := collect_additions_shape [k1] v1 e he
            rw [hs0]
            simp only [List.singleton_append, List.head?_cons]
            intro hkk
            simp only [Option.some.injEq] at hkk
            exact hk2ne hkk
          rw [lookup_foldl_addition_ne (collect_additions [k1] v1) k2 hheads1' (t, n)]
          rw [hagree k2 (hasKey_cons_tail k1 v1 rest k2 hk2)]
          rw [lookupTable_cons, if_neg hk2ne]
        have honce' : ∀ k2, hasKey rest k2 = true →
            lookupTable (delKey (List.foldl rollback_addition (t, n)
              (collect_additions [k1] v1)).1 k2) k2 = none := by
          intro k2 hk2
          have h0 := honce k2 (hasKey_cons_tail k1 v1 rest k2 hk2)
          exact (foldl_addition_sb_congr (collect_additions [k1] v1) (t, n) (t, n) k2
            hheads1 rfl h0 h0).2.2
        have hget' : path_get rest (sb :: s2) = some (Value.table []) := by
          rw [path_get_cons] at hget ⊢
          rw [show lookupTable ((k1, v1) :: rest) sb = lookupTable rest sb from by
            rw [lookupTable_cons, if_neg hsb]] at hget
          exact hget
        exact rollback_keep_empty_table rest
          (List.foldl rollback_addition (t, n) (collect_additions [k1] v1)).1
          (List.foldl rollback_addition (t, n) (collect_additions [k1] v1)).2
          (sb :: s2) hwf.2.2 hlagree honce' (by simp) hget'
end

/-- The rollback pass of `remove` leaves the merged tree's empty table
in place at any path the repo supplied, the existing tree lacked, and
whose strict ancestors are tables (or absent) on the existing side. -/
theorem c10_rollback_master : ∀ (N : Nat) (R E : Table) (p : List String) (n : Nat),
    sizeOf R ≤ N → wfTable R = true → wfTable E = true → p ≠ [] →
    path_get R p = some (Value.table []) → path_get E p = none →
    ancestorsTabled E p = true →
    path_get (List.foldl rollback_addition
      (List.foldl rollback_override (merge_dicts E R, n) (collect_changes_table [] R E).2)
      (collect_changes_table [] R E).1).1 p = some (Value.table []) := by
  intro N
  induction N using Nat.strong_induction_on with
  | _ N ih =>
    intro R E p n hsz hwfR hwfE hp hrp hep hanc
    cases R with
    | nil =>
      cases p with
      | nil => exact absurd rfl hp
      | cons a b =>
        rw [path_get_cons_none [] a b rfl] at hrp
        simp at hrp
    | cons hd R' =>
      obtain ⟨k, v⟩ := hd
      have hwfM : wfTable (merge_dicts E ((k, v) :: R')) = true :=
        wfTable_merge_dicts E _ hwfE hwfR
      rw [wfTable_cons_iff] at hwfR
      obtain ⟨hkR'f, hwfv, hwfR'⟩ := hwfR
      have hszR' : sizeOf R' < N := by
        have h1 : sizeOf R' < sizeOf ((k, v) :: R') := by simp
        omega
      have honceMall : ∀ k2, lookupTable (delKey (merge_dicts E ((k, v) :: R')) k2) k2
          = none := fun k2 => lookupTable_delKey_self _ k2 hwfM
      cases p with
      | nil => exact absurd rfl hp
      | cons sb tail =>
        have hT1ne : ∀ e ∈ (collect_changes_table [] R' E).1, e.path.head? ≠ some k := by
          intro e he
          obtain ⟨k', s, hs, hk'⟩ := collect_changes_table_shape_add [] R' E e he
          rw [hs]
          simp only [List.nil_append, List.head?_cons]
          intro hkk
          simp only [Option.some.injEq] at hkk
          subst hkk
          exact absurd ((hasKey_iff_mem R' k').mpr hk') (by simp [hkR'f])
        have hT2ne : ∀ e ∈ (collect_changes_table [] R' E).2, e.path.head? ≠ some k := by
          intro e he
          obtain ⟨k', s, hs, hk', _⟩ := collect_changes_table_shape_ov [] R' E e he
          rw [hs]
          simp only [List.nil_append, List.head?_cons]
          intro hkk
          simp only [Option.some.injEq] at hkk
          subst hkk
          exact absurd ((hasKey_iff_mem R' k').mpr hk') (by simp [hkR'f])
        have hT1paths : ∀ e ∈ (collect_changes_table [] R' E).1, e.path ≠ [] := by
          intro e he
          obtain ⟨k', s, hs, _⟩ := collect_changes_table_shape_add [] R' E e he
          simp [hs]
        have hT2paths : ∀ e ∈ (collect_changes_table [] R' E).2, e.path ≠ [] := by
          intro e he
          obtain ⟨k', s, hs, _, _⟩ := collect_changes_table_shape_ov [] R' E e he
          simp [hs]
        cases hE : lookupTable E k with
        | none =>
          have hsplit1 : (collect_changes_table [] ((k, v) :: R') E).1 =
              collect_additions [k] v ++ (collect_changes_table [] R' E).1 := by
            rw [collect_changes_table_cons, hE]
            simp
          have hsplit2 : (collect_changes_table [] ((k, v) :: R') E).2 =
              (collect_changes_table [] R' E).2 := by
            rw [collect_changes_table_cons, hE]
            simp
          rw [hsplit1, hsplit2, List.foldl_append]
          have hG1paths : ∀ e ∈ collect_additions [k] v, e.path ≠ [] := by
            intro e he
            obtain ⟨s0, hs0⟩ := collect_additions_shape [k] v e he
            simp [hs0]
          by_cases hsb : k = sb
          · subst hsb
            have hl1 : lookupTable ((k, v) :: R') k = some v := by simp
            rw [path_get_cons_some _ k tail v hl1] at hrp
            have hlMk : lookupTable (merge_dicts E ((k, v) :: R')) k = some v := by
              rw [lookupTable_merge_dicts, hE]
              show lookupTable ((k, v) :: R') k = some v
              exact hl1
            have hkeep := rollback_keep_empty v (merge_dicts E ((k, v) :: R')) k n tail
              hwfv hlMk (honceMall k) hrp
            have hlT2 := lookup_foldl_override_ne (collect_changes_table [] R' E).2 k hT2ne
              (merge_dicts E ((k, v) :: R'), n)
            have honceT2 : lookupTable (delKey (List.foldl rollback_override
                (merge_dicts E ((k, v) :: R'), n) (collect_changes_table [] R' E).2).1 k) k
                = none :=
              (foldl_override_sb_congr (collect_changes_table [] R' E).2
                (merge_dicts E ((k, v) :: R'), n) (merge_dicts E ((k, v) :: R'), n) k
                hT2paths rfl (honceMall k) (honceMall k)).2.2
            have hcongrG1 := foldl_addition_sb_congr (collect_additions [k] v)
              (List.foldl rollback_override (merge_dicts E ((k, v) :: R'), n)
                (collect_changes_table [] R' E).2)
              (merge_dicts E ((k, v) :: R'), n) k hG1paths hlT2 honceT2 (honceMall k)
            have hlT1 := lookup_foldl_addition_ne (collect_changes_table [] R' E).1 k hT1ne
              (List.foldl rollback_addition (List.foldl rollback_override
                (merge_dicts E ((k, v) :: R'), n) (collect_changes_table [] R' E).2)
                (collect_additions [k] v))
            rw [path_get_cons, hlT1, hcongrG1.1, ← path_get_cons]
            exact hkeep
          · have hwfM' : wfTable (merge_dicts E R') = true :=
              wfTable_merge_dicts E R' hwfE hwfR'
            have hl0 : lookupTable (merge_dicts E ((k, v) :: R')) sb =
                lookupTable (merge_dicts E R') sb := by
              rw [lookupTable_merge_dicts, lookupTable_merge_dicts]
              rw [show lookupTable ((k, v) :: R') sb = lookupTable R' sb from by
                rw [lookupTable_cons, if_neg hsb]]
            have hc1 := foldl_override_sb_congr (collect_changes_table [] R' E).2
              (merge_dicts E ((k, v) :: R'), n) (merge_dicts E R', n) sb hT2paths hl0
              (lookupTable_delKey_self _ sb hwfM) (lookupTable_delKey_self _ sb hwfM')
            have hG1ne : ∀ e ∈ collect_additions [k] v, e.path.head? ≠ some sb := by
              intro e he
              obtain ⟨s0, hs0⟩ := collect_additions_shape [k] v e he
              rw [hs0]
              simp only [List.singleton_append, List.head?_cons]
              intro hkk
              simp only [Option.some.injEq] at hkk
              exact hsb hkk
            have hlG1 := lookup_foldl_addition_ne (collect_additions [k] v) sb hG1ne
              (List.foldl rollback_override (merge_dicts E ((k, v) :: R'), n)
                (collect_changes_table [] R' E).2)
            have honceG1 := (foldl_addition_sb_congr (collect_additions [k] v)
              (List.foldl rollback_override (merge_dicts E ((k, v) :: R'), n)
                (collect_changes_table [] R' E).2)
              (List.foldl rollback_override (merge_dicts E ((k, v) :: R'), n)
                (collect_changes_table [] R' E).2) sb hG1paths rfl hc1.2.1 hc1.2.1).2.2
            have hc2 := foldl_addition_sb_congr (collect_changes_table [] R' E).1
              (List.foldl rollback_addition (List.foldl rollback_override
                (merge_dicts E ((k, v) :: R'), n) (collect_changes_table [] R' E).2)
                (collect_additions [k] v))
              (List.foldl rollback_override (merge_dicts E R', n)
                (collect_changes_table [] R' E).2) sb hT1paths
              (hlG1.trans hc1.1) honceG1 hc1.2.2
            have hrp' : path_get R' (sb :: tail) = some (Value.table []) := by
              rw [path_get_cons] at hrp ⊢
              rw [show lookupTable ((k, v) :: R') sb = lookupTable R' sb from by
                rw [lookupTable_cons, if_neg hsb]] at hrp
              exact hrp
            have hIH := ih (sizeOf R') hszR' R' E (sb :: tail) n le_rfl hwfR' hwfE
              (by simp) hrp' hep hanc
            rw [path_get_cons, hc2.1, ← path_get_cons]
            exact hIH
        | some ev =>
          have hsplit1 : (collect_changes_table [] ((k, v) :: R') E).1 =
              (collect_changes [k] v (some ev)).1 ++ (collect_changes_table [] R' E).1 := by
            rw [collect_changes_table_cons, hE]
            simp
          have hsplit2 : (collect_changes_table [] ((k, v) :: R') E).2 =
              (collect_changes [k] v (some ev)).2 ++ (collect_changes_table [] R' E).2 := by
            rw [collect_changes_table_cons, hE]
            simp
          rw [hsplit1, hsplit2, List.foldl_append, List.foldl_append]
          have hG1paths : ∀ e ∈ (collect_changes [k] v (some ev)).1, e.path ≠ [] := by
            intro e he
            obtain ⟨s0, hs0⟩ := collect_changes_shape_add [k] v (some ev) e he
            simp [hs0]
          have hG2paths : ∀ e ∈ (collect_changes [k] v (some ev)).2, e.path ≠ [] := by
            intro e he
            obtain ⟨s0, hs0⟩ := collect_changes_shape_ov [k] v (some ev) e he
            simp [hs0]
          by_cases hsb : k = sb
          · subst hsb
            have hepv : path_get_val ev tail = none := by
              rw [path_get_cons_some E k tail ev hE] at hep
              exact hep
            cases tail with
            | nil =>
              exfalso
              cases ev <;> simp [path_get_val] at hepv
            | cons t1 trest =>
              cases ev with
              | table et =>
                have hanc' : ancestorsTabled et (t1 :: trest) = true := by
                  have h := hanc
                  rw [show ancestorsTabled E (k :: t1 :: trest) =
                      (match lookupTable E k with
                       | some (Value.table et') => ancestorsTabled et' (t1 :: trest)
                       | some _ => false
                       | none => true) from rfl] at h
                  rw [hE] at h
                  exact h
                rw [path_get_val_table] at hepv
                have hl1 : lookupTable ((k, v) :: R') k = some v := by simp
                rw [path_get_cons_some _ k (t1 :: trest) v hl1] at hrp
                obtain ⟨rt, rfl⟩ := path_get_val_table_of_empty v (t1 :: trest) hrp
                rw [path_get_val_table] at hrp
                have hrtne : rt ≠ [] := by
                  intro hh
                  subst hh
                  rw [path_get_cons_none [] t1 trest rfl] at hrp
                  simp at hrp
                have hwfet : wfTable et = true :=
                  (wfValue_table_iff et).mp (wfValue_lookup E k _ hwfE hE)
                have hwfrt : wfTable rt = true := (wfValue_table_iff rt).mp hwfv
                have hMt : lookupTable (merge_dicts E ((k, Value.table rt) :: R')) k =
                    some (Value.table (merge_dicts et rt)) := by
                  rw [lookupTable_merge_dicts, hE]
                  show some (mergeEntry (Value.table et)
                    (lookupTable ((k, Value.table rt) :: R') k)) = _
                  rw [show lookupTable ((k, Value.table rt) :: R') k =
                      some (Value.table rt) from by simp]
                  rw [mergeEntry_table_table]
                have hszrt : sizeOf rt < N := by
                  have h1 : sizeOf (Value.table rt) < sizeOf ((k, Value.table rt) :: R') :=
                    sizeOf_val_lt_of_mem (List.mem_cons_self _ _)
                  have h2 : sizeOf rt < sizeOf (Value.table rt) := by simp
                  omega
                have hIHin := ih (sizeOf rt) hszrt rt et (t1 :: trest) n le_rfl hwfrt hwfet
                  (by simp) hrp hepv hanc'
                rw [collect_changes_table_some_table]
                have hshiftR : collect_changes_table [k] rt et =
                    ((collect_changes_table [] rt et).1.map (addPrepend [k]),
                     (collect_changes_table [] rt et).2.map (ovPrepend [k])) := by
                  have h := collect_changes_table_shift [k] [] rt et
                  simpa using h
                rw [hshiftR]
                have hA : ∀ e ∈ (collect_changes_table [] rt et).1, e.path ≠ [] := by
                  intro e he
                  obtain ⟨k', s0, hs0, _⟩ := collect_changes_table_shape_add [] rt et e he
                  simp [hs0]
                have hO : ∀ e ∈ (collect_changes_table [] rt et).2, e.path ≠ [] := by
                  intro e he
                  obtain ⟨k', s0, hs0, _, _⟩ := collect_changes_table_shape_ov [] rt et e he
                  simp [hs0]
                have hG1mappaths : ∀ e ∈ (collect_changes_table [] rt et).1.map
                    (addPrepend [k]), e.path ≠ [] := by
                  intro e he
                  rw [List.mem_map] at he
                  obtain ⟨e0, _, rfl⟩ := he
                  show (addPrepend [k] e0).path ≠ []
                  simp [addPrepend]
                have hG2mappaths : ∀ e ∈ (collect_changes_table [] rt et).2.map
                    (ovPrepend [k]), e.path ≠ [] := by
                  intro e he
                  rw [List.mem_map] at he
                  obtain ⟨e0, _, rfl⟩ := he
                  show (ovPrepend [k] e0).path ≠ []
                  simp [ovPrepend]
                have hXk : lookupTable (List.foldl rollback_addition
                    (List.foldl rollback_override
                      (merge_dicts E ((k, Value.table rt) :: R'), n)
                      ((collect_changes_table [] rt et).2.map (ovPrepend [k])))
                    ((collect_changes_table [] rt et).1.map (addPrepend [k]))).1 k =
                    some (Value.table (List.foldl rollback_addition
                      (List.foldl rollback_override (merge_dicts et rt, n)
                        (collect_changes_table [] rt et).2)
                      (collect_changes_table [] rt et).1).1) := by
                  rw [foldl_override_prepend (collect_changes_table [] rt et).2
                    (merge_dicts E ((k, Value.table rt) :: R')) (merge_dicts et rt) n k
                    hMt hO]
                  rw [foldl_addition_prepend (collect_changes_table [] rt et).1
                    (setKey (merge_dicts E ((k, Value.table rt) :: R')) k (Value.table
                      (List.foldl rollback_override (merge_dicts et rt, n)
                        (collect_changes_table [] rt et).2).1))
                    (List.foldl rollback_override (merge_dicts et rt, n)
                      (collect_changes_table [] rt et).2).1
                    (List.foldl rollback_override (merge_dicts et rt, n)
                      (collect_changes_table [] rt et).2).2
                    k (lookupTable_setKey_self _ k _)
                    (foldl_override_ne_nil (collect_changes_table [] rt et).2
                      (merge_dicts et rt, n) (merge_dicts_ne_nil_of_overlay et rt hrtne))
                    (by rw [delKey_setKey_same]
                        exact honceMall k) hA]
                  have heta : List.foldl rollback_addition
                      ((List.foldl rollback_override (merge_dicts et rt, n)
                        (collect_changes_table [] rt et).2).1,
                       (List.foldl rollback_override (merge_dicts et rt, n)
                        (collect_changes_table [] rt et).2).2)
                      (collect_changes_table [] rt et).1 =
                      List.foldl rollback_addition
                        (List.foldl rollback_override (merge_dicts et rt, n)
                          (collect_changes_table [] rt et).2)
                        (collect_changes_table [] rt et).1 := rfl
                  rw [heta]
                  have hSTne : (List.foldl rollback_addition
                      (List.foldl rollback_override (merge_dicts et rt, n)
                        (collect_changes_table [] rt et).2)
                      (collect_changes_table [] rt et).1).1 ≠ [] := by
                    intro hh
                    rw [hh] at hIHin
                    rw [path_get_cons_none [] t1 trest rfl] at hIHin
                    simp at hIHin
                  rw [if_neg hSTne, setKey_setKey]
                  exact lookupTable_setKey_self _ k _
                have honceB : lookupTable (delKey (List.foldl rollback_override
                    (merge_dicts E ((k, Value.table rt) :: R'), n)
                    ((collect_changes_table [] rt et).2.map (ovPrepend [k]))).1 k) k
                    = none :=
                  (foldl_override_sb_congr
                    ((collect_changes_table [] rt et).2.map (ovPrepend [k]))
                    (merge_dicts E ((k, Value.table rt) :: R'), n)
                    (merge_dicts E ((k, Value.table rt) :: R'), n) k hG2mappaths rfl
                    (honceMall k) (honceMall k)).2.2
                have honceA : lookupTable (delKey (List.foldl rollback_override
                    (List.foldl rollback_override
                      (merge_dicts E ((k, Value.table rt) :: R'), n)
                      ((collect_changes_table [] rt et).2.map (ovPrepend [k])))
                    (collect_changes_table [] R' E).2).1 k) k = none :=
                  (foldl_override_sb_congr (collect_changes_table [] R' E).2
                    (List.foldl rollback_override
                      (merge_dicts E ((k, Value.table rt) :: R'), n)
                      ((collect_changes_table [] rt et).2.map (ovPrepend [k])))
                    (List.foldl rollback_override
                      (merge_dicts E ((k, Value.table rt) :: R'), n)
                      ((collect_changes_table [] rt et).2.map (ovPrepend [k]))) k
                    hT2paths rfl honceB honceB).2.2
                have hlT2' := lookup_foldl_override_ne (collect_changes_table [] R' E).2 k
                  hT2ne (List.foldl rollback_override
                    (merge_dicts E ((k, Value.table rt) :: R'), n)
                    ((collect_changes_table [] rt et).2.map (ovPrepend [k])))
                have hcongrG1 := foldl_addition_sb_congr
                  ((collect_changes_table [] rt et).1.map (addPrepend [k]))
                  (List.foldl rollback_override (List.foldl rollback_override
                    (merge_dicts E ((k, Value.table rt) :: R'), n)
                    ((collect_changes_table [] rt et).2.map (ovPrepend [k])))
                    (collect_changes_table [] R' E).2)
                  (List.foldl rollback_override
                    (merge_dicts E ((k, Value.table rt) :: R'), n)
                    ((collect_changes_table [] rt et).2.map (ovPrepend [k]))) k
                  hG1mappaths hlT2' honceA honceB
                have hlT1 := lookup_foldl_addition_ne (collect_changes_table [] R' E).1 k
                  hT1ne (List.foldl rollback_addition (List.foldl rollback_override
                    (List.foldl rollback_override
                      (merge_dicts E ((k, Value.table rt) :: R'), n)
                      ((collect_changes_table [] rt et).2.map (ovPrepend [k])))
                    (collect_changes_table [] R' E).2)
                    ((collect_changes_table [] rt et).1.map (addPrepend [k])))
                rw [path_get_cons, hlT1, hcongrG1.1, hXk]
                show path_get_val (Value.table (List.foldl rollback_addition
                    (List.foldl rollback_override (merge_dicts et rt, n)
                      (collect_changes_table [] rt et).2)
                    (collect_changes_table [] rt et).1).1) (t1 :: trest)
                  = some (Value.table [])
                rw [path_get_val_table]
                exact hIHin
              | bool c =>
                exfalso
                have h := hanc
                rw [show ancestorsTabled E (k :: t1 :: trest) =
                    (match lookupTable E k with
                     | some (Value.table et') => ancestorsTabled et' (t1 :: trest)
                     | some _ => false
                     | none => true) from rfl] at h
                rw [hE] at h
                have h' : (false : Bool) = true := h
                simp at h'
              | int m2 =>
                exfalso
                have h := hanc
                rw [show ancestorsTabled E (k :: t1 :: trest) =
                    (match lookupTable E k with
                     | some (Value.table et') => ancestorsTabled et' (t1 :: trest)
                     | some _ => false
                     | none => true) from rfl] at h
                rw [hE] at h
                have h' : (false : Bool) = true := h
                simp at h'
              | str s2 =>
                exfalso
                have h := hanc
                rw [show ancestorsTabled E (k :: t1 :: trest) =
                    (match lookupTable E k with
                     | some (Value.table et') => ancestorsTabled et' (t1 :: trest)
                     | some _ => false
                     | none => true) from rfl] at h
                rw [hE] at h
                have h' : (false : Bool) = true := h
                simp at h'
              | arr xs2 =>
                exfalso
                have h := hanc
                rw [show ancestorsTabled E (k :: t1 :: trest) =
                    (match lookupTable E k with
                     | some (Value.table et') => ancestorsTabled et' (t1 :: trest)
                     | some _ => false
                     | none => true) from rfl] at h
                rw [hE] at h
                have h' : (false : Bool) = true := h
                simp at h'
          · have hwfM' : wfTable (merge_dicts E R') = true :=
              wfTable_merge_dicts E R' hwfE hwfR'
            have hl0 : lookupTable (merge_dicts E ((k, v) :: R')) sb =
                lookupTable (merge_dicts E R') sb := by
              rw [lookupTable_merge_dicts, lookupTable_merge_dicts]
              rw [show lookupTable ((k, v) :: R') sb = lookupTable R' sb from by
                rw [lookupTable_cons, if_neg hsb]]
            have hG2ne : ∀ e ∈ (collect_changes [k] v (some ev)).2,
                e.path.head? ≠ some sb := by
              intro e he
              obtain ⟨s0, hs0⟩ := collect_changes_shape_ov [k] v (some ev) e he
              rw [hs0]
              simp only [List.singleton_append, List.head?_cons]
              intro hkk
              simp only [Option.some.injEq] at hkk
              exact hsb hkk
            have hG1ne : ∀ e ∈ (collect_changes [k] v (some ev)).1,
                e.path.head? ≠ some sb := by
              intro e he
              obtain ⟨s0, hs0⟩ := collect_changes_shape_add [k] v (some ev) e he
              rw [hs0]
              simp only [List.singleton_append, List.head?_cons]
              intro hkk
              simp only [Option.some.injEq] at hkk
              exact hsb hkk
            have hlG2 := lookup_foldl_override_ne (collect_changes [k] v (some ev)).2 sb
              hG2ne (merge_dicts E ((k, v) :: R'), n)
            have honceG2 := (foldl_override_sb_congr (collect_changes [k] v (some ev)).2
              (merge_dicts E ((k, v) :: R'), n) (merge_dicts E ((k, v) :: R'), n) sb
              hG2paths rfl (lookupTable_delKey_self _ sb hwfM)
              (lookupTable_delKey_self _ sb hwfM)).2.2
            have hc1 := foldl_override_sb_congr (collect_changes_table [] R' E).2
              (List.foldl rollback_override (merge_dicts E ((k, v) :: R'), n)
                (collect_changes [k] v (some ev)).2)
              (merge_dicts E R', n) sb hT2paths (hlG2.trans hl0) honceG2
              (lookupTable_delKey_self _ sb hwfM')
            have hlG1 := lookup_foldl_addition_ne (collect_changes [k] v (some ev)).1 sb
              hG1ne (List.foldl rollback_override (List.foldl rollback_override
                (merge_dicts E ((k, v) :: R'), n) (collect_changes [k] v (some ev)).2)
                (collect_changes_table [] R' E).2)
            have honceG1 := (foldl_addition_sb_congr (collect_changes [k] v (some ev)).1
              (List.foldl rollback_override (List.foldl rollback_override
                (merge_dicts E ((k, v) :: R'), n) (collect_changes [k] v (some ev)).2)
                (collect_changes_table [] R' E).2)
              (List.foldl rollback_override (List.foldl rollback_override
                (merge_dicts E ((k, v) :: R'), n) (collect_changes [k] v (some ev)).2)
                (collect_changes_table [] R' E).2) sb hG1paths rfl hc1.2.1 hc1.2.1).2.2
            have hc2 := foldl_addition_sb_congr (collect_changes_table [] R' E).1
              (List.foldl rollback_addition (List.foldl rollback_override
                (List.foldl rollback_override (merge_dicts E ((k, v) :: R'), n)
                  (collect_changes [k] v (some ev)).2)
                (collect_changes_table [] R' E).2)
                (collect_changes [k] v (some ev)).1)
              (List.foldl rollback_override (merge_dicts E R', n)
                (collect_changes_table [] R' E).2) sb hT1paths
              (hlG1.trans hc1.1) honceG1 hc1.2.2
            have hrp' : path_get R' (sb :: tail) = some (Value.table []) := by
              rw [path_get_cons] at hrp ⊢
              rw [show lookupTable ((k, v) :: R') sb = lookupTable R' sb from by
                rw [lookupTable_cons, if_neg hsb]] at hrp
              exact hrp
            have hIH := ih (sizeOf R') hszR' R' E (sb :: tail) n le_rfl hwfR' hwfE
              (by simp) hrp' hep hanc
            rw [path_get_cons, hc2.1, ← path_get_cons]
            exact hIH

/-- C10 (amended): when the repo tree holds an empty table at a path the
existing tree lacks, and every strict ancestor of that path that exists
on the existing side is itself a table (so no Override is recorded at an
ancestor), then install's diff records no Addition and no Override entry
at or below that path, the merged tree holds the empty table at the
path, and the rollback pass of remove leaves it there — the merged
document keeps an entry the ledger does not track.  (When the existing
tree has a non-table at a strict ancestor, that ancestor itself is
recorded as an Override and rollback removes the empty table by
restoring the ancestor, as the counterexample shows.) -/
theorem c10_amended_empty_table_untracked (R E : Table) (p : List String)
    (hwfR : wfTable R = true) (hwfE : wfTable E = true) (hp : p ≠ [])
    (hrp : path_get R p = some (Value.table []))
    (hep : path_get E p = none)
    (hanc : ancestorsTabled E p = true) :
    (∀ e ∈ (diffTable R E).1, startsWithPath p e.path = false)
    ∧ (∀ e ∈ (diffTable R E).2, startsWithPath p e.path = false)
    ∧ path_get (merge_dicts E R) p = some (Value.table [])
    ∧ path_get (rollback (diffTable R E).2 (diffTable R E).1 (merge_dicts E R)).1 p
        = some (Value.table []) := by
  obtain ⟨hadd, hov⟩ := diff_no_entries_below_empty (sizeOf R) R E p le_rfl hwfR hp hrp hep
  refine ⟨hadd, hov, merge_path_get_empty p R E hp hrp hep, ?_⟩
  exact c10_rollback_master (sizeOf R) R E p 0 le_rfl hwfR hwfE hp hrp hep hanc

theorem c10_amended_witness :
    (∀ e ∈ (diffTable [(keyA, Value.table [(keyB, Value.table [])])]
        [(keyA, Value.table [(keyC, Value.int 1)])]).1,
      startsWithPath [keyA, keyB] e.path = false)
    ∧ (∀ e ∈ (diffTable [(keyA, Value.table [(keyB, Value.table [])])]
        [(keyA, Value.table [(keyC, Value.int 1)])]).2,
      startsWithPath [keyA, keyB] e.path = false)
    ∧ path_get (merge_dicts [(keyA, Value.table [(keyC, Value.int 1)])]
        [(keyA, Value.table [(keyB, Value.table [])])]) [keyA, keyB]
        = some (Value.table [])
    ∧ path_get (rollback
        (diffTable [(keyA, Value.table [(keyB, Value.table [])])]
          [(keyA, Value.table [(keyC, Value.int 1)])]).2
        (diffTable [(keyA, Value.table [(keyB, Value.table [])])]
          [(keyA, Value.table [(keyC, Value.int 1)])]).1
        (merge_dicts [(keyA, Value.table [(keyC, Value.int 1)])]
          [(keyA, Value.table [(keyB, Value.table [])])])).1 [keyA, keyB]
        = some (Value.table []) :=
  c10_amended_empty_table_untracked
    [(keyA, Value.table [(keyB, Value.table [])])]
    [(keyA, Value.table [(keyC, Value.int 1)])] [keyA, keyB]
    (by decide) (by decide) (by decide) (by decide) (by decide) (by decide)

end CodexConfig
